import Mathlib

/-!
# json-ref-util: reference resolution and patch directives

A shallow embedding of `reference.go` (package `jsonrefutil`).

* A Go `interface{}` holding decoded JSON is a `Json` value; a
  `map[string]interface{}` is an association list `Obj`.  Go maps have unique
  keys and an unspecified iteration order; the embedding iterates in list
  order, and the theorems that depend on key uniqueness carry it as a
  hypothesis.
* In-place mutation of a map becomes returning the updated association list.
  A directive payload is read as a value when the loop over it starts.
* `filepath.Join`, `filepath.Dir`, `filepath.Base` and the file store are
  parameters, collected in `Env`.
* The recursion of `resolveReferences` is driven by a fuel counter that drops
  by one at every recursive call.
-/

namespace JsonRefUtil

/-- A decoded JSON value (`interface{}` after `json.Unmarshal`).  Numbers are
never inspected by the program; they are kept as integers. -/
inductive Json where
  | null
  | bool (b : Bool)
  | num (n : Int)
  | str (s : String)
  | arr (xs : List Json)
  | obj (kvs : List (String × Json))

/-- The Go type `map[string]interface{}`. -/
abbrev Obj := List (String × Json)

/-- The errors the program returns, one constructor per `return` site. -/
inductive Err where
  /-- `invalid json data` (line 87). -/
  | invalidJsonData (data : Json)
  /-- `invalid reference data` (line 94). -/
  | invalidReferenceData (refData : Json)
  /-- `$ref must have 'path' value` (line 102). -/
  | missingPath (refValue : Obj)
  /-- `cyclic reference detected` (line 107). -/
  | cyclicReference (referencedFiles : List String) (duplicateFilePath : String)
  /-- `os.ReadFile` failed, or the bytes are not valid JSON text. -/
  | readFile (filePath : String)
  /-- `json.Unmarshal` was handed a target that is not a pointer. -/
  | invalidUnmarshal (filePath : String)
  /-- `json.Unmarshal` met a root value that does not fit a map. -/
  | unmarshalType (filePath : String)
  /-- `referenced key not found` (line 124). -/
  | keyNotFound (refKey refPath : String)
  /-- `json format of referenced value is invalid` (line 139). -/
  | invalidReferencedValue (referencedValue : Json)
  /-- `invalid $override value` (line 193). -/
  | invalidOverride (overrideData : Json)
  /-- `invalid $add value` (line 216). -/
  | invalidAdd (addData : Json)
  /-- `invalid $delete value` (line 239). -/
  | invalidDelete (deleteData : Json)
  /-- `error writing updated json to file` (line 273): `os.WriteFile`
  failed. -/
  | writeFile (outputFilePath : String)
  /-- The unchecked assertion `deletableKey.(string)` (line 256) on a value
  that is not a string: a run-time panic. -/
  | assertionPanic (deletableKey : Json)
  /-- The fuel of the embedding ran out (no counterpart in the program). -/
  | outOfFuel

/-- The library functions and the file store the program runs against. -/
structure Env where
  /-- `filepath.Join` of two elements. -/
  join : String → String → String
  /-- `filepath.Dir`. -/
  dir : String → String
  /-- `filepath.Base`. -/
  baseName : String → String
  /-- The decoded content of a file; `none` when `os.ReadFile` fails or the
  bytes are not valid JSON text. -/
  files : String → Option Json

/-- Map read `m[key]` with the comma-ok result. -/
def mapGet (m : Obj) (key : String) : Option Json :=
  match m with
  | [] => none
  | (k, v) :: rest => if k = key then some v else mapGet rest key

/-- Map write `m[key] = value`. -/
def mapSet (m : Obj) (key : String) (value : Json) : Obj :=
  match m with
  | [] => [(key, value)]
  | (k, v) :: rest =>
    if k = key then (k, value) :: rest else (k, v) :: mapSet rest key value

/-- The builtin `delete(m, key)`. -/
def mapDelete (m : Obj) (key : String) : Obj :=
  m.filter (fun kv => decide (kv.1 ≠ key))

/-- The keys of a map. -/
def keys (m : Obj) : List String := m.map Prod.fst

/-- The assertion `v.(string)` applied to a map read, with the comma-ok
result (lines 98 and 99). -/
def asString : Option Json → Option String
  | some (.str s) => some s
  | _ => none

/-- Function `parseJsonFile` (lines 74 to 81): read the file and unmarshal it
into the map the caller passes.  `isPointer` tells whether the caller passed
the address of its map (`&refFileData`, line 115) or the map itself
(`jsonMap`, lines 27 and 53); `json.Unmarshal` refuses the latter.  JSON
`null` leaves a pointed-to map nil, which reads as the empty map. -/
def parseJsonFile (env : Env) (filePath : String) (isPointer : Bool) :
    Except Err Obj :=
  match env.files filePath with
  | none => .error (.readFile filePath)
  | some content =>
    if isPointer then
      match content with
      | .obj kvs => .ok kvs
      | .null => .ok []
      | _ => .error (.unmarshalType filePath)
    else .error (.invalidUnmarshal filePath)

mutual
/-- Function `override` (lines 190 to 211). -/
def override (data : Obj) (overrideData : Json) : Except Err Obj :=
  match overrideData with
  | .obj overrideDataMap => overrideLoop data overrideDataMap
  | other => .error (.invalidOverride other)
/-- The loop of `override` over the entries of the payload (lines 197 to
208). -/
def overrideLoop (data : Obj) (entries : List (String × Json)) :
    Except Err Obj :=
  match entries with
  | [] => .ok data
  | (key, value) :: rest =>
    match mapGet data key, value with
    | some (.obj dataMap), .obj nestedMap =>
      match override dataMap (.obj nestedMap) with
      | .error e => .error e
      | .ok d => overrideLoop (mapSet data key (.obj d)) rest
    | some _, _ => overrideLoop (mapSet data key value) rest
    | none, _ => overrideLoop data rest
end

mutual
/-- Function `add` (lines 213 to 234). -/
def add (data : Obj) (addData : Json) : Except Err Obj :=
  match addData with
  | .obj addDataMap => addLoop data addDataMap
  | other => .error (.invalidAdd other)
/-- The loop of `add` over the entries of the payload (lines 220 to 231). -/
def addLoop (data : Obj) (entries : List (String × Json)) : Except Err Obj :=
  match entries with
  | [] => .ok data
  | (key, value) :: rest =>
    match mapGet data key, value with
    | some (.obj dataMap), .obj nestedMap =>
      match add dataMap (.obj nestedMap) with
      | .error e => .error e
      | .ok d => addLoop (mapSet data key (.obj d)) rest
    | some _, _ => addLoop data rest
    | none, _ => addLoop (mapSet data key value) rest
end

/-- The inner loop of `remove` (lines 255 to 257): delete every named key;
the assertion `deletableKey.(string)` is unchecked. -/
def deleteKeys (dataMap : Obj) (deletableKeys : List Json) : Except Err Obj :=
  match deletableKeys with
  | [] => .ok dataMap
  | .str s :: rest => deleteKeys (mapDelete dataMap s) rest
  | other :: _ => .error (.assertionPanic other)

mutual
/-- Function `remove` (lines 236 to 263). -/
def remove (data : Obj) (deleteData : Json) : Except Err Obj :=
  match deleteData with
  | .obj deleteDataMap => removeLoop data deleteDataMap
  | other => .error (.invalidDelete other)
/-- The loop of `remove` over the entries of the payload (lines 243 to
260). -/
def removeLoop (data : Obj) (entries : List (String × Json)) :
    Except Err Obj :=
  match entries with
  | [] => .ok data
  | (key, value) :: rest =>
    match mapGet data key, value with
    | some (.obj dataMap), .obj nestedMap =>
      match remove dataMap (.obj nestedMap) with
      | .error e => .error e
      | .ok d => removeLoop (mapSet data key (.obj d)) rest
    | some (.obj dataMap), .arr deletableKeys =>
      match deleteKeys dataMap deletableKeys with
      | .error e => .error e
      | .ok d => removeLoop (mapSet data key (.obj d)) rest
    | _, _ => removeLoop data rest
end

/-- Lines 142 to 144: copy every entry of the referenced map into the node. -/
def mergeInto (dataMap : Obj) (referencedData : List (String × Json)) : Obj :=
  match referencedData with
  | [] => dataMap
  | (key, value) :: rest => mergeInto (mapSet dataMap key value) rest

/-- Lines 91 to 145 of `resolveReferences`: the expansion of `$ref`.  The
recursive call is the argument `self`.  Returns the node and the resolution
path as they stand after the block. -/
def expandReference (env : Env)
    (self : Json → String → List String → Except Err Json)
    (dataMap : Obj) (basePath : String) (referencedFiles : List String) :
    Except Err (Obj × List String) :=
  match mapGet dataMap "$ref" with
  | none => .ok (dataMap, referencedFiles)
  | some (.obj refValue) =>
    match asString (mapGet refValue "path") with
    | none => .error (.missingPath refValue)
    | some refPath =>
      let refFilePath := env.join basePath refPath
      if refFilePath ∈ referencedFiles then
        .error (.cyclicReference referencedFiles refFilePath)
      else
        let referencedFiles := referencedFiles ++ [refFilePath]
        match parseJsonFile env refFilePath true with
        | .error e => .error e
        | .ok refFileData =>
          let selected : Except Err Json :=
            match asString (mapGet refValue "key") with
            | some refKey =>
              match mapGet refFileData refKey with
              | some v => .ok v
              | none => .error (.keyNotFound refKey refPath)
            | none => .ok (.obj refFileData)
          match selected with
          | .error e => .error e
          | .ok referencedValue =>
            match self referencedValue (env.dir refFilePath) referencedFiles with
            | .error e => .error e
            | .ok (.obj referencedData) =>
              .ok (mergeInto (mapDelete dataMap "$ref") referencedData,
                referencedFiles)
            | .ok other => .error (.invalidReferencedValue other)
  | some other => .error (.invalidReferenceData other)

/-- Lines 148 to 155 of `resolveReferences`: resolve every value of the node
that is itself a map.  The recursive call is the argument `self`. -/
def resolveNested (self : Json → Except Err Json) (entries : Obj) :
    Except Err Obj :=
  match entries with
  | [] => .ok []
  | (key, .obj nestedMap) :: rest =>
    match self (.obj nestedMap) with
    | .error e => .error e
    | .ok v =>
      match resolveNested self rest with
      | .error e => .error e
      | .ok r => .ok ((key, v) :: r)
  | (key, value) :: rest =>
    match resolveNested self rest with
    | .error e => .error e
    | .ok r => .ok ((key, value) :: r)

/-- Lines 158 to 165 of `resolveReferences`. -/
def overrideStep (dataMap : Obj) : Except Err Obj :=
  match mapGet dataMap "$override" with
  | some overrideData =>
    match override dataMap overrideData with
    | .error e => .error e
    | .ok d => .ok (mapDelete d "$override")
  | none => .ok dataMap

/-- Lines 168 to 175 of `resolveReferences`. -/
def addStep (dataMap : Obj) : Except Err Obj :=
  match mapGet dataMap "$add" with
  | some addData =>
    match add dataMap addData with
    | .error e => .error e
    | .ok d => .ok (mapDelete d "$add")
  | none => .ok dataMap

/-- Lines 178 to 185 of `resolveReferences`. -/
def deleteStep (dataMap : Obj) : Except Err Obj :=
  match mapGet dataMap "$delete" with
  | some deleteData =>
    match remove dataMap deleteData with
    | .error e => .error e
    | .ok d => .ok (mapDelete d "$delete")
  | none => .ok dataMap

/-- Lines 157 to 185 of `resolveReferences`: the three directives in the
order of the source. -/
def applyDirectives (dataMap : Obj) : Except Err Obj :=
  match overrideStep dataMap with
  | .error e => .error e
  | .ok d1 =>
    match addStep d1 with
    | .error e => .error e
    | .ok d2 => deleteStep d2

/-- Function `resolveReferences` (lines 84 to 188).  The node is mutated in
place by the program; the embedding returns the node as it stands when the
function returns `nil`. -/
def resolveReferences (env : Env) (fuel : Nat) (data : Json)
    (basePath : String) (referencedFiles : List String) : Except Err Json :=
  match fuel with
  | 0 => .error .outOfFuel
  | fuel + 1 =>
    match data with
    | .obj dataMap =>
      match expandReference env
          (fun v b r => resolveReferences env fuel v b r)
          dataMap basePath referencedFiles with
      | .error e => .error e
      | .ok (dataMap, referencedFiles) =>
        match resolveNested
            (fun v => resolveReferences env fuel v basePath referencedFiles)
            dataMap with
        | .error e => .error e
        | .ok dataMap =>
          match applyDirectives dataMap with
          | .error e => .error e
          | .ok dataMap => .ok (.obj dataMap)
    | other => .error (.invalidJsonData other)

/-- Function `FetchDereferencedJson` (lines 23 to 39).  The result stands for
the bytes `json.Marshal` produces from it; an error comes with no bytes. -/
def FetchDereferencedJson (env : Env) (fuel : Nat) (filePath : String) :
    Except Err Json :=
  match parseJsonFile env filePath false with
  | .error e => .error e
  | .ok jsonMap =>
    resolveReferences env fuel (.obj jsonMap) (env.dir filePath) [filePath]

mutual
/-- Function `override` (lines 190 to 211) with the target threaded through:
the map as it stands when the function returns, and the error it returns
(`none` for `nil`). -/
def overrideInPlace (data : Obj) (overrideData : Json) : Obj × Option Err :=
  match overrideData with
  | .obj overrideDataMap => overrideLoopInPlace data overrideDataMap
  | other => (data, some (.invalidOverride other))
/-- The loop of `override`, with the target threaded through. -/
def overrideLoopInPlace (data : Obj) (entries : List (String × Json)) :
    Obj × Option Err :=
  match entries with
  | [] => (data, none)
  | (key, value) :: rest =>
    match mapGet data key, value with
    | some (.obj dataMap), .obj nestedMap =>
      match overrideInPlace dataMap (.obj nestedMap) with
      | (d, some e) => (mapSet data key (.obj d), some e)
      | (d, none) => overrideLoopInPlace (mapSet data key (.obj d)) rest
    | some _, _ => overrideLoopInPlace (mapSet data key value) rest
    | none, _ => overrideLoopInPlace data rest
end

mutual
/-- Function `add` (lines 213 to 234) with the target threaded through: the
map as it stands when the function returns, and the error it returns. -/
def addInPlace (data : Obj) (addData : Json) : Obj × Option Err :=
  match addData with
  | .obj addDataMap => addLoopInPlace data addDataMap
  | other => (data, some (.invalidAdd other))
/-- The loop of `add`, with the target threaded through. -/
def addLoopInPlace (data : Obj) (entries : List (String × Json)) :
    Obj × Option Err :=
  match entries with
  | [] => (data, none)
  | (key, value) :: rest =>
    match mapGet data key, value with
    | some (.obj dataMap), .obj nestedMap =>
      match addInPlace dataMap (.obj nestedMap) with
      | (d, some e) => (mapSet data key (.obj d), some e)
      | (d, none) => addLoopInPlace (mapSet data key (.obj d)) rest
    | some _, _ => addLoopInPlace data rest
    | none, _ => addLoopInPlace (mapSet data key value) rest
end

/-- The result of a threaded operation as the plain operation gives it. -/
def returned (r : Obj × Option Err) : Except Err Obj :=
  match r with
  | (d, none) => .ok d
  | (_, some e) => .error e

/-- Function `generateUpdatedJson` (lines 265 to 277): the write it performs,
as the path and the value whose indented text is written, or the error of
line 273 when `os.WriteFile` fails; `writable` tells on which paths
`os.WriteFile` succeeds.  `filepath.Join` of three elements is the join of
the first two joined with the third; `json.MarshalIndent` does not fail on a
decoded value. -/
def generateUpdatedJson (env : Env) (writable : String → Bool)
    (fileName outputPath : String) (data : Json) : Except Err (String × Json) :=
  let outputFilePath := env.join (env.join outputPath "output_") fileName
  if writable outputFilePath then .ok (outputFilePath, data)
  else .error (.writeFile outputFilePath)

/-- Lines 43 to 49 and 64 to 69 of `GenerateDereferencedJson`: every option
stores its path in the one shared string; the directory of the input file is
used when that string is empty. -/
def outputDirectoryOf (env : Env) (filePath : String) (options : List String) :
    String :=
  let stored := options.foldl (fun _ outputDirectoryPath => outputDirectoryPath) ""
  if stored = "" then env.dir filePath else stored

/-- Function `GenerateDereferencedJson` (lines 41 to 72), with one string per
`WithOutputDirectoryPath` option; the result is the write performed. -/
def GenerateDereferencedJson (env : Env) (writable : String → Bool) (fuel : Nat)
    (filePath : String) (options : List String) : Except Err (String × Json) :=
  match parseJsonFile env filePath false with
  | .error e => .error e
  | .ok jsonMap =>
    match resolveReferences env fuel (.obj jsonMap) (env.dir filePath)
        [filePath] with
    | .error e => .error e
    | .ok resolved =>
      generateUpdatedJson env writable (env.baseName filePath)
        (outputDirectoryOf env filePath options) resolved

/-- The four reserved keys. -/
def isDirective (key : String) : Bool :=
  key = "$ref" || key = "$override" || key = "$add" || key = "$delete"

mutual
/-- No object at any depth of the value, inside sequences too, has a reserved
key. -/
def directiveFree : Json → Bool
  | .obj kvs => directiveFreeObj kvs
  | .arr xs => directiveFreeArr xs
  | _ => true
/-- The entries of a directive-free object. -/
def directiveFreeObj : List (String × Json) → Bool
  | [] => true
  | (key, value) :: rest =>
    !isDirective key && directiveFree value && directiveFreeObj rest
/-- The elements of a directive-free sequence. -/
def directiveFreeArr : List Json → Bool
  | [] => true
  | x :: xs => directiveFree x && directiveFreeArr xs
end

mutual
/-- No object reached from the value through object values only (never
through a sequence) has a reserved key. -/
def clean : Json → Bool
  | .obj kvs => cleanObj kvs
  | _ => true
/-- The entries of a clean object. -/
def cleanObj : List (String × Json) → Bool
  | [] => true
  | (key, value) :: rest => !isDirective key && clean value && cleanObj rest
end

/-- Every value of the map is clean (the keys of the map itself are not
looked at). -/
def cleanVals (m : Obj) : Bool := m.all (fun kv => clean kv.2)

mutual
/-- The height of the object nesting of a value: the number of nested calls
of `resolveReferences` a walk over it makes. -/
def depth : Json → Nat
  | .obj kvs => depthObj kvs + 1
  | _ => 0
/-- The largest depth among the values of a map. -/
def depthObj : List (String × Json) → Nat
  | [] => 0
  | (_, value) :: rest => max (depth value) (depthObj rest)
end

/-- One directive as the specification words it: apply the operation with
the payload the node holds under the reserved key, then drop that key; do
nothing when the node has no such key. -/
def directiveWith (op : Obj → Json → Except Err Obj) (key : String)
    (node data : Obj) : Except Err Obj :=
  match mapGet node key with
  | some payload =>
    match op data payload with
    | .error e => .error e
    | .ok d => .ok (mapDelete d key)
  | none => .ok data

/-- The directive pass as the specification words it: override with the
`$override` payload of the node, then add with the `$add` payload of the node,
then remove with the `$delete` payload of the node. -/
def directivesInOrder (node : Obj) : Except Err Obj :=
  match directiveWith override "$override" node node with
  | .error e => .error e
  | .ok d1 =>
    match directiveWith add "$add" node d1 with
    | .error e => .error e
    | .ok d2 => directiveWith remove "$delete" node d2

/-- Every value of the map is directive-free (the keys of the map itself are
not looked at). -/
def directiveFreeVals (m : Obj) : Bool := m.all (fun kv => directiveFree kv.2)

/-- The result of an operation as a JSON value. -/
def asJson (result : Except Err Obj) : Except Err Json :=
  match result with
  | .error e => .error e
  | .ok d => .ok (.obj d)

/-- A reference value `{"path": refPath}`. -/
def refTo (refPath : String) : Json := .obj [("path", .str refPath)]

/-- A path library for worked examples: every file lives in one directory
and a joined path is the file name itself. -/
def flatEnv (files : String → Option Json) : Env :=
  ⟨fun _ refPath => refPath, fun _ => ".", fun filePath => filePath, files⟩

/-- The assertion `v.(map[string]interface{})` succeeds. -/
def isObj : Json → Bool
  | .obj _ => true
  | _ => false

/-- The value found by following a list of keys through nested objects. -/
def getPath (v : Json) (path : List String) : Option Json :=
  match path with
  | [] => some v
  | key :: rest =>
    match v with
    | .obj kvs =>
      match mapGet kvs key with
      | some child => getPath child rest
      | none => none
    | _ => none

/-- Every path of the first value that ends in a value that is not an object
leads to the same value in the second. -/
def keepsLeaves (before after : Json) : Prop :=
  ∀ path v, getPath before path = some v → isObj v = false →
    getPath after path = some v

/-- The directory part of a slash-separated path, for worked examples. -/
def slashDir (filePath : String) : String :=
  match filePath.data.reverse.dropWhile (fun c => c != '/') with
  | [] => "."
  | _ :: d => String.mk d.reverse

/-- The last element of a slash-separated path, for worked examples. -/
def slashBase (filePath : String) : String :=
  String.mk (filePath.data.reverse.takeWhile (fun c => c != '/')).reverse

/-- A path library for worked examples with slash-separated paths (no
cleaning of `.` and `..`). -/
def slashEnv (files : String → Option Json) : Env :=
  ⟨fun a b => a ++ "/" ++ b, slashDir, slashBase, files⟩

/-- A file store with the one file `conf/a.json`. -/
def confFiles : String → Option Json := fun filePath =>
  if filePath = "conf/a.json" then some (.obj [("v", .num 1)]) else none

/-- A node in which two sibling objects reference the same file. -/
def siblingDoc (refPath : String) : Obj :=
  [("a", .obj [("$ref", refTo refPath)]), ("b", .obj [("$ref", refTo refPath)])]

mutual
/-- The size of a value as the walk sees it: one for the value itself plus
the sizes of the values of an object. -/
def jsize : Json → Nat
  | .obj kvs => jsizeObj kvs + 1
  | _ => 1
/-- The sum of the sizes of the values of a map. -/
def jsizeObj : List (String × Json) → Nat
  | [] => 0
  | (_, value) :: rest => jsize value + jsizeObj rest
end

/-- The number of known files that are not on the resolution path. -/
def unvisited (known referencedFiles : List String) : Nat :=
  (known.filter (fun p => decide (p ∉ referencedFiles))).length

/-- The result is the out-of-fuel mark of the embedding. -/
def ranOut {α : Type} : Except Err α → Bool
  | .error .outOfFuel => true
  | _ => false

/-- The result is the run-time panic of line 256: the call does not return. -/
def isPanic {α : Type} : Except Err α → Bool
  | .error (.assertionPanic _) => true
  | _ => false

/-- The call returns an error value: the result is an error that is neither
the run-time panic of line 256 nor the out-of-fuel mark of the embedding. -/
def returnsError {α : Type} : Except Err α → Bool
  | .error .outOfFuel => false
  | .error (.assertionPanic _) => false
  | .error _ => true
  | .ok _ => false

/-- The names of the files of `exampleFiles`. -/
def exampleKnown : List String :=
  ["b.json", "k.json", "parts.json", "mid.json", "leaf.json", "cycA.json",
   "cycB.json"]

/-- A small file store for the worked examples. -/
def exampleFiles : String → Option Json := fun filePath =>
  if filePath = "b.json" then
    some (.obj [("a", .obj [("x", .num 1), ("y", .num 2)])])
  else if filePath = "k.json" then
    some (.obj [("k", .obj [("x", .num 1)])])
  else if filePath = "parts.json" then
    some (.obj [("k", .obj [("x", .num 1), ("y", .str "s")]), ("other", .num 2)])
  else if filePath = "mid.json" then
    some (.obj [("$ref", refTo "leaf.json")])
  else if filePath = "leaf.json" then
    some (.obj [("v", .num 3), ("w", .obj [("z", .null)])])
  else if filePath = "cycA.json" then
    some (.obj [("$ref", refTo "cycB.json")])
  else if filePath = "cycB.json" then
    some (.obj [("$ref", refTo "cycA.json")])
  else none

/-- The environment of the worked examples. -/
def exampleEnv : Env := flatEnv exampleFiles

/-- A document without reserved keys: an object, a sequence with an object
in it, and a nested object. -/
def plainDoc : Obj :=
  [("name", .str "n"),
   ("list", .arr [.num 1, .obj [("k", .null)]]),
   ("inner", .obj [("deep", .obj [("v", .bool true)])])]

/-- A document whose only `$ref` sits in an object inside a sequence. -/
def sequenceDoc : Obj := [("items", .arr [.obj [("$ref", refTo "b.json")]])]

/-- A document with a reference, an addition that itself holds a reference,
and a deletion. -/
def patchedDoc : Obj :=
  [("$ref", refTo "b.json"),
   ("$add", .obj [("a", .obj [("n", .obj [("$ref", refTo "leaf.json")])])]),
   ("$delete", .obj [("a", .arr [.str "y"])])]

/-- What `patchedDoc` resolves to. -/
def patchedOut : Obj :=
  [("a", .obj [("x", .num 1),
    ("n", .obj [("v", .num 3), ("w", .obj [("z", .null)])])])]

/-- The node of the ordering example: `$override`, `$add` and `$delete`
all name the sub-keys of `a`. -/
def orderDoc : Obj :=
  [("a", .obj [("x", .num 1)]),
   ("$override", .obj [("a", .obj [("z", .num 0)])]),
   ("$add", .obj [("a", .obj [("z", .num 9)])]),
   ("$delete", .obj [("a", .arr [.str "x"])])]

/-- The ordering example with a `$delete` that names the added sub-key. -/
def orderDocDeleteAdded : Obj :=
  [("a", .obj [("x", .num 1)]),
   ("$override", .obj [("a", .obj [("z", .num 0)])]),
   ("$add", .obj [("a", .obj [("z", .num 9)])]),
   ("$delete", .obj [("a", .arr [.str "z"])])]

/-- A node with a reference to `b.json` and an `$override` that names a key
of that file. -/
def overrideOverRefDoc : Obj :=
  [("$ref", refTo "b.json"), ("$override", .obj [("a", .obj [("x", .num 5)])])]

/-- The walk of `resolveReferences` on a value meets a fault of a reference:
the node itself has the fault, or the value its reference selects leads to
one, or an object value of the node, as the node stands after its reference
was expanded, leads to one.  The base path and the resolution path are the
ones the program passes to the call. -/
inductive Faulty (env : Env) : Json → String → List String → Prop where
  /-- The value of `$ref` is not an object (line 93). -/
  | refNotObject (dm : Obj) (b : String) (r : List String) (refData : Json) :
      mapGet dm "$ref" = some refData → isObj refData = false →
      Faulty env (.obj dm) b r
  /-- The reference has no string `path` (line 101). -/
  | noPath (dm : Obj) (b : String) (r : List String) (rv : Obj) :
      mapGet dm "$ref" = some (.obj rv) → asString (mapGet rv "path") = none →
      Faulty env (.obj dm) b r
  /-- The file of the reference cannot be loaded (line 115). -/
  | cannotLoad (dm : Obj) (b : String) (r : List String) (rv : Obj)
      (refPath : String) (e : Err) :
      mapGet dm "$ref" = some (.obj rv) →
      asString (mapGet rv "path") = some refPath →
      parseJsonFile env (env.join b refPath) true = .error e →
      Faulty env (.obj dm) b r
  /-- The `key` of the reference is absent from the root object of the file
  (line 123). -/
  | keyAbsent (dm : Obj) (b : String) (r : List String) (rv : Obj)
      (refPath : String) (fd : Obj) (refKey : String) :
      mapGet dm "$ref" = some (.obj rv) →
      asString (mapGet rv "path") = some refPath →
      parseJsonFile env (env.join b refPath) true = .ok fd →
      asString (mapGet rv "key") = some refKey → mapGet fd refKey = none →
      Faulty env (.obj dm) b r
  /-- The referenced value is not an object (the call of line 131 fails at
  line 86). -/
  | referencedNotObject (dm : Obj) (b : String) (r : List String) (rv : Obj)
      (refPath : String) (fd : Obj) (refKey : String) (v : Json) :
      mapGet dm "$ref" = some (.obj rv) →
      asString (mapGet rv "path") = some refPath →
      parseJsonFile env (env.join b refPath) true = .ok fd →
      asString (mapGet rv "key") = some refKey → mapGet fd refKey = some v →
      isObj v = false →
      Faulty env (.obj dm) b r
  /-- The root object of the referenced file leads to a fault. -/
  | inReferencedRoot (dm : Obj) (b : String) (r : List String) (rv : Obj)
      (refPath : String) (fd : Obj) :
      mapGet dm "$ref" = some (.obj rv) →
      asString (mapGet rv "path") = some refPath →
      parseJsonFile env (env.join b refPath) true = .ok fd →
      asString (mapGet rv "key") = none →
      Faulty env (.obj fd) (env.dir (env.join b refPath))
        (r ++ [env.join b refPath]) →
      Faulty env (.obj dm) b r
  /-- The value under the `key` of the reference leads to a fault. -/
  | inReferencedKey (dm : Obj) (b : String) (r : List String) (rv : Obj)
      (refPath : String) (fd : Obj) (refKey : String) (v : Json) :
      mapGet dm "$ref" = some (.obj rv) →
      asString (mapGet rv "path") = some refPath →
      parseJsonFile env (env.join b refPath) true = .ok fd →
      asString (mapGet rv "key") = some refKey → mapGet fd refKey = some v →
      Faulty env v (env.dir (env.join b refPath)) (r ++ [env.join b refPath]) →
      Faulty env (.obj dm) b r
  /-- An object value of the node, as the node stands after lines 91 to 145,
  leads to a fault. -/
  | inNested (dm : Obj) (b : String) (r : List String) (fuel : Nat) (dm1 : Obj)
      (r1 : List String) (k : String) (nm : Obj) :
      expandReference env (fun v b r => resolveReferences env fuel v b r) dm b r =
        .ok (dm1, r1) →
      (k, Json.obj nm) ∈ dm1 → Faulty env (.obj nm) b r1 →
      Faulty env (.obj dm) b r

/-- A node whose object value `a` has a `$ref` that is not an object, next to
a reference to `b.json`, which has the key `a` too. -/
def shadowedFaultDoc : Obj :=
  [("$ref", refTo "b.json"), ("a", .obj [("$ref", .num 5)])]

/-- The same fault under the key `c`, which `b.json` does not have. -/
def besideRefFaultDoc : Obj :=
  [("$ref", refTo "b.json"), ("c", .obj [("$ref", .num 5)])]

/-- A node whose `$delete` names a child by a number. -/
def panicDoc : Obj :=
  [("a", .obj [("x", .num 1)]), ("$delete", .obj [("a", .arr [.num 1])])]

/-- A node with two object values: one whose `$delete` names a child by a
number, and one whose `$ref` is not an object. -/
def panicBesideFaultDoc : Obj :=
  [("b", .obj [("x", .obj []), ("$delete", .obj [("x", .arr [.num 1])])]),
   ("c", .obj [("$ref", .num 5)])]

/-! ## Association lists -/

theorem mapGet_mapSet_same (m : Obj) (k : String) (v : Json) :
    mapGet (mapSet m k v) k = some v := by
  induction m with
  | nil => simp [mapSet, mapGet]
  | cons e rest ih =>
    obtain ⟨k0, v0⟩ := e
    by_cases hk : k0 = k
    · simp [mapSet, mapGet, hk]
    · simp [mapSet, mapGet, hk, ih]

theorem mapGet_mapSet_ne (m : Obj) (k j : String) (v : Json) (h : j ≠ k) :
    mapGet (mapSet m k v) j = mapGet m j := by
  induction m with
  | nil =>
    have h2 : ¬ k = j := fun e => h e.symm
    simp [mapSet, mapGet, h2]
  | cons e rest ih =>
    obtain ⟨k0, v0⟩ := e
    by_cases hk : k0 = k
    · subst hk
      have h2 : ¬ k0 = j := fun e => h e.symm
      simp [mapSet, mapGet, h2]
    · by_cases hj : k0 = j
      · subst hj
        simp [mapSet, mapGet, hk]
      · simp [mapSet, mapGet, hk, hj, ih]

theorem mapGet_eq_none_iff (m : Obj) (k : String) :
    mapGet m k = none ↔ k ∉ keys m := by
  induction m with
  | nil => simp [mapGet, keys]
  | cons e rest ih =>
    obtain ⟨k0, v0⟩ := e
    by_cases hk : k0 = k
    · simp [mapGet, keys, hk]
    · have h2 : ¬ k = k0 := fun e => hk e.symm
      simp only [mapGet, hk, if_false, ih]
      simp [keys, h2]

theorem mapGet_mem (m : Obj) (k : String) (v : Json) (h : mapGet m k = some v) :
    (k, v) ∈ m := by
  induction m with
  | nil => simp [mapGet] at h
  | cons e rest ih =>
    obtain ⟨k0, v0⟩ := e
    by_cases hk : k0 = k
    · simp [mapGet, hk] at h
      simp [hk, h]
    · simp only [mapGet, hk, if_false] at h
      exact List.mem_cons_of_mem _ (ih h)

theorem keys_mapSet_of_get (m : Obj) (k : String) (v w : Json)
    (h : mapGet m k = some w) : keys (mapSet m k v) = keys m := by
  induction m with
  | nil => simp [mapGet] at h
  | cons e rest ih =>
    obtain ⟨k0, v0⟩ := e
    by_cases hk : k0 = k
    · simp [mapSet, keys, hk]
    · simp only [mapGet, hk, if_false] at h
      have := ih h
      simp [mapSet, keys, hk] at this ⊢
      exact this

theorem mapSet_of_get_none (m : Obj) (k : String) (v : Json)
    (h : mapGet m k = none) : mapSet m k v = m ++ [(k, v)] := by
  induction m with
  | nil => simp [mapSet]
  | cons e rest ih =>
    obtain ⟨k0, v0⟩ := e
    by_cases hk : k0 = k
    · simp [mapGet, hk] at h
    · simp only [mapGet, hk, if_false] at h
      simp [mapSet, hk, ih h]

theorem mapGet_mapDelete (m : Obj) (k j : String) :
    mapGet (mapDelete m k) j = if j = k then none else mapGet m j := by
  induction m with
  | nil => simp [mapDelete, mapGet]
  | cons e rest ih =>
    obtain ⟨k0, v0⟩ := e
    unfold mapDelete at ih ⊢
    by_cases hk : k0 = k
    · subst hk
      by_cases hj : j = k0
      · simp [List.filter, hj] at ih ⊢
        simpa [hj] using ih
      · have h2 : ¬ k0 = j := fun e => hj e.symm
        simp [List.filter, hj, mapGet, h2] at ih ⊢
        exact ih
    · by_cases hj : j = k
      · subst hj
        simp [List.filter, hk, mapGet] at ih ⊢
        exact ih
      · simp [List.filter, hk, mapGet, hj] at ih ⊢
        rw [ih]

theorem mapDelete_of_not_mem (m : Obj) (k : String) (h : k ∉ keys m) :
    mapDelete m k = m := by
  unfold mapDelete
  rw [List.filter_eq_self]
  intro e he
  have : e.1 ∈ keys m := List.mem_map_of_mem Prod.fst he
  have hne : e.1 ≠ k := fun h2 => h (h2 ▸ this)
  simp [hne]

theorem keys_mapDelete_subset (m : Obj) (k j : String)
    (h : j ∈ keys (mapDelete m k)) : j ∈ keys m ∧ j ≠ k := by
  unfold keys mapDelete at *
  rw [List.mem_map] at h
  obtain ⟨e, he, rfl⟩ := h
  rw [List.mem_filter] at he
  exact ⟨List.mem_map_of_mem Prod.fst he.1, by simpa using he.2⟩

/-! ## The three patch operations -/

theorem overrideLoop_nil (data : Obj) : overrideLoop data [] = .ok data := by
  unfold overrideLoop; rfl

theorem override_obj (data es : Obj) :
    override data (.obj es) = overrideLoop data es := by
  unfold override; rfl

/-- One iteration of the loop of `override`: the map after the entry
`(key, value)` has been handled. -/
theorem overrideLoop_cons (data : Obj) (key : String) (value : Json)
    (rest : Obj) (d : Obj)
    (h : overrideLoop data ((key, value) :: rest) = .ok d) :
    ∃ data1, overrideLoop data1 rest = .ok d ∧
      ((∃ t p t1, mapGet data key = some (.obj t) ∧ value = .obj p ∧
          override t (.obj p) = .ok t1 ∧ data1 = mapSet data key (.obj t1)) ∨
       (∃ tv, mapGet data key = some tv ∧
          (∀ t p, tv = .obj t → value = .obj p → False) ∧
          data1 = mapSet data key value) ∨
       (mapGet data key = none ∧ data1 = data)) := by
  unfold overrideLoop at h
  split at h
  · rename_i dataMap nestedMap hg
    split at h
    · simp at h
    · rename_i t1 ht1
      exact ⟨_, h, Or.inl ⟨dataMap, nestedMap, t1, hg, rfl, ht1, rfl⟩⟩
  · rename_i tv hg hne
    refine ⟨_, h, Or.inr (Or.inl ⟨tv, hg, ?_, rfl⟩)⟩
    intro t p h1 h2
    subst h1; subst h2
    exact hne t p rfl rfl
  · rename_i hg
    exact ⟨_, h, Or.inr (Or.inr ⟨hg, rfl⟩)⟩

theorem overrideLoop_keys (es : Obj) : ∀ (data d : Obj),
    overrideLoop data es = .ok d → keys d = keys data := by
  induction es with
  | nil => intro data d h; rw [overrideLoop_nil] at h; cases h; rfl
  | cons e rest ih =>
    intro data d h
    obtain ⟨key, value⟩ := e
    obtain ⟨data1, h1, hc⟩ := overrideLoop_cons data key value rest d h
    rw [ih data1 d h1]
    rcases hc with ⟨t, p, t1, hg, _, _, rfl⟩ | ⟨tv, hg, _, rfl⟩ | ⟨_, rfl⟩
    · exact keys_mapSet_of_get _ _ _ _ hg
    · exact keys_mapSet_of_get _ _ _ _ hg
    · rfl

theorem overrideLoop_frame (es : Obj) : ∀ (data d : Obj),
    overrideLoop data es = .ok d → ∀ k, k ∉ keys es → mapGet d k = mapGet data k := by
  induction es with
  | nil => intro data d h; rw [overrideLoop_nil] at h; cases h; intros; rfl
  | cons e rest ih =>
    intro data d h k hk
    obtain ⟨key, value⟩ := e
    have hk1 : k ≠ key := fun e => hk (by simp [keys, e])
    have hk2 : k ∉ keys rest := fun e => hk (by simp [keys] at e ⊢; exact Or.inr e)
    obtain ⟨data1, h1, hc⟩ := overrideLoop_cons data key value rest d h
    rw [ih data1 d h1 k hk2]
    rcases hc with ⟨t, p, t1, hg, _, _, rfl⟩ | ⟨tv, hg, _, rfl⟩ | ⟨_, rfl⟩
    · exact mapGet_mapSet_ne _ _ _ _ hk1
    · exact mapGet_mapSet_ne _ _ _ _ hk1
    · rfl

mutual
theorem override_total (data : Obj) (es : Obj) :
    ∃ d, override data (.obj es) = .ok d := by
  rw [override_obj]
  exact overrideLoop_total data es
theorem overrideLoop_total (data : Obj) (es : Obj) :
    ∃ d, overrideLoop data es = .ok d :=
  match es with
  | [] => ⟨data, overrideLoop_nil data⟩
  | (key, value) :: rest => by
    unfold overrideLoop
    split
    · rename_i dataMap nestedMap hg
      obtain ⟨t1, ht1⟩ := override_total dataMap nestedMap
      rw [ht1]
      exact overrideLoop_total _ rest
    · exact overrideLoop_total _ rest
    · exact overrideLoop_total _ rest
end

theorem mapGet_cons_ne (k0 : String) (v0 : Json) (rest : Obj) (k : String)
    (h : k0 ≠ k) : mapGet ((k0, v0) :: rest) k = mapGet rest k := by
  simp [mapGet, h]

theorem mapGet_cons_same (k0 : String) (v0 : Json) (rest : Obj) :
    mapGet ((k0, v0) :: rest) k0 = some v0 := by
  simp [mapGet]

/-- The per-key rule of the loop of `override`, for a payload with distinct
keys. -/
theorem overrideLoop_rule (es : Obj) : ∀ (data d : Obj),
    (keys es).Nodup → overrideLoop data es = .ok d →
    ∀ k pv, mapGet es k = some pv →
      (∀ t p, mapGet data k = some (.obj t) → pv = .obj p →
          ∃ t1, override t (.obj p) = .ok t1 ∧ mapGet d k = some (.obj t1)) ∧
      (∀ tv, mapGet data k = some tv → (isObj tv && isObj pv) = false →
          mapGet d k = some pv) ∧
      (mapGet data k = none → mapGet d k = none) := by
  induction es with
  | nil => intro data d _ _ k pv hk; simp [mapGet] at hk
  | cons e rest ih =>
    intro data d hnd h k pv hk
    obtain ⟨key, value⟩ := e
    have hnd1 : key ∉ keys rest := by
      simp [keys] at hnd ⊢
      exact hnd.1
    have hnd2 : (keys rest).Nodup := by
      simp [keys] at hnd ⊢
      exact hnd.2
    obtain ⟨data1, h1, hc⟩ := overrideLoop_cons data key value rest d h
    by_cases hkk : key = k
    · subst hkk
      rw [mapGet_cons_same] at hk
      cases hk
      have hfr := overrideLoop_frame rest data1 d h1 key hnd1
      rw [hfr]
      rcases hc with ⟨t, p, t1, hg, hv, ho, rfl⟩ | ⟨tv, hg, hno, rfl⟩ | ⟨hg, rfl⟩
      · subst hv
        refine ⟨?_, ?_, ?_⟩
        · intro t2 p2 hg2 hp2
          rw [hg] at hg2
          cases hg2; cases hp2
          exact ⟨t1, ho, mapGet_mapSet_same _ _ _⟩
        · intro tv hg2 hob
          rw [hg] at hg2
          cases hg2
          simp [isObj] at hob
        · intro hg2
          rw [hg] at hg2
          cases hg2
      · refine ⟨?_, ?_, ?_⟩
        · intro t2 p2 hg2 hp2
          rw [hg] at hg2
          cases hg2
          exact (hno t2 p2 rfl hp2).elim
        · intro tv2 _ _
          exact mapGet_mapSet_same _ _ _
        · intro hg2
          rw [hg] at hg2
          cases hg2
      · refine ⟨?_, ?_, ?_⟩
        · intro t2 p2 hg2 _
          rw [hg] at hg2
          cases hg2
        · intro tv2 hg2 _
          rw [hg] at hg2
          cases hg2
        · intro _
          exact hg
    · rw [mapGet_cons_ne _ _ _ _ hkk] at hk
      have hne : k ≠ key := fun e => hkk e.symm
      have hd1 : mapGet data1 k = mapGet data k := by
        rcases hc with ⟨t, p, t1, hg, hv, ho, rfl⟩ | ⟨tv, hg, hno, rfl⟩ | ⟨hg, rfl⟩
        · exact mapGet_mapSet_ne _ _ _ _ hne
        · exact mapGet_mapSet_ne _ _ _ _ hne
        · rfl
      have := ih data1 d hnd2 h1 k pv hk
      rw [hd1] at this
      exact this

/-- C9: `override(target, patch)` on an object patch returns no error and
follows the three-case rule for every key the patch names: both values
objects, the value becomes the override of the two; the key is in the target
otherwise (any type, null too), the value becomes the value of the patch
verbatim; the key is absent, it stays absent.  On the example of the
specification the named leaf is replaced and its sibling is kept. -/
theorem override_three_case_rule (target patch : Obj)
    (hpatch : (keys patch).Nodup) :
    (∃ out, override target (.obj patch) = .ok out ∧
      ∀ k pv, mapGet patch k = some pv →
        (∀ t p, mapGet target k = some (.obj t) → pv = .obj p →
            ∃ t1, override t (.obj p) = .ok t1 ∧
              mapGet out k = some (.obj t1)) ∧
        (∀ tv, mapGet target k = some tv → (isObj tv && isObj pv) = false →
            mapGet out k = some pv) ∧
        (mapGet target k = none → mapGet out k = none)) ∧
    override [("a", .obj [("x", .num 1), ("y", .num 2)])]
        (.obj [("a", .obj [("x", .num 5)])]) =
      .ok [("a", .obj [("x", .num 5), ("y", .num 2)])] := by
  refine ⟨?_, rfl⟩
  obtain ⟨out, hout⟩ := override_total target patch
  refine ⟨out, hout, ?_⟩
  rw [override_obj] at hout
  exact overrideLoop_rule patch target out hpatch hout

theorem override_three_case_rule_witness :
    (∃ out, override [("a", .obj [("x", .num 1)]), ("n", .null)]
        (.obj [("a", .obj [("x", .num 5)]), ("n", .num 7), ("q", .num 0)]) = .ok out ∧
      ∀ k pv, mapGet [("a", .obj [("x", .num 5)]), ("n", .num 7), ("q", .num 0)] k = some pv →
        (∀ t p, mapGet [("a", .obj [("x", .num 1)]), ("n", .null)] k = some (.obj t) → pv = .obj p →
            ∃ t1, override t (.obj p) = .ok t1 ∧
              mapGet out k = some (.obj t1)) ∧
        (∀ tv, mapGet [("a", .obj [("x", .num 1)]), ("n", .null)] k = some tv → (isObj tv && isObj pv) = false →
            mapGet out k = some pv) ∧
        (mapGet [("a", .obj [("x", .num 1)]), ("n", .null)] k = none → mapGet out k = none)) ∧
    override [("a", .obj [("x", .num 1), ("y", .num 2)])]
        (.obj [("a", .obj [("x", .num 5)])]) =
      .ok [("a", .obj [("x", .num 5), ("y", .num 2)])] :=
  override_three_case_rule [("a", .obj [("x", .num 1)]), ("n", .null)]
    [("a", .obj [("x", .num 5)]), ("n", .num 7), ("q", .num 0)] (by decide)

/-- C10: `override` never introduces a key: on every object target and
object patch it returns a map with the keys of the target, in which every key
the patch does not name has the value it had. -/
theorem override_never_adds_keys (target patch : Obj) :
    ∃ out, override target (.obj patch) = .ok out ∧ keys out = keys target ∧
      ∀ k, k ∉ keys patch → mapGet out k = mapGet target k := by
  obtain ⟨out, hout⟩ := override_total target patch
  refine ⟨out, hout, ?_, ?_⟩
  · rw [override_obj] at hout
    exact overrideLoop_keys patch target out hout
  · rw [override_obj] at hout
    exact overrideLoop_frame patch target out hout

/-! ## Directive-free and clean values -/

theorem clean_obj (kvs : Obj) : clean (.obj kvs) = cleanObj kvs := by
  unfold clean; rfl

theorem cleanObj_iff (m : Obj) :
    cleanObj m = true ↔ ∀ e ∈ m, isDirective e.1 = false ∧ clean e.2 = true := by
  induction m with
  | nil => simp [cleanObj]
  | cons e rest ih =>
    obtain ⟨k0, v0⟩ := e
    unfold cleanObj
    simp only [Bool.and_eq_true, ih, List.mem_cons, forall_eq_or_imp, Bool.not_eq_true',
      and_assoc]

theorem cleanVals_iff (m : Obj) :
    cleanVals m = true ↔ ∀ e ∈ m, clean e.2 = true := by
  simp [cleanVals, List.all_eq_true]

theorem cleanObj_cleanVals (m : Obj) (h : cleanObj m = true) : cleanVals m = true := by
  rw [cleanVals_iff]
  intro e he
  exact ((cleanObj_iff m).1 h e he).2

theorem cleanObj_get_directive (m : Obj) (k : String) (h : cleanObj m = true)
    (hk : isDirective k = true) : mapGet m k = none := by
  rw [mapGet_eq_none_iff]
  intro hmem
  unfold keys at hmem
  rw [List.mem_map] at hmem
  obtain ⟨e, he, rfl⟩ := hmem
  have := ((cleanObj_iff m).1 h e he).1
  rw [hk] at this
  cases this

mutual
theorem directiveFree_clean (v : Json) (h : directiveFree v = true) :
    clean v = true :=
  match v with
  | .obj kvs => by
    rw [clean_obj]
    unfold directiveFree at h
    exact directiveFreeObj_cleanObj kvs h
  | .null => by unfold clean; rfl
  | .bool _ => by unfold clean; rfl
  | .num _ => by unfold clean; rfl
  | .str _ => by unfold clean; rfl
  | .arr _ => by unfold clean; rfl
theorem directiveFreeObj_cleanObj (m : Obj) (h : directiveFreeObj m = true) :
    cleanObj m = true :=
  match m with
  | [] => by unfold cleanObj; rfl
  | (key, value) :: rest => by
    unfold directiveFreeObj at h
    unfold cleanObj
    simp only [Bool.and_eq_true] at h ⊢
    exact ⟨⟨h.1.1, directiveFree_clean value h.1.2⟩,
      directiveFreeObj_cleanObj rest h.2⟩
end

theorem depth_obj (kvs : Obj) : depth (.obj kvs) = depthObj kvs + 1 := by
  unfold depth; rfl

theorem depth_le_depthObj (m : Obj) : ∀ e ∈ m, depth e.2 ≤ depthObj m := by
  induction m with
  | nil => intro e he; cases he
  | cons e0 rest ih =>
    obtain ⟨k0, v0⟩ := e0
    intro e he
    unfold depthObj
    rcases List.mem_cons.1 he with rfl | h
    · exact le_max_left _ _
    · exact le_trans (ih e h) (le_max_right _ _)

/-! ## The walk of `resolveReferences` -/

theorem resolveReferences_zero (env : Env) (data : Json) (b : String)
    (r : List String) : resolveReferences env 0 data b r = .error .outOfFuel := rfl

theorem resolveReferences_succ (env : Env) (fuel : Nat) (dataMap : Obj)
    (b : String) (r : List String) :
    resolveReferences env (fuel + 1) (.obj dataMap) b r =
      match expandReference env
          (fun v b r => resolveReferences env fuel v b r) dataMap b r with
      | .error e => .error e
      | .ok (dataMap, referencedFiles) =>
        match resolveNested
            (fun v => resolveReferences env fuel v b referencedFiles)
            dataMap with
        | .error e => .error e
        | .ok dataMap =>
          match applyDirectives dataMap with
          | .error e => .error e
          | .ok dataMap => .ok (.obj dataMap) := rfl

theorem resolveNested_id (self : Json → Except Err Json) (entries : Obj)
    (h : ∀ e ∈ entries, ∀ nm, e.2 = .obj nm → self (.obj nm) = .ok (.obj nm)) :
    resolveNested self entries = .ok entries := by
  induction entries with
  | nil => unfold resolveNested; rfl
  | cons e rest ih =>
    obtain ⟨k0, v0⟩ := e
    have ih1 := ih (fun e he => h e (List.mem_cons_of_mem _ he))
    cases v0 with
    | obj nm =>
      simp only [resolveNested, ih1]
      rw [h (k0, .obj nm) (List.mem_cons_self _ _) nm rfl]
    | null => simp only [resolveNested, ih1]
    | bool _ => simp only [resolveNested, ih1]
    | num _ => simp only [resolveNested, ih1]
    | str _ => simp only [resolveNested, ih1]
    | arr _ => simp only [resolveNested, ih1]

theorem expandReference_none (env : Env)
    (self : Json → String → List String → Except Err Json)
    (dataMap : Obj) (b : String) (r : List String)
    (h : mapGet dataMap "$ref" = none) :
    expandReference env self dataMap b r = .ok (dataMap, r) := by
  unfold expandReference
  rw [h]

theorem applyDirectives_none (dataMap : Obj)
    (h1 : mapGet dataMap "$override" = none) (h2 : mapGet dataMap "$add" = none)
    (h3 : mapGet dataMap "$delete" = none) :
    applyDirectives dataMap = .ok dataMap := by
  unfold applyDirectives overrideStep
  rw [h1]
  simp only
  unfold addStep
  rw [h2]
  simp only
  unfold deleteStep
  rw [h3]

/-- The walk over the values of a map is the identity when every value is
clean and the fuel covers its depth. -/
theorem resolve_clean_id (env : Env) (fuel : Nat) : ∀ (kvs : Obj) (b : String)
    (r : List String), cleanObj kvs = true → depthObj kvs < fuel →
    resolveReferences env fuel (.obj kvs) b r = .ok (.obj kvs) := by
  induction fuel with
  | zero => intro kvs b r _ h; omega
  | succ n ih =>
    intro kvs b r hc hd
    rw [resolveReferences_succ,
      expandReference_none env _ kvs b r (cleanObj_get_directive kvs _ hc (by decide))]
    simp only
    rw [resolveNested_id]
    · simp only
      rw [applyDirectives_none kvs (cleanObj_get_directive kvs _ hc (by decide))
        (cleanObj_get_directive kvs _ hc (by decide))
        (cleanObj_get_directive kvs _ hc (by decide))]
    · intro e he nm hnm
      have hce := ((cleanObj_iff kvs).1 hc e he).2
      rw [hnm, clean_obj] at hce
      have hde := depth_le_depthObj kvs e he
      rw [hnm, depth_obj] at hde
      exact ih nm b r hce (by omega)

theorem addLoop_nil (data : Obj) : addLoop data [] = .ok data := by
  unfold addLoop; rfl

theorem add_obj (data es : Obj) : add data (.obj es) = addLoop data es := by
  unfold add; rfl

/-- One iteration of the loop of `add`. -/
theorem addLoop_cons (data : Obj) (key : String) (value : Json)
    (rest : Obj) (d : Obj)
    (h : addLoop data ((key, value) :: rest) = .ok d) :
    ∃ data1, addLoop data1 rest = .ok d ∧
      ((∃ t p t1, mapGet data key = some (.obj t) ∧ value = .obj p ∧
          add t (.obj p) = .ok t1 ∧ data1 = mapSet data key (.obj t1)) ∨
       (∃ tv, mapGet data key = some tv ∧
          (∀ t p, tv = .obj t → value = .obj p → False) ∧ data1 = data) ∨
       (mapGet data key = none ∧ data1 = mapSet data key value)) := by
  unfold addLoop at h
  split at h
  · rename_i dataMap nestedMap hg
    split at h
    · simp at h
    · rename_i t1 ht1
      exact ⟨_, h, Or.inl ⟨dataMap, nestedMap, t1, hg, rfl, ht1, rfl⟩⟩
  · rename_i tv hg hne
    refine ⟨_, h, Or.inr (Or.inl ⟨tv, hg, ?_, rfl⟩)⟩
    intro t p h1 h2
    subst h1; subst h2
    exact hne t p rfl rfl
  · rename_i hg
    exact ⟨_, h, Or.inr (Or.inr ⟨hg, rfl⟩)⟩

theorem removeLoop_nil (data : Obj) : removeLoop data [] = .ok data := by
  unfold removeLoop; rfl

theorem remove_obj (data es : Obj) :
    remove data (.obj es) = removeLoop data es := by
  unfold remove; rfl

/-- One iteration of the loop of `remove`. -/
theorem removeLoop_cons (data : Obj) (key : String) (value : Json)
    (rest : Obj) (d : Obj)
    (h : removeLoop data ((key, value) :: rest) = .ok d) :
    ∃ data1, removeLoop data1 rest = .ok d ∧
      ((∃ t p t1, mapGet data key = some (.obj t) ∧ value = .obj p ∧
          remove t (.obj p) = .ok t1 ∧ data1 = mapSet data key (.obj t1)) ∨
       (∃ t ks t1, mapGet data key = some (.obj t) ∧ value = .arr ks ∧
          deleteKeys t ks = .ok t1 ∧ data1 = mapSet data key (.obj t1)) ∨
       data1 = data) := by
  unfold removeLoop at h
  split at h
  · rename_i dataMap nestedMap hg
    split at h
    · simp at h
    · rename_i t1 ht1
      exact ⟨_, h, Or.inl ⟨dataMap, nestedMap, t1, hg, rfl, ht1, rfl⟩⟩
  · rename_i dataMap ks hg
    split at h
    · simp at h
    · rename_i t1 ht1
      exact ⟨_, h, Or.inr (Or.inl ⟨dataMap, ks, t1, hg, rfl, ht1, rfl⟩)⟩
  · exact ⟨_, h, Or.inr (Or.inr rfl)⟩

theorem deleteKeys_subset (ks : List Json) : ∀ (m d : Obj),
    deleteKeys m ks = .ok d → ∀ e ∈ d, e ∈ m := by
  induction ks with
  | nil =>
    intro m d h e he
    unfold deleteKeys at h
    cases h
    exact he
  | cons x rest ih =>
    intro m d h e he
    cases x with
    | str s =>
      simp only [deleteKeys] at h
      have := ih _ d h e he
      unfold mapDelete at this
      exact (List.mem_filter.1 this).1
    | null => simp [deleteKeys] at h
    | bool _ => simp [deleteKeys] at h
    | num _ => simp [deleteKeys] at h
    | arr _ => simp [deleteKeys] at h
    | obj _ => simp [deleteKeys] at h

theorem addLoop_keys_subset (es : Obj) : ∀ (data d : Obj),
    addLoop data es = .ok d → ∀ k ∈ keys d, k ∈ keys data ∨ k ∈ keys es := by
  induction es with
  | nil => intro data d h k hk; rw [addLoop_nil] at h; cases h; exact Or.inl hk
  | cons e rest ih =>
    intro data d h k hk
    obtain ⟨key, value⟩ := e
    obtain ⟨data1, h1, hc⟩ := addLoop_cons data key value rest d h
    have hcons : keys ((key, value) :: rest) = key :: keys rest := rfl
    rw [hcons]
    rcases ih data1 d h1 k hk with h2 | h2
    · rcases hc with ⟨t, p, t1, hg, _, _, rfl⟩ | ⟨tv, hg, _, rfl⟩ | ⟨hg, rfl⟩
      · rw [keys_mapSet_of_get _ _ _ _ hg] at h2
        exact Or.inl h2
      · exact Or.inl h2
      · rw [mapSet_of_get_none _ _ _ hg] at h2
        simp [keys] at h2 ⊢
        rcases h2 with h3 | h3
        · exact Or.inl h3
        · exact Or.inr (Or.inl h3)
    · exact Or.inr (List.mem_cons_of_mem _ h2)

theorem addLoop_frame (es : Obj) : ∀ (data d : Obj),
    addLoop data es = .ok d → ∀ k, k ∉ keys es → mapGet d k = mapGet data k := by
  induction es with
  | nil => intro data d h; rw [addLoop_nil] at h; cases h; intros; rfl
  | cons e rest ih =>
    intro data d h k hk
    obtain ⟨key, value⟩ := e
    have hk1 : k ≠ key := fun e => hk (by simp [keys, e])
    have hk2 : k ∉ keys rest := fun e => hk (by simp [keys] at e ⊢; exact Or.inr e)
    obtain ⟨data1, h1, hc⟩ := addLoop_cons data key value rest d h
    rw [ih data1 d h1 k hk2]
    rcases hc with ⟨t, p, t1, hg, _, _, rfl⟩ | ⟨tv, hg, _, rfl⟩ | ⟨_, rfl⟩
    · exact mapGet_mapSet_ne _ _ _ _ hk1
    · rfl
    · exact mapGet_mapSet_ne _ _ _ _ hk1

theorem removeLoop_keys (es : Obj) : ∀ (data d : Obj),
    removeLoop data es = .ok d → keys d = keys data := by
  induction es with
  | nil => intro data d h; rw [removeLoop_nil] at h; cases h; rfl
  | cons e rest ih =>
    intro data d h
    obtain ⟨key, value⟩ := e
    obtain ⟨data1, h1, hc⟩ := removeLoop_cons data key value rest d h
    rw [ih data1 d h1]
    rcases hc with ⟨t, p, t1, hg, _, _, rfl⟩ | ⟨t, ks, t1, hg, _, _, rfl⟩ | rfl
    · exact keys_mapSet_of_get _ _ _ _ hg
    · exact keys_mapSet_of_get _ _ _ _ hg
    · rfl

theorem removeLoop_frame (es : Obj) : ∀ (data d : Obj),
    removeLoop data es = .ok d → ∀ k, k ∉ keys es → mapGet d k = mapGet data k := by
  induction es with
  | nil => intro data d h; rw [removeLoop_nil] at h; cases h; intros; rfl
  | cons e rest ih =>
    intro data d h k hk
    obtain ⟨key, value⟩ := e
    have hk1 : k ≠ key := fun e => hk (by simp [keys, e])
    have hk2 : k ∉ keys rest := fun e => hk (by simp [keys] at e ⊢; exact Or.inr e)
    obtain ⟨data1, h1, hc⟩ := removeLoop_cons data key value rest d h
    rw [ih data1 d h1 k hk2]
    rcases hc with ⟨t, p, t1, hg, _, _, rfl⟩ | ⟨t, ks, t1, hg, _, _, rfl⟩ | rfl
    · exact mapGet_mapSet_ne _ _ _ _ hk1
    · exact mapGet_mapSet_ne _ _ _ _ hk1
    · rfl

/-! ## Clean values are preserved -/

theorem cleanVals_mapSet (m : Obj) (k : String) (v : Json)
    (hm : cleanVals m = true) (hv : clean v = true) :
    cleanVals (mapSet m k v) = true := by
  induction m with
  | nil => simp [mapSet, cleanVals, hv]
  | cons e rest ih =>
    obtain ⟨k0, v0⟩ := e
    rw [cleanVals_iff] at hm
    have h0 := hm (k0, v0) (List.mem_cons_self _ _)
    have hr : cleanVals rest = true := by
      rw [cleanVals_iff]
      exact fun e he => hm e (List.mem_cons_of_mem _ he)
    have ih1 := (cleanVals_iff _).1 (ih hr)
    rw [cleanVals_iff]
    by_cases hk : k0 = k
    · simp only [mapSet, hk, if_true]
      intro e he
      rcases List.mem_cons.1 he with rfl | h
      · exact hv
      · exact hm e (List.mem_cons_of_mem _ h)
    · simp only [mapSet, hk, if_false]
      intro e he
      rcases List.mem_cons.1 he with rfl | h
      · exact h0
      · exact ih1 e h

theorem cleanVals_mapDelete (m : Obj) (k : String) (hm : cleanVals m = true) :
    cleanVals (mapDelete m k) = true := by
  rw [cleanVals_iff] at hm ⊢
  intro e he
  unfold mapDelete at he
  exact hm e (List.mem_filter.1 he).1

theorem cleanVals_get (m : Obj) (k : String) (v : Json)
    (hm : cleanVals m = true) (h : mapGet m k = some v) : clean v = true :=
  (cleanVals_iff m).1 hm (k, v) (mapGet_mem m k v h)

theorem cleanObj_keys (m : Obj) (h : cleanObj m = true) :
    ∀ k ∈ keys m, isDirective k = false := by
  intro k hk
  unfold keys at hk
  rw [List.mem_map] at hk
  obtain ⟨e, he, rfl⟩ := hk
  exact ((cleanObj_iff m).1 h e he).1

theorem cleanObj_of_keys (m : Obj) (hk : ∀ k ∈ keys m, isDirective k = false)
    (hv : cleanVals m = true) : cleanObj m = true := by
  rw [cleanObj_iff]
  intro e he
  exact ⟨hk e.1 (List.mem_map_of_mem Prod.fst he), (cleanVals_iff m).1 hv e he⟩

theorem cleanVals_cons (e : String × Json) (rest : Obj)
    (h : cleanVals (e :: rest) = true) :
    clean e.2 = true ∧ cleanVals rest = true := by
  rw [cleanVals_iff] at h
  refine ⟨h e (List.mem_cons_self _ _), ?_⟩
  rw [cleanVals_iff]
  exact fun x hx => h x (List.mem_cons_of_mem _ hx)

mutual
theorem override_cleanVals (data es d : Obj) (hd : cleanVals data = true)
    (he : cleanVals es = true) (h : override data (.obj es) = .ok d) :
    cleanVals d = true := by
  rw [override_obj] at h
  exact overrideLoop_cleanVals data es d hd he h
theorem overrideLoop_cleanVals (data es d : Obj) (hd : cleanVals data = true)
    (he : cleanVals es = true) (h : overrideLoop data es = .ok d) :
    cleanVals d = true :=
  match es with
  | [] => by rw [overrideLoop_nil] at h; cases h; exact hd
  | (key, value) :: rest => by
    obtain ⟨hv, hr⟩ := cleanVals_cons _ _ he
    unfold overrideLoop at h
    split at h
    · rename_i dataMap nestedMap hg
      split at h
      · simp at h
      · rename_i t1 ht1
        have hdm := cleanVals_get _ _ _ hd hg
        rw [clean_obj] at hdm
        simp only at hv
        rw [clean_obj] at hv
        have h1 := override_cleanVals dataMap nestedMap t1
          (cleanObj_cleanVals _ hdm) (cleanObj_cleanVals _ hv) ht1
        have h2 : keys t1 = keys dataMap := by
          rw [override_obj] at ht1
          exact overrideLoop_keys _ _ _ ht1
        have h3 : cleanObj t1 = true :=
          cleanObj_of_keys t1 (by rw [h2]; exact cleanObj_keys _ hdm) h1
        exact overrideLoop_cleanVals _ rest d
          (cleanVals_mapSet _ _ _ hd (by rw [clean_obj]; exact h3)) hr h
    · exact overrideLoop_cleanVals _ rest d (cleanVals_mapSet _ _ _ hd hv) hr h
    · exact overrideLoop_cleanVals _ rest d hd hr h
end

mutual
theorem add_cleanVals (data es d : Obj) (hd : cleanVals data = true)
    (he : cleanVals es = true) (h : add data (.obj es) = .ok d) :
    cleanVals d = true := by
  rw [add_obj] at h
  exact addLoop_cleanVals data es d hd he h
theorem addLoop_cleanVals (data es d : Obj) (hd : cleanVals data = true)
    (he : cleanVals es = true) (h : addLoop data es = .ok d) :
    cleanVals d = true :=
  match es with
  | [] => by rw [addLoop_nil] at h; cases h; exact hd
  | (key, value) :: rest => by
    obtain ⟨hv, hr⟩ := cleanVals_cons _ _ he
    unfold addLoop at h
    split at h
    · rename_i dataMap nestedMap hg
      split at h
      · simp at h
      · rename_i t1 ht1
        have hdm := cleanVals_get _ _ _ hd hg
        rw [clean_obj] at hdm
        simp only at hv
        rw [clean_obj] at hv
        have h1 := add_cleanVals dataMap nestedMap t1
          (cleanObj_cleanVals _ hdm) (cleanObj_cleanVals _ hv) ht1
        have h3 : cleanObj t1 = true := by
          refine cleanObj_of_keys t1 ?_ h1
          intro k hk
          rw [add_obj] at ht1
          rcases addLoop_keys_subset _ _ _ ht1 k hk with h4 | h4
          · exact cleanObj_keys _ hdm k h4
          · exact cleanObj_keys _ hv k h4
        exact addLoop_cleanVals _ rest d
          (cleanVals_mapSet _ _ _ hd (by rw [clean_obj]; exact h3)) hr h
    · exact addLoop_cleanVals _ rest d hd hr h
    · exact addLoop_cleanVals _ rest d (cleanVals_mapSet _ _ _ hd hv) hr h
end

mutual
theorem remove_cleanVals (data es d : Obj) (hd : cleanVals data = true)
    (h : remove data (.obj es) = .ok d) : cleanVals d = true := by
  rw [remove_obj] at h
  exact removeLoop_cleanVals data es d hd h
theorem removeLoop_cleanVals (data es d : Obj) (hd : cleanVals data = true)
    (h : removeLoop data es = .ok d) : cleanVals d = true :=
  match es with
  | [] => by rw [removeLoop_nil] at h; cases h; exact hd
  | (key, value) :: rest => by
    unfold removeLoop at h
    split at h
    · rename_i dataMap nestedMap hg
      split at h
      · simp at h
      · rename_i t1 ht1
        have hdm := cleanVals_get _ _ _ hd hg
        rw [clean_obj] at hdm
        have h1 := remove_cleanVals dataMap nestedMap t1
          (cleanObj_cleanVals _ hdm) ht1
        have h2 : keys t1 = keys dataMap := by
          rw [remove_obj] at ht1
          exact removeLoop_keys _ _ _ ht1
        have h3 : cleanObj t1 = true :=
          cleanObj_of_keys t1 (by rw [h2]; exact cleanObj_keys _ hdm) h1
        exact removeLoop_cleanVals _ rest d
          (cleanVals_mapSet _ _ _ hd (by rw [clean_obj]; exact h3)) h
    · rename_i dataMap ks hg
      split at h
      · simp at h
      · rename_i t1 ht1
        have hdm := cleanVals_get _ _ _ hd hg
        rw [clean_obj] at hdm
        have h3 : cleanObj t1 = true := by
          rw [cleanObj_iff] at hdm ⊢
          exact fun e he => hdm e (deleteKeys_subset ks dataMap t1 ht1 e he)
        exact removeLoop_cleanVals _ rest d
          (cleanVals_mapSet _ _ _ hd (by rw [clean_obj]; exact h3)) h
    · exact removeLoop_cleanVals _ rest d hd h
end

/-- The value `resolveReferences` recurses into after the file is loaded
(lines 119 to 128). -/
theorem expandReference_ok (env : Env)
    (self : Json → String → List String → Except Err Json)
    (dm : Obj) (b : String) (r : List String) (dm1 : Obj) (r1 : List String)
    (h : expandReference env self dm b r = .ok (dm1, r1)) :
    (mapGet dm "$ref" = none ∧ dm1 = dm ∧ r1 = r) ∨
    (∃ refValue refPath refFileData referencedValue referencedData,
      mapGet dm "$ref" = some (.obj refValue) ∧
      asString (mapGet refValue "path") = some refPath ∧
      env.join b refPath ∉ r ∧ r1 = r ++ [env.join b refPath] ∧
      parseJsonFile env (env.join b refPath) true = .ok refFileData ∧
      (match asString (mapGet refValue "key") with
        | some refKey => mapGet refFileData refKey = some referencedValue
        | none => referencedValue = .obj refFileData) ∧
      self referencedValue (env.dir (env.join b refPath)) r1 =
        .ok (.obj referencedData) ∧
      dm1 = mergeInto (mapDelete dm "$ref") referencedData) := by
  unfold expandReference at h
  split at h
  · rename_i hg
    simp only [Except.ok.injEq, Prod.mk.injEq] at h
    exact Or.inl ⟨hg, h.1.symm, h.2.symm⟩
  · rename_i refValue hg
    right
    split at h
    · simp at h
    · rename_i refPath hp
      simp only at h
      split at h
      · simp at h
      · rename_i hnot
        split at h
        · simp at h
        · rename_i refFileData hparse
          split at h
          · simp at h
          · rename_i referencedValue hsel
            split at h
            · simp at h
            · rename_i referencedData hself
              simp only [Except.ok.injEq, Prod.mk.injEq] at h
              obtain ⟨h1, h2⟩ := h
              subst h2
              refine ⟨refValue, refPath, refFileData, referencedValue, referencedData,
                hg, hp, hnot, rfl, hparse, ?_, hself, h1.symm⟩
              split at hsel
              · rename_i refKey hk
                split at hsel
                · rename_i v hv
                  simp only [Except.ok.injEq] at hsel
                  subst hsel
                  exact hv
                · simp at hsel
              · rename_i hk
                simp only [Except.ok.injEq] at hsel
                subst hsel
                rfl
            · simp at h
  · simp at h

theorem keys_mapSet_subset (m : Obj) (k0 : String) (v : Json) (k : String)
    (h : k ∈ keys (mapSet m k0 v)) : k ∈ keys m ∨ k = k0 := by
  cases hg : mapGet m k0 with
  | none =>
    rw [mapSet_of_get_none _ _ _ hg] at h
    simp [keys] at h ⊢
    exact h
  | some w =>
    rw [keys_mapSet_of_get _ _ _ _ hg] at h
    exact Or.inl h

theorem mergeInto_keys_subset (rd : Obj) : ∀ (dm : Obj) (k : String),
    k ∈ keys (mergeInto dm rd) → k ∈ keys dm ∨ k ∈ keys rd := by
  induction rd with
  | nil => intro dm k h; unfold mergeInto at h; exact Or.inl h
  | cons e rest ih =>
    intro dm k h
    obtain ⟨k0, v0⟩ := e
    unfold mergeInto at h
    have hcons : keys ((k0, v0) :: rest) = k0 :: keys rest := rfl
    rw [hcons]
    rcases ih _ k h with h1 | h1
    · rcases keys_mapSet_subset _ _ _ _ h1 with h2 | h2
      · exact Or.inl h2
      · exact Or.inr (by simp [h2])
    · exact Or.inr (List.mem_cons_of_mem _ h1)

theorem resolveNested_keys (self : Json → Except Err Json) (es : Obj) :
    ∀ es1, resolveNested self es = .ok es1 → keys es1 = keys es := by
  induction es with
  | nil => intro es1 h; unfold resolveNested at h; cases h; rfl
  | cons e rest ih =>
    intro es1 h
    obtain ⟨k0, v0⟩ := e
    cases v0 with
    | obj nm =>
      simp only [resolveNested] at h
      split at h
      · simp at h
      · split at h
        · simp at h
        · rename_i v hv _ r hr
          simp only [Except.ok.injEq] at h
          subst h
          have := ih r hr
          simp [keys] at this ⊢
          exact this
    | null | bool _ | num _ | str _ | arr _ =>
      simp only [resolveNested] at h
      split at h
      · simp at h
      · rename_i r hr
        simp only [Except.ok.injEq] at h
        subst h
        have := ih r hr
        simp [keys] at this ⊢
        exact this

theorem resolveNested_cleanVals (self : Json → Except Err Json)
    (hself : ∀ v o, self v = .ok o → clean o = true) (es : Obj) :
    ∀ es1, resolveNested self es = .ok es1 → cleanVals es1 = true := by
  induction es with
  | nil => intro es1 h; unfold resolveNested at h; cases h; rfl
  | cons e rest ih =>
    intro es1 h
    obtain ⟨k0, v0⟩ := e
    cases v0 with
    | obj nm =>
      simp only [resolveNested] at h
      split at h
      · simp at h
      · split at h
        · simp at h
        · rename_i v hv _ r hr
          simp only [Except.ok.injEq] at h
          subst h
          have h1 := ih r hr
          have h2 := hself _ _ hv
          simp [cleanVals] at h1 ⊢
          exact ⟨h2, h1⟩
    | null | bool _ | num _ | str _ | arr _ =>
      simp only [resolveNested] at h
      split at h
      · simp at h
      · rename_i r hr
        simp only [Except.ok.injEq] at h
        subst h
        have h1 := ih r hr
        simp [cleanVals, clean] at h1 ⊢
        exact h1

theorem expandReference_no_ref (env : Env)
    (self : Json → String → List String → Except Err Json)
    (hself : ∀ v b r o, self v b r = .ok o → clean o = true)
    (dm : Obj) (b : String) (r : List String) (dm1 : Obj) (r1 : List String)
    (h : expandReference env self dm b r = .ok (dm1, r1)) :
    "$ref" ∉ keys dm1 := by
  rcases expandReference_ok env self dm b r dm1 r1 h with
    ⟨hg, rfl, _⟩ | ⟨rv, rp, fd, v, rd, _, _, _, _, _, _, hs, rfl⟩
  · exact (mapGet_eq_none_iff _ _).1 hg
  · intro hmem
    have hc := hself _ _ _ _ hs
    rw [clean_obj] at hc
    rcases mergeInto_keys_subset rd _ _ hmem with h1 | h1
    · exact (keys_mapDelete_subset _ _ _ h1).2 rfl
    · have := cleanObj_keys rd hc _ h1
      simp [isDirective] at this

theorem override_ok_obj (data : Obj) (p : Json) (d : Obj)
    (h : override data p = .ok d) : ∃ es, p = .obj es := by
  cases p with
  | obj es => exact ⟨es, rfl⟩
  | null | bool _ | num _ | str _ | arr _ => simp [override] at h

theorem add_ok_obj (data : Obj) (p : Json) (d : Obj)
    (h : add data p = .ok d) : ∃ es, p = .obj es := by
  cases p with
  | obj es => exact ⟨es, rfl⟩
  | null | bool _ | num _ | str _ | arr _ => simp [add] at h

theorem remove_ok_obj (data : Obj) (p : Json) (d : Obj)
    (h : remove data p = .ok d) : ∃ es, p = .obj es := by
  cases p with
  | obj es => exact ⟨es, rfl⟩
  | null | bool _ | num _ | str _ | arr _ => simp [remove] at h

theorem overrideStep_clean (dm d1 : Obj) (hc : cleanVals dm = true)
    (h : overrideStep dm = .ok d1) :
    cleanVals d1 = true ∧ (∀ k ∈ keys d1, k ∈ keys dm) ∧ "$override" ∉ keys d1 := by
  unfold overrideStep at h
  split at h
  · rename_i p hg
    split at h
    · simp at h
    · rename_i d hd
      simp only [Except.ok.injEq] at h
      subst h
      obtain ⟨es, rfl⟩ := override_ok_obj _ _ _ hd
      have hp := cleanVals_get _ _ _ hc hg
      rw [clean_obj] at hp
      have h1 := override_cleanVals dm es d hc (cleanObj_cleanVals _ hp) hd
      rw [override_obj] at hd
      have h2 := overrideLoop_keys es dm d hd
      refine ⟨cleanVals_mapDelete _ _ h1, ?_, ?_⟩
      · intro k hk
        rw [← h2]
        exact (keys_mapDelete_subset _ _ _ hk).1
      · intro hk
        exact (keys_mapDelete_subset _ _ _ hk).2 rfl
  · rename_i hg
    simp only [Except.ok.injEq] at h
    subst h
    exact ⟨hc, fun k hk => hk, (mapGet_eq_none_iff _ _).1 hg⟩

theorem addStep_clean (dm d1 : Obj) (hc : cleanVals dm = true)
    (h : addStep dm = .ok d1) :
    cleanVals d1 = true ∧ (∀ k ∈ keys d1, k ∈ keys dm ∨ isDirective k = false) ∧
      "$add" ∉ keys d1 := by
  unfold addStep at h
  split at h
  · rename_i p hg
    split at h
    · simp at h
    · rename_i d hd
      simp only [Except.ok.injEq] at h
      subst h
      obtain ⟨es, rfl⟩ := add_ok_obj _ _ _ hd
      have hp := cleanVals_get _ _ _ hc hg
      rw [clean_obj] at hp
      have h1 := add_cleanVals dm es d hc (cleanObj_cleanVals _ hp) hd
      rw [add_obj] at hd
      refine ⟨cleanVals_mapDelete _ _ h1, ?_, ?_⟩
      · intro k hk
        rcases addLoop_keys_subset es dm d hd k (keys_mapDelete_subset _ _ _ hk).1 with h3 | h3
        · exact Or.inl h3
        · exact Or.inr (cleanObj_keys es hp k h3)
      · intro hk
        exact (keys_mapDelete_subset _ _ _ hk).2 rfl
  · rename_i hg
    simp only [Except.ok.injEq] at h
    subst h
    exact ⟨hc, fun k hk => Or.inl hk, (mapGet_eq_none_iff _ _).1 hg⟩

theorem deleteStep_clean (dm d1 : Obj) (hc : cleanVals dm = true)
    (h : deleteStep dm = .ok d1) :
    cleanVals d1 = true ∧ (∀ k ∈ keys d1, k ∈ keys dm) ∧ "$delete" ∉ keys d1 := by
  unfold deleteStep at h
  split at h
  · rename_i p hg
    split at h
    · simp at h
    · rename_i d hd
      simp only [Except.ok.injEq] at h
      subst h
      obtain ⟨es, rfl⟩ := remove_ok_obj _ _ _ hd
      have h1 := remove_cleanVals dm es d hc hd
      rw [remove_obj] at hd
      have h2 := removeLoop_keys es dm d hd
      refine ⟨cleanVals_mapDelete _ _ h1, ?_, ?_⟩
      · intro k hk
        rw [← h2]
        exact (keys_mapDelete_subset _ _ _ hk).1
      · intro hk
        exact (keys_mapDelete_subset _ _ _ hk).2 rfl
  · rename_i hg
    simp only [Except.ok.injEq] at h
    subst h
    exact ⟨hc, fun k hk => hk, (mapGet_eq_none_iff _ _).1 hg⟩

theorem applyDirectives_ok (dm out : Obj) (h : applyDirectives dm = .ok out) :
    ∃ d1 d2, overrideStep dm = .ok d1 ∧ addStep d1 = .ok d2 ∧
      deleteStep d2 = .ok out := by
  unfold applyDirectives at h
  split at h
  · simp at h
  · rename_i d1 h1
    split at h
    · simp at h
    · rename_i d2 h2
      exact ⟨d1, d2, h1, h2, h⟩

theorem isDirective_false_of_ne (k : String) (h1 : k ≠ "$ref")
    (h2 : k ≠ "$override") (h3 : k ≠ "$add") (h4 : k ≠ "$delete") :
    isDirective k = false := by
  simp [isDirective, h1, h2, h3, h4]

theorem applyDirectives_clean (dm out : Obj) (hc : cleanVals dm = true)
    (hr : "$ref" ∉ keys dm) (h : applyDirectives dm = .ok out) :
    cleanObj out = true := by
  obtain ⟨d1, d2, h1, h2, h3⟩ := applyDirectives_ok dm out h
  obtain ⟨c1, k1, n1⟩ := overrideStep_clean dm d1 hc h1
  obtain ⟨c2, k2, n2⟩ := addStep_clean d1 d2 c1 h2
  obtain ⟨c3, k3, n3⟩ := deleteStep_clean d2 out c2 h3
  refine cleanObj_of_keys out ?_ c3
  intro k hk
  have hk2 := k3 k hk
  rcases k2 k hk2 with hk1 | hpl
  · refine isDirective_false_of_ne k ?_ ?_ ?_ ?_
    · intro e; subst e; exact hr (k1 _ hk1)
    · intro e; subst e; exact n1 hk1
    · intro e; subst e; exact n2 hk2
    · intro e; subst e; exact n3 hk
  · exact hpl

/-- Whatever `resolveReferences` returns is clean. -/
theorem resolve_clean (env : Env) (fuel : Nat) : ∀ (data : Json) (b : String)
    (r : List String) (out : Json),
    resolveReferences env fuel data b r = .ok out → clean out = true := by
  induction fuel with
  | zero => intro data b r out h; simp [resolveReferences] at h
  | succ n ih =>
    intro data b r out h
    cases data with
    | obj dm =>
      rw [resolveReferences_succ] at h
      split at h
      · simp at h
      · rename_i dm1 r1 hex
        split at h
        · simp at h
        · rename_i dm2 hnest
          split at h
          · simp at h
          · rename_i dm3 hdir
            simp only [Except.ok.injEq] at h
            subst h
            rw [clean_obj]
            have hno := expandReference_no_ref env _ (fun v b r o => ih v b r o)
              dm b r dm1 r1 hex
            have hk := resolveNested_keys _ dm1 dm2 hnest
            have hcv := resolveNested_cleanVals _ (fun v o => ih v b r1 o) dm1 dm2 hnest
            exact applyDirectives_clean dm2 dm3 hcv (by rw [hk]; exact hno) hdir
    | null | bool _ | num _ | str _ | arr _ =>
      simp [resolveReferences] at h

/-! ## Claims on `resolveReferences` -/

/-- C1: on a root object in which no object at any depth has a key `$ref`,
`$override`, `$add` or `$delete`, `resolveReferences` succeeds (with fuel for
the depth of the object) and returns the object unchanged; resolving the
result again returns it unchanged again. -/
theorem resolve_directive_free_is_identity (env : Env) (fuel : Nat) (doc : Obj)
    (basePath : String) (referencedFiles : List String)
    (hfree : directiveFree (.obj doc) = true)
    (hfuel : depth (.obj doc) ≤ fuel) :
    resolveReferences env fuel (.obj doc) basePath referencedFiles =
        .ok (.obj doc) ∧
    ∀ out, resolveReferences env fuel (.obj doc) basePath referencedFiles =
        .ok out →
      resolveReferences env fuel out basePath referencedFiles = .ok out := by
  have hc := directiveFree_clean _ hfree
  rw [clean_obj] at hc
  rw [depth_obj] at hfuel
  have hid := resolve_clean_id env fuel doc basePath referencedFiles hc (by omega)
  refine ⟨hid, ?_⟩
  intro out hout
  rw [hid] at hout
  cases hout
  exact hid

theorem resolve_directive_free_is_identity_witness :
    directiveFree (.obj plainDoc) = true ∧ depth (.obj plainDoc) ≤ 3 ∧
    (resolveReferences exampleEnv 3 (.obj plainDoc) "." ["root.json"] =
        .ok (.obj plainDoc) ∧
      ∀ out, resolveReferences exampleEnv 3 (.obj plainDoc) "." ["root.json"] =
          .ok out →
        resolveReferences exampleEnv 3 out "." ["root.json"] = .ok out) :=
  ⟨by decide, by decide,
    resolve_directive_free_is_identity exampleEnv 3 plainDoc "." ["root.json"]
      (by decide) (by decide)⟩

/-- C2, as stated, fails: a `$ref` in an object that sits inside a sequence
is not expanded; resolution succeeds and the key is still in the output. -/
theorem resolve_leaves_directive_in_sequence :
    resolveReferences exampleEnv 3 (.obj sequenceDoc) "." ["root.json"] =
        .ok (.obj sequenceDoc) ∧
    directiveFree (.obj sequenceDoc) = false :=
  ⟨rfl, by decide⟩

/-- C2 (amended): whenever resolution succeeds, no object of the output that
is reached from the root through object values only (never through a
sequence) has a key `$ref`, `$override`, `$add` or `$delete`. -/
theorem resolve_output_is_clean (env : Env) (fuel : Nat) (data : Json)
    (basePath : String) (referencedFiles : List String) (out : Json)
    (h : resolveReferences env fuel data basePath referencedFiles = .ok out) :
    clean out = true :=
  resolve_clean env fuel data basePath referencedFiles out h

theorem resolve_output_is_clean_witness :
    resolveReferences exampleEnv 8 (.obj patchedDoc) "." ["root.json"] =
      .ok (.obj patchedOut) ∧
    clean (.obj patchedOut) = true :=
  ⟨rfl, resolve_output_is_clean exampleEnv 8 (.obj patchedDoc) "." ["root.json"]
    (.obj patchedOut) rfl⟩

/-! ## Inlining a referenced object -/

theorem mergeInto_nil (dm : Obj) : mergeInto dm [] = dm := by
  unfold mergeInto; rfl

theorem mergeInto_cons (dm : Obj) (k0 : String) (v0 : Json) (rest : Obj) :
    mergeInto dm ((k0, v0) :: rest) = mergeInto (mapSet dm k0 v0) rest := by
  rw [mergeInto]

theorem keys_cons (k0 : String) (v0 : Json) (rest : Obj) :
    keys ((k0, v0) :: rest) = k0 :: keys rest := rfl

/-- Reading a key after the referenced map was copied in: the referenced
value wins. -/
theorem mergeInto_get (rd : Obj) : ∀ (dm : Obj), (keys rd).Nodup → ∀ k,
    mapGet (mergeInto dm rd) k =
      match mapGet rd k with
      | some v => some v
      | none => mapGet dm k := by
  induction rd with
  | nil => intro dm _ k; rw [mergeInto_nil]; simp [mapGet]
  | cons e rest ih =>
    intro dm hnd k
    obtain ⟨k0, v0⟩ := e
    rw [keys_cons, List.nodup_cons] at hnd
    rw [mergeInto_cons, ih _ hnd.2 k]
    by_cases hk : k0 = k
    · subst hk
      rw [mapGet_cons_same, (mapGet_eq_none_iff rest k0).2 hnd.1]
      simp only
      exact mapGet_mapSet_same _ _ _
    · rw [mapGet_cons_ne _ _ _ _ hk]
      have hne : k ≠ k0 := fun e => hk e.symm
      rw [mapGet_mapSet_ne _ _ _ _ hne]

theorem mapSet_mem (m : Obj) (k : String) (v : Json) (e : String × Json)
    (h : e ∈ mapSet m k v) : e ∈ m ∨ e = (k, v) := by
  induction m with
  | nil => simp [mapSet] at h; exact Or.inr h
  | cons e0 rest ih =>
    obtain ⟨k0, v0⟩ := e0
    by_cases hk : k0 = k
    · simp only [mapSet, hk, if_true] at h
      rcases List.mem_cons.1 h with h1 | h1
      · exact Or.inr h1
      · exact Or.inl (List.mem_cons_of_mem _ h1)
    · simp only [mapSet, hk, if_false] at h
      rcases List.mem_cons.1 h with h1 | h1
      · exact Or.inl (by rw [h1]; exact List.mem_cons_self _ _)
      · rcases ih h1 with h2 | h2
        · exact Or.inl (List.mem_cons_of_mem _ h2)
        · exact Or.inr h2

theorem mergeInto_mem (rd : Obj) : ∀ (dm : Obj) (e : String × Json),
    e ∈ mergeInto dm rd → e ∈ dm ∨ e ∈ rd := by
  induction rd with
  | nil => intro dm e h; rw [mergeInto_nil] at h; exact Or.inl h
  | cons e0 rest ih =>
    intro dm e h
    obtain ⟨k0, v0⟩ := e0
    rw [mergeInto_cons] at h
    rcases ih _ e h with h1 | h1
    · rcases mapSet_mem _ _ _ _ h1 with h2 | h2
      · exact Or.inl h2
      · exact Or.inr (by rw [h2]; exact List.mem_cons_self _ _)
    · exact Or.inr (List.mem_cons_of_mem _ h1)

/-- Copying a map with distinct keys, none of them in the node, appends it. -/
theorem mergeInto_append (rd : Obj) : ∀ (dm : Obj), (keys rd).Nodup →
    (∀ k ∈ keys rd, k ∉ keys dm) → mergeInto dm rd = dm ++ rd := by
  induction rd with
  | nil => intro dm _ _; rw [mergeInto_nil]; simp
  | cons e rest ih =>
    intro dm hnd hdis
    obtain ⟨k0, v0⟩ := e
    rw [keys_cons, List.nodup_cons] at hnd
    have h0 : mapGet dm k0 = none :=
      (mapGet_eq_none_iff dm k0).2 (hdis k0 (by rw [keys_cons]; exact List.mem_cons_self _ _))
    rw [mergeInto_cons, mapSet_of_get_none _ _ _ h0, ih _ hnd.2]
    · simp
    · intro k hk hmem
      simp only [keys, List.map_append, List.mem_append, List.map_cons, List.map_nil,
        List.mem_singleton] at hmem
      rcases hmem with h1 | h1
      · exact hdis k (by rw [keys_cons]; exact List.mem_cons_of_mem _ hk) h1
      · subst h1
        exact hnd.1 hk

/-- The expansion of `$ref` when every check passes. -/
theorem expandReference_eval (env : Env)
    (self : Json → String → List String → Except Err Json)
    (dm : Obj) (b : String) (r : List String)
    (rv : Obj) (refPath : String) (fd : Obj) (referencedValue : Json) (rd : Obj)
    (href : mapGet dm "$ref" = some (.obj rv))
    (hpath : asString (mapGet rv "path") = some refPath)
    (hnew : env.join b refPath ∉ r)
    (hparse : parseJsonFile env (env.join b refPath) true = .ok fd)
    (hsel : match asString (mapGet rv "key") with
      | some refKey => mapGet fd refKey = some referencedValue
      | none => referencedValue = .obj fd)
    (hself : self referencedValue (env.dir (env.join b refPath))
      (r ++ [env.join b refPath]) = .ok (.obj rd)) :
    expandReference env self dm b r =
      .ok (mergeInto (mapDelete dm "$ref") rd, r ++ [env.join b refPath]) := by
  unfold expandReference
  rw [href]
  simp only
  rw [hpath]
  simp only [hnew, if_false, hparse]
  cases hk : asString (mapGet rv "key") with
  | none =>
    rw [hk] at hsel
    simp only at hsel
    subst hsel
    simp only [hself]
  | some refKey =>
    rw [hk] at hsel
    simp only at hsel
    simp only [hsel, hself]

theorem parseJsonFile_obj (env : Env) (filePath : String) (kvs : Obj)
    (h : env.files filePath = some (.obj kvs)) :
    parseJsonFile env filePath true = .ok kvs := by
  unfold parseJsonFile
  rw [h]
  simp

/-- The walk over a map whose values are clean and within the fuel changes
nothing. -/
theorem resolveNested_clean_id (env : Env) (n : Nat) (b : String)
    (r : List String) (es : Obj)
    (h : ∀ e ∈ es, clean e.2 = true ∧ depth e.2 ≤ n) :
    resolveNested (fun v => resolveReferences env n v b r) es = .ok es := by
  apply resolveNested_id
  intro e he nm hnm
  obtain ⟨hc, hd⟩ := h e he
  rw [hnm, clean_obj] at hc
  rw [hnm, depth_obj] at hd
  exact resolve_clean_id env n nm b r hc (by omega)

theorem mapDelete_mem (m : Obj) (k : String) (e : String × Json)
    (h : e ∈ mapDelete m k) : e ∈ m := by
  unfold mapDelete at h
  exact (List.mem_filter.1 h).1

/-- A node whose `$ref` resolves to the clean object `rd` and whose other
entries are clean becomes the node without `$ref` with `rd` copied in. -/
theorem resolve_ref_node (env : Env) (n : Nat) (dm : Obj) (b : String)
    (r : List String) (rv : Obj) (refPath : String) (fd : Obj)
    (referencedValue : Json) (rd : Obj)
    (href : mapGet dm "$ref" = some (.obj rv))
    (hpath : asString (mapGet rv "path") = some refPath)
    (hnew : env.join b refPath ∉ r)
    (hparse : parseJsonFile env (env.join b refPath) true = .ok fd)
    (hsel : match asString (mapGet rv "key") with
      | some refKey => mapGet fd refKey = some referencedValue
      | none => referencedValue = .obj fd)
    (hself : resolveReferences env n referencedValue
      (env.dir (env.join b refPath)) (r ++ [env.join b refPath]) = .ok (.obj rd))
    (hrd : cleanObj rd = true) (hrdd : depthObj rd ≤ n)
    (hdm : cleanObj (mapDelete dm "$ref") = true)
    (hdmd : depthObj dm ≤ n) :
    resolveReferences env (n + 1) (.obj dm) b r =
      .ok (.obj (mergeInto (mapDelete dm "$ref") rd)) := by
  have hmem : ∀ e ∈ mergeInto (mapDelete dm "$ref") rd,
      isDirective e.1 = false ∧ clean e.2 = true ∧ depth e.2 ≤ n := by
    intro e he
    rcases mergeInto_mem rd _ e he with h1 | h1
    · have := (cleanObj_iff _).1 hdm e h1
      exact ⟨this.1, this.2,
        le_trans (depth_le_depthObj dm e (mapDelete_mem _ _ _ h1)) hdmd⟩
    · have := (cleanObj_iff _).1 hrd e h1
      exact ⟨this.1, this.2, le_trans (depth_le_depthObj rd e h1) hrdd⟩
  have hclean : cleanObj (mergeInto (mapDelete dm "$ref") rd) = true := by
    rw [cleanObj_iff]
    exact fun e he => ⟨(hmem e he).1, (hmem e he).2.1⟩
  rw [resolveReferences_succ,
    expandReference_eval env _ dm b r rv refPath fd referencedValue rd href hpath hnew
      hparse hsel hself]
  simp only
  rw [resolveNested_clean_id env n b _ _ (fun e he => (hmem e he).2)]
  simp only
  rw [applyDirectives_none _ (cleanObj_get_directive _ _ hclean (by decide))
    (cleanObj_get_directive _ _ hclean (by decide))
    (cleanObj_get_directive _ _ hclean (by decide))]

theorem asString_str (m : Obj) (k s : String) (h : mapGet m k = some (.str s)) :
    asString (mapGet m k) = some s := by
  rw [h]; rfl

theorem asString_none (m : Obj) (k : String) (h : mapGet m k = none) :
    asString (mapGet m k) = none := by
  rw [h]; rfl

/-- C3: a node whose `$ref` has only `path`, pointing to a file with the
directive-free root object `B`, and whose other entries are directive-free,
resolves to an object in which every key of `B` has the value of `B` (the
referenced value wins over a same-named key of the node), `$ref` is gone, and
every other key has the value of the node; a key is in the result exactly
when the read below returns a value. -/
theorem ref_path_only_merges_file (env : Env) (fuel : Nat) (node rv : Obj)
    (refPath : String) (fileRoot : Obj) (basePath : String)
    (referencedFiles : List String)
    (href : mapGet node "$ref" = some (.obj rv))
    (hpath : mapGet rv "path" = some (.str refPath))
    (hkey : mapGet rv "key" = none)
    (hnew : env.join basePath refPath ∉ referencedFiles)
    (hfile : env.files (env.join basePath refPath) = some (.obj fileRoot))
    (hfree : directiveFree (.obj fileRoot) = true)
    (hkeys : (keys fileRoot).Nodup)
    (hnode : directiveFree (.obj (mapDelete node "$ref")) = true)
    (hfuel : depth (.obj node) + depth (.obj fileRoot) ≤ fuel) :
    ∃ out, resolveReferences env fuel (.obj node) basePath referencedFiles =
        .ok (.obj out) ∧
      ∀ k, mapGet out k =
        match mapGet fileRoot k with
        | some v => some v
        | none => if k = "$ref" then none else mapGet node k := by
  rw [depth_obj, depth_obj] at hfuel
  obtain ⟨n, rfl⟩ : ∃ n, fuel = n + 1 := ⟨fuel - 1, by omega⟩
  have hB := directiveFree_clean _ hfree
  rw [clean_obj] at hB
  have hN := directiveFree_clean _ hnode
  rw [clean_obj] at hN
  have hself := resolve_clean_id env n fileRoot (env.dir (env.join basePath refPath))
    (referencedFiles ++ [env.join basePath refPath]) hB (by omega)
  have hres := resolve_ref_node env n node basePath referencedFiles rv refPath fileRoot
    (.obj fileRoot) fileRoot href (asString_str _ _ _ hpath) hnew
    (parseJsonFile_obj env _ _ hfile)
    (by rw [asString_none _ _ hkey]) hself hB (by omega) hN (by omega)
  refine ⟨_, hres, ?_⟩
  intro k
  rw [mergeInto_get fileRoot _ hkeys k, mapGet_mapDelete]

theorem ref_path_only_merges_file_witness :
    ∃ out, resolveReferences exampleEnv 4
        (.obj [("a", .num 0), ("$ref", refTo "b.json"), ("c", .obj [("d", .null)])])
        "." ["root.json"] = .ok (.obj out) ∧
      ∀ k, mapGet out k =
        match mapGet [("a", .obj [("x", .num 1), ("y", .num 2)])] k with
        | some v => some v
        | none => if k = "$ref" then none else
          mapGet [("a", .num 0), ("$ref", refTo "b.json"), ("c", .obj [("d", .null)])] k :=
  ref_path_only_merges_file exampleEnv 4
    [("a", .num 0), ("$ref", refTo "b.json"), ("c", .obj [("d", .null)])]
    [("path", .str "b.json")] "b.json" [("a", .obj [("x", .num 1), ("y", .num 2)])]
    "." ["root.json"] rfl rfl rfl (by decide) rfl (by decide) (by decide) (by decide)
    (by decide)

/-- C4: a node whose `$ref` has `path` and a string `key`, where the root
object of the loaded file maps that key to the directive-free object `V`,
resolves by inlining `V`: every key of `V` has the value of `V`, `$ref` is
gone, the other keys keep the value of the node, and no other top-level key
of the file comes in; a node that holds nothing but the `$ref` becomes `V`.
For the file `{"k": {"x": 1}}` the result is `{"x": 1}`. -/
theorem ref_with_key_inlines_value (env : Env) (fuel : Nat) (node rv : Obj)
    (refPath refKey : String) (fileRoot V : Obj) (basePath : String)
    (referencedFiles : List String)
    (href : mapGet node "$ref" = some (.obj rv))
    (hpath : mapGet rv "path" = some (.str refPath))
    (hkey : mapGet rv "key" = some (.str refKey))
    (hnew : env.join basePath refPath ∉ referencedFiles)
    (hfile : env.files (env.join basePath refPath) = some (.obj fileRoot))
    (hV : mapGet fileRoot refKey = some (.obj V))
    (hfree : directiveFree (.obj V) = true)
    (hkeys : (keys V).Nodup)
    (hnode : directiveFree (.obj (mapDelete node "$ref")) = true)
    (hfuel : depth (.obj node) + depth (.obj V) ≤ fuel) :
    (∃ out, resolveReferences env fuel (.obj node) basePath referencedFiles =
        .ok (.obj out) ∧
      (∀ k, mapGet out k =
        match mapGet V k with
        | some v => some v
        | none => if k = "$ref" then none else mapGet node k) ∧
      (mapDelete node "$ref" = [] → out = V)) ∧
    resolveReferences exampleEnv 2
        (.obj [("$ref", .obj [("path", .str "k.json"), ("key", .str "k")])])
        "." ["root.json"] = .ok (.obj [("x", .num 1)]) := by
  refine ⟨?_, rfl⟩
  rw [depth_obj, depth_obj] at hfuel
  obtain ⟨n, rfl⟩ : ∃ n, fuel = n + 1 := ⟨fuel - 1, by omega⟩
  have hB := directiveFree_clean _ hfree
  rw [clean_obj] at hB
  have hN := directiveFree_clean _ hnode
  rw [clean_obj] at hN
  have hself := resolve_clean_id env n V (env.dir (env.join basePath refPath))
    (referencedFiles ++ [env.join basePath refPath]) hB (by omega)
  have hres := resolve_ref_node env n node basePath referencedFiles rv refPath fileRoot
    (.obj V) V href (asString_str _ _ _ hpath) hnew
    (parseJsonFile_obj env _ _ hfile)
    (by rw [asString_str _ _ _ hkey]; exact hV) hself hB (by omega) hN (by omega)
  refine ⟨_, hres, ?_, ?_⟩
  · intro k
    rw [mergeInto_get V _ hkeys k, mapGet_mapDelete]
  · intro hempty
    rw [hempty, mergeInto_append V [] hkeys (fun k _ h => by simp [keys] at h)]
    simp

theorem ref_with_key_inlines_value_witness :
    (∃ out, resolveReferences exampleEnv 3
        (.obj [("$ref", .obj [("path", .str "parts.json"), ("key", .str "k")]),
          ("own", .bool true)])
        "." ["root.json"] = .ok (.obj out) ∧
      (∀ k, mapGet out k =
        match mapGet [("x", .num 1), ("y", .str "s")] k with
        | some v => some v
        | none => if k = "$ref" then none else
          mapGet [("$ref", .obj [("path", .str "parts.json"), ("key", .str "k")]),
            ("own", .bool true)] k) ∧
      (mapDelete [("$ref", .obj [("path", .str "parts.json"), ("key", .str "k")]),
          ("own", .bool true)] "$ref" = [] →
        out = [("x", .num 1), ("y", .str "s")])) ∧
    resolveReferences exampleEnv 2
        (.obj [("$ref", .obj [("path", .str "k.json"), ("key", .str "k")])])
        "." ["root.json"] = .ok (.obj [("x", .num 1)]) :=
  ref_with_key_inlines_value exampleEnv 3
    [("$ref", .obj [("path", .str "parts.json"), ("key", .str "k")]),
      ("own", .bool true)]
    [("path", .str "parts.json"), ("key", .str "k")] "parts.json" "k"
    [("k", .obj [("x", .num 1), ("y", .str "s")]), ("other", .num 2)]
    [("x", .num 1), ("y", .str "s")] "." ["root.json"]
    rfl rfl rfl (by decide) rfl rfl (by decide) (by decide) (by decide) (by decide)

theorem depthObj_ref (p : String) : depthObj [("$ref", refTo p)] = 1 := by
  simp [depthObj, depth, refTo]

theorem mapDelete_ref (v : Json) : mapDelete [("$ref", v)] "$ref" = [] := by
  simp [mapDelete]

/-- C5: with three distinct files, the root document `{"$ref": {"path":
toB}}` of file A, the file B `{"$ref": {"path": toC}}` found from the
directory of A, and a directive-free file C found from the directory of B,
resolving the root document as `FetchDereferencedJson` sets it up succeeds and
returns exactly the root object of C, in which there is no `$ref`. -/
theorem ref_chain_flattens (env : Env) (fuel : Nat)
    (fileA toB fileB toC fileC : String) (C : Obj)
    (hfileB : fileB = env.join (env.dir fileA) toB)
    (hfileC : fileC = env.join (env.dir fileB) toC)
    (hAB : fileB ≠ fileA) (hAC : fileC ≠ fileA) (hBC : fileC ≠ fileB)
    (hB : env.files fileB = some (.obj [("$ref", refTo toC)]))
    (hC : env.files fileC = some (.obj C))
    (hfree : directiveFree (.obj C) = true)
    (hkeys : (keys C).Nodup)
    (hfuel : depth (.obj C) + 2 ≤ fuel) :
    resolveReferences env fuel (.obj [("$ref", refTo toB)]) (env.dir fileA)
        [fileA] = .ok (.obj C) ∧
    "$ref" ∉ keys C := by
  rw [depth_obj] at hfuel
  obtain ⟨m, rfl⟩ : ∃ m, fuel = m + 1 + 1 := ⟨fuel - 2, by omega⟩
  have hCc := directiveFree_clean _ hfree
  rw [clean_obj] at hCc
  have hnoref : "$ref" ∉ keys C :=
    (mapGet_eq_none_iff _ _).1 (cleanObj_get_directive C _ hCc (by decide))
  refine ⟨?_, hnoref⟩
  have hmergeC : mergeInto [] C = C := by
    rw [mergeInto_append C [] hkeys (fun k _ h => by simp [keys] at h)]
    simp
  have hselfC := resolve_clean_id env m C (env.dir fileC)
    (([fileA] ++ [fileB]) ++ [fileC]) hCc (by omega)
  have hresB := resolve_ref_node env m [("$ref", refTo toC)] (env.dir fileB)
    ([fileA] ++ [fileB]) [("path", .str toC)] toC C (.obj C) C rfl rfl
    (by rw [← hfileC]; simp [hAC, hBC])
    (by rw [← hfileC]; exact parseJsonFile_obj env _ _ hC)
    (by rfl)
    (by rw [← hfileC]; exact hselfC) hCc (by omega)
    (by rw [mapDelete_ref]; rfl) (by rw [depthObj_ref]; omega)
  rw [mapDelete_ref, hmergeC] at hresB
  have hresA := resolve_ref_node env (m + 1) [("$ref", refTo toB)] (env.dir fileA)
    [fileA] [("path", .str toB)] toB [("$ref", refTo toC)]
    (.obj [("$ref", refTo toC)]) C rfl rfl
    (by rw [← hfileB]; simp [hAB])
    (by rw [← hfileB]; exact parseJsonFile_obj env _ _ hB)
    (by rfl)
    (by rw [← hfileB]; exact hresB) hCc (by omega)
    (by rw [mapDelete_ref]; rfl) (by rw [depthObj_ref]; omega)
  rw [mapDelete_ref, hmergeC] at hresA
  exact hresA

theorem ref_chain_flattens_witness :
    resolveReferences exampleEnv 5 (.obj [("$ref", refTo "mid.json")])
        (exampleEnv.dir "top.json") ["top.json"] =
      .ok (.obj [("v", .num 3), ("w", .obj [("z", .null)])]) ∧
    "$ref" ∉ keys [("v", .num 3), ("w", .obj [("z", .null)])] :=
  ref_chain_flattens exampleEnv 5 "top.json" "mid.json" "mid.json" "leaf.json"
    "leaf.json" [("v", .num 3), ("w", .obj [("z", .null)])]
    rfl rfl (by decide) (by decide) (by decide) rfl rfl (by decide) (by decide)
    (by decide)

/-! ## The cycle guard -/

/-- The expansion of `$ref` stops at the cycle check, before the file is
read. -/
theorem expandReference_cyclic (env : Env)
    (self : Json → String → List String → Except Err Json)
    (dm : Obj) (b : String) (r : List String) (rv : Obj) (refPath : String)
    (href : mapGet dm "$ref" = some (.obj rv))
    (hpath : asString (mapGet rv "path") = some refPath)
    (hseen : env.join b refPath ∈ r) :
    expandReference env self dm b r =
      .error (.cyclicReference r (env.join b refPath)) := by
  unfold expandReference
  rw [href]
  simp only
  rw [hpath]
  simp only [hseen, if_true]

theorem resolve_cyclic (env : Env) (n : Nat) (dm : Obj) (b : String)
    (r : List String) (rv : Obj) (refPath : String)
    (href : mapGet dm "$ref" = some (.obj rv))
    (hpath : asString (mapGet rv "path") = some refPath)
    (hseen : env.join b refPath ∈ r) :
    resolveReferences env (n + 1) (.obj dm) b r =
      .error (.cyclicReference r (env.join b refPath)) := by
  rw [resolveReferences_succ,
    expandReference_cyclic env _ dm b r rv refPath href hpath hseen]

/-- A failure of the recursive call on the referenced value is the result
of the expansion. -/
theorem expandReference_self_error (env : Env)
    (self : Json → String → List String → Except Err Json)
    (dm : Obj) (b : String) (r : List String)
    (rv : Obj) (refPath : String) (fd : Obj) (referencedValue : Json) (e : Err)
    (href : mapGet dm "$ref" = some (.obj rv))
    (hpath : asString (mapGet rv "path") = some refPath)
    (hnew : env.join b refPath ∉ r)
    (hparse : parseJsonFile env (env.join b refPath) true = .ok fd)
    (hsel : match asString (mapGet rv "key") with
      | some refKey => mapGet fd refKey = some referencedValue
      | none => referencedValue = .obj fd)
    (hself : self referencedValue (env.dir (env.join b refPath))
      (r ++ [env.join b refPath]) = .error e) :
    expandReference env self dm b r = .error e := by
  unfold expandReference
  rw [href]
  simp only
  rw [hpath]
  simp only [hnew, if_false, hparse]
  cases hk : asString (mapGet rv "key") with
  | none =>
    rw [hk] at hsel
    simp only at hsel
    subst hsel
    simp only [hself]
  | some refKey =>
    rw [hk] at hsel
    simp only at hsel
    simp only [hsel, hself]

/-- C6: a node whose `$ref` path, joined with the base path, is already on
the resolution path makes `resolveReferences` return the cyclic-reference
error, whatever the file store holds (the file is not read).  For two files
that reference each other, resolving the root document of the first as
`FetchDereferencedJson` sets it up ends in that error, and
`FetchDereferencedJson` itself returns an error, hence no bytes. -/
theorem cyclic_reference_is_error (env : Env) (fuel : Nat) (node rv : Obj)
    (refPath basePath : String) (referencedFiles : List String)
    (fileA toB fileB toA : String)
    (href : mapGet node "$ref" = some (.obj rv))
    (hpath : mapGet rv "path" = some (.str refPath))
    (hseen : env.join basePath refPath ∈ referencedFiles)
    (hfileB : fileB = env.join (env.dir fileA) toB)
    (hback : env.join (env.dir fileB) toA = fileA)
    (hAB : fileB ≠ fileA)
    (hA : env.files fileA = some (.obj [("$ref", refTo toB)]))
    (hB : env.files fileB = some (.obj [("$ref", refTo toA)])) :
    (∀ files : String → Option Json,
      resolveReferences ⟨env.join, env.dir, env.baseName, files⟩ (fuel + 1)
          (.obj node) basePath referencedFiles =
        .error (.cyclicReference referencedFiles (env.join basePath refPath))) ∧
    resolveReferences env (fuel + 2) (.obj [("$ref", refTo toB)])
        (env.dir fileA) [fileA] =
      .error (.cyclicReference [fileA, fileB] fileA) ∧
    ∃ e, FetchDereferencedJson env fuel fileA = .error e ∧ e ≠ .outOfFuel := by
  refine ⟨?_, ?_, ?_⟩
  · intro files
    exact resolve_cyclic ⟨env.join, env.dir, env.baseName, files⟩ fuel node basePath
      referencedFiles rv refPath href (asString_str _ _ _ hpath) hseen
  · have hinner := resolve_cyclic env fuel [("$ref", refTo toA)] (env.dir fileB)
      ([fileA] ++ [fileB]) [("path", .str toA)] toA rfl rfl
      (by rw [hback]; simp)
    rw [hback] at hinner
    rw [resolveReferences_succ,
      expandReference_self_error env _ [("$ref", refTo toB)] (env.dir fileA) [fileA]
        [("path", .str toB)] toB [("$ref", refTo toA)] (.obj [("$ref", refTo toA)])
        (.cyclicReference [fileA, fileB] fileA) rfl rfl
        (by rw [← hfileB]; simp [hAB])
        (by rw [← hfileB]; exact parseJsonFile_obj env _ _ hB)
        (by rfl)
        (by rw [← hfileB]; exact hinner)]
  · refine ⟨.invalidUnmarshal fileA, ?_, by intro h; cases h⟩
    unfold FetchDereferencedJson parseJsonFile
    rw [hA]
    simp

theorem cyclic_reference_is_error_witness :
    (∀ files : String → Option Json,
      resolveReferences
          ⟨exampleEnv.join, exampleEnv.dir, exampleEnv.baseName, files⟩ (0 + 1)
          (.obj [("$ref", refTo "cycA.json"), ("note", .str "n")]) "."
          ["cycA.json", "cycB.json"] =
        .error (.cyclicReference ["cycA.json", "cycB.json"]
          (exampleEnv.join "." "cycA.json"))) ∧
    resolveReferences exampleEnv (0 + 2) (.obj [("$ref", refTo "cycB.json")])
        (exampleEnv.dir "cycA.json") ["cycA.json"] =
      .error (.cyclicReference ["cycA.json", "cycB.json"] "cycA.json") ∧
    ∃ e, FetchDereferencedJson exampleEnv 0 "cycA.json" = .error e ∧
      e ≠ .outOfFuel :=
  cyclic_reference_is_error exampleEnv 0
    [("$ref", refTo "cycA.json"), ("note", .str "n")] [("path", .str "cycA.json")]
    "cycA.json" "." ["cycA.json", "cycB.json"]
    "cycA.json" "cycB.json" "cycB.json" "cycA.json"
    rfl rfl (by decide) rfl rfl (by decide) rfl rfl

/-! ## The directive pass -/

theorem mapSet_cons_ne (k0 : String) (v0 : Json) (rest : Obj) (k : String)
    (v : Json) (h : k0 ≠ k) :
    mapSet ((k0, v0) :: rest) k v = (k0, v0) :: mapSet rest k v := by
  simp [mapSet, h]

theorem not_mem_keys_cons (k k0 : String) (v0 : Json) (rest : Obj)
    (h : k ∉ keys ((k0, v0) :: rest)) : k0 ≠ k ∧ k ∉ keys rest := by
  rw [keys_cons, List.mem_cons, not_or] at h
  exact ⟨fun e => h.1 e.symm, h.2⟩

theorem overrideLoop_cons_none (data : Obj) (key : String) (value : Json)
    (rest : Obj) (h : mapGet data key = none) :
    overrideLoop data ((key, value) :: rest) = overrideLoop data rest := by
  conv_lhs => unfold overrideLoop
  split
  · rename_i hg
    rw [h] at hg
    cases hg
  · rename_i hg _
    rw [h] at hg
    cases hg
  · rfl

theorem overrideLoop_cons_nested (data : Obj) (key : String) (t p : Obj)
    (rest : Obj) (h : mapGet data key = some (.obj t)) :
    overrideLoop data ((key, .obj p) :: rest) =
      match override t (.obj p) with
      | .error e => .error e
      | .ok d => overrideLoop (mapSet data key (.obj d)) rest := by
  conv_lhs => unfold overrideLoop
  split
  · rename_i dataMap nestedMap hg hv
    rw [h] at hg
    cases hg
    cases hv
    rfl
  · rename_i hg hne
    rw [h] at hg
    cases hg
    exact (hne t p rfl rfl).elim
  · rename_i hg
    rw [h] at hg
    cases hg

theorem overrideLoop_cons_replace (data : Obj) (key : String) (tv value : Json)
    (rest : Obj) (h : mapGet data key = some tv)
    (hno : (isObj tv && isObj value) = false) :
    overrideLoop data ((key, value) :: rest) =
      overrideLoop (mapSet data key value) rest := by
  conv_lhs => unfold overrideLoop
  split
  · rename_i dataMap nestedMap hg
    rw [h] at hg
    cases hg
    simp [isObj] at hno
  · rfl
  · rename_i hg
    rw [h] at hg
    cases hg

/-- An entry of the target whose key the payload does not name stays in
front, untouched, through the loop of `override`. -/
theorem overrideLoop_cons_frame (es : Obj) : ∀ (B : Obj) (k0 : String)
    (v0 : Json), k0 ∉ keys es →
    overrideLoop ((k0, v0) :: B) es =
      match overrideLoop B es with
      | .error e => .error e
      | .ok d => .ok ((k0, v0) :: d) := by
  induction es with
  | nil => intro B k0 v0 _; rw [overrideLoop_nil, overrideLoop_nil]
  | cons e rest ih =>
    intro B k0 v0 hk
    obtain ⟨key, value⟩ := e
    obtain ⟨hne1, hr⟩ := not_mem_keys_cons _ _ _ _ hk
    have hne : k0 ≠ key := fun e => hne1 e.symm
    have hget : mapGet ((k0, v0) :: B) key = mapGet B key :=
      mapGet_cons_ne _ _ _ _ hne
    cases hg : mapGet B key with
    | none =>
      rw [hg] at hget
      rw [overrideLoop_cons_none _ _ _ _ hget, overrideLoop_cons_none _ _ _ _ hg]
      exact ih B k0 v0 hr
    | some tv =>
      rw [hg] at hget
      cases hob : (isObj tv && isObj value) with
      | false =>
        rw [overrideLoop_cons_replace _ _ _ _ _ hget hob,
          overrideLoop_cons_replace _ _ _ _ _ hg hob, mapSet_cons_ne _ _ _ _ _ hne]
        exact ih _ k0 v0 hr
      | true =>
        cases tv with
        | obj t =>
          cases value with
          | obj p =>
            rw [overrideLoop_cons_nested _ _ _ _ _ hget,
              overrideLoop_cons_nested _ _ _ _ _ hg]
            cases override t (.obj p) with
            | error e => rfl
            | ok d =>
              simp only
              rw [mapSet_cons_ne _ _ _ _ _ hne]
              exact ih _ k0 v0 hr
          | null | bool _ | num _ | str _ | arr _ => simp [isObj] at hob
        | null | bool _ | num _ | str _ | arr _ => simp [isObj] at hob

theorem overrideStep_eq (dm : Obj) :
    overrideStep dm = directiveWith override "$override" dm dm := by
  unfold overrideStep directiveWith
  rfl

theorem addStep_eq (node d1 : Obj)
    (h : mapGet d1 "$add" = mapGet node "$add") :
    addStep d1 = directiveWith add "$add" node d1 := by
  unfold addStep directiveWith
  rw [h]

theorem deleteStep_eq (node d2 : Obj)
    (h : mapGet d2 "$delete" = mapGet node "$delete") :
    deleteStep d2 = directiveWith remove "$delete" node d2 := by
  unfold deleteStep directiveWith
  rw [h]

theorem not_mem_keys_of_directive (es : Obj) (k : String)
    (hes : cleanObj es = true) (hk : isDirective k = true) : k ∉ keys es := by
  intro hmem
  have := cleanObj_keys es hes k hmem
  rw [hk] at this
  cases this

theorem overrideStep_get (dm d1 : Obj) (hc : cleanVals dm = true)
    (h : overrideStep dm = .ok d1) (k : String) (hk : isDirective k = true)
    (hne : k ≠ "$override") : mapGet d1 k = mapGet dm k := by
  unfold overrideStep at h
  split at h
  · rename_i p hg
    split at h
    · simp at h
    · rename_i d hd
      simp only [Except.ok.injEq] at h
      subst h
      obtain ⟨es, rfl⟩ := override_ok_obj _ _ _ hd
      have hp := cleanVals_get _ _ _ hc hg
      rw [clean_obj] at hp
      rw [override_obj] at hd
      rw [mapGet_mapDelete, if_neg hne]
      exact overrideLoop_frame es dm d hd k (not_mem_keys_of_directive es k hp hk)
  · simp only [Except.ok.injEq] at h
    subst h
    rfl

theorem addStep_get (dm d1 : Obj) (hc : cleanVals dm = true)
    (h : addStep dm = .ok d1) (k : String) (hk : isDirective k = true)
    (hne : k ≠ "$add") : mapGet d1 k = mapGet dm k := by
  unfold addStep at h
  split at h
  · rename_i p hg
    split at h
    · simp at h
    · rename_i d hd
      simp only [Except.ok.injEq] at h
      subst h
      obtain ⟨es, rfl⟩ := add_ok_obj _ _ _ hd
      have hp := cleanVals_get _ _ _ hc hg
      rw [clean_obj] at hp
      rw [add_obj] at hd
      rw [mapGet_mapDelete, if_neg hne]
      exact addLoop_frame es dm d hd k (not_mem_keys_of_directive es k hp hk)
  · simp only [Except.ok.injEq] at h
    subst h
    rfl

/-- On a node whose values are clean, the directive pass of the program is
the pass of the specification: the payloads it reads after each step are the
payloads of the node. -/
theorem applyDirectives_eq_inOrder (node : Obj) (hc : cleanVals node = true) :
    applyDirectives node = directivesInOrder node := by
  unfold applyDirectives directivesInOrder
  rw [← overrideStep_eq]
  cases h1 : overrideStep node with
  | error e => rfl
  | ok d1 =>
    simp only
    obtain ⟨c1, _, _⟩ := overrideStep_clean node d1 hc h1
    have g1 := overrideStep_get node d1 hc h1 "$add" (by decide) (by decide)
    have g2 := overrideStep_get node d1 hc h1 "$delete" (by decide) (by decide)
    rw [← addStep_eq node d1 g1]
    cases h2 : addStep d1 with
    | error e => rfl
    | ok d2 =>
      simp only
      have g3 := addStep_get d1 d2 c1 h2 "$delete" (by decide) (by decide)
      rw [← deleteStep_eq node d2 (by rw [g3, g2])]

theorem directiveFreeVals_iff (m : Obj) :
    directiveFreeVals m = true ↔ ∀ e ∈ m, directiveFree e.2 = true := by
  simp [directiveFreeVals, List.all_eq_true]

theorem directiveFreeVals_cleanVals (m : Obj) (h : directiveFreeVals m = true) :
    cleanVals m = true := by
  rw [cleanVals_iff]
  rw [directiveFreeVals_iff] at h
  exact fun e he => directiveFree_clean _ (h e he)

/-- The pass of the specification on an inlined object with an `$override`
in front of it is `override` on the object. -/
theorem directivesInOrder_override_only (B : Obj) (payload : Json)
    (hB : cleanObj B = true) (hp : clean payload = true) :
    directivesInOrder (("$override", payload) :: B) = override B payload := by
  have hnadd : mapGet (("$override", payload) :: B) "$add" = none := by
    rw [mapGet_cons_ne _ _ _ _ (by decide)]
    exact cleanObj_get_directive B _ hB (by decide)
  have hndel : mapGet (("$override", payload) :: B) "$delete" = none := by
    rw [mapGet_cons_ne _ _ _ _ (by decide)]
    exact cleanObj_get_directive B _ hB (by decide)
  unfold directivesInOrder directiveWith
  rw [mapGet_cons_same, hnadd, hndel]
  simp only
  cases payload with
  | obj es =>
    rw [clean_obj] at hp
    rw [override_obj, override_obj,
      overrideLoop_cons_frame es B "$override" (.obj es)
        (not_mem_keys_of_directive es _ hp (by decide))]
    obtain ⟨d, hd⟩ := overrideLoop_total B es
    rw [hd]
    simp only
    have hk : keys d = keys B := overrideLoop_keys es B d hd
    have hno : "$override" ∉ keys d := by
      rw [hk]
      exact not_mem_keys_of_directive B _ hB (by decide)
    have hdel : mapDelete (("$override", Json.obj es) :: d) "$override" = d := by
      have := mapDelete_of_not_mem d "$override" hno
      unfold mapDelete at this ⊢
      simp only [List.filter, ne_eq, not_true_eq_false, decide_False]
      exact this
    rw [hdel]
  | null | bool _ | num _ | str _ | arr _ => simp [override]

theorem asJson_eq (result : Except Err Obj) :
    (match result with
      | .error e => (.error e : Except Err Json)
      | .ok dataMap => .ok (.obj dataMap)) = asJson result := by
  cases result <;> rfl

/-- C8: an object node without `$ref` whose values are directive-free
resolves to what the three directives give when applied in the order
override, add, remove, each with the payload the node holds and each reserved
key dropped after its step (an error of a step is the error of the
resolution).  On the example, the sub-key `z` that `$add` introduces is not
touched by the `$override` that names it, and a `$delete` that names it
removes it. -/
theorem directives_apply_in_order (env : Env) (fuel : Nat) (node : Obj)
    (basePath : String) (referencedFiles : List String)
    (hnoref : mapGet node "$ref" = none)
    (hvals : directiveFreeVals node = true)
    (hfuel : depth (.obj node) ≤ fuel) :
    resolveReferences env fuel (.obj node) basePath referencedFiles =
        asJson (directivesInOrder node) ∧
    resolveReferences exampleEnv 3 (.obj orderDoc) "." ["root.json"] =
        .ok (.obj [("a", .obj [("z", .num 9)])]) ∧
    resolveReferences exampleEnv 3 (.obj orderDocDeleteAdded) "." ["root.json"] =
        .ok (.obj [("a", .obj [("x", .num 1)])]) := by
  refine ⟨?_, rfl, rfl⟩
  rw [depth_obj] at hfuel
  obtain ⟨n, rfl⟩ : ∃ n, fuel = n + 1 := ⟨fuel - 1, by omega⟩
  have hcv := directiveFreeVals_cleanVals node hvals
  rw [resolveReferences_succ, expandReference_none env _ node _ _ hnoref]
  simp only
  rw [resolveNested_clean_id env n basePath referencedFiles node
    (fun e he => ⟨(cleanVals_iff node).1 hcv e he,
      le_trans (depth_le_depthObj node e he) (by omega)⟩)]
  simp only
  rw [applyDirectives_eq_inOrder node hcv]
  exact asJson_eq _

theorem directives_apply_in_order_witness :
    resolveReferences exampleEnv 3 (.obj orderDoc) "." ["root.json"] =
        asJson (directivesInOrder orderDoc) ∧
    resolveReferences exampleEnv 3 (.obj orderDoc) "." ["root.json"] =
        .ok (.obj [("a", .obj [("z", .num 9)])]) ∧
    resolveReferences exampleEnv 3 (.obj orderDocDeleteAdded) "." ["root.json"] =
        .ok (.obj [("a", .obj [("x", .num 1)])]) :=
  directives_apply_in_order exampleEnv 3 orderDoc "." ["root.json"] rfl
    (by decide) (by decide)

/-- C7: in a node with a `$ref` (only `path` set, to a directive-free file)
and directive-free other values, the directives run on the node as it stands
after the referenced object has been copied in, so they patch keys that come
from the file; with `$override` as the only other key the result is
`override` of the file's root object with the payload.  On the example the
leaf `x` of the file is overridden and its sibling `y` is kept. -/
theorem directives_see_inlined_content (env : Env) (fuel : Nat)
    (node rv : Obj) (refPath : String) (fileRoot : Obj) (basePath : String)
    (referencedFiles : List String)
    (href : mapGet node "$ref" = some (.obj rv))
    (hpath : mapGet rv "path" = some (.str refPath))
    (hkey : mapGet rv "key" = none)
    (hnew : env.join basePath refPath ∉ referencedFiles)
    (hfile : env.files (env.join basePath refPath) = some (.obj fileRoot))
    (hfree : directiveFree (.obj fileRoot) = true)
    (hkeys : (keys fileRoot).Nodup)
    (hrest : directiveFreeVals (mapDelete node "$ref") = true)
    (hfuel : depth (.obj node) + depth (.obj fileRoot) ≤ fuel) :
    resolveReferences env fuel (.obj node) basePath referencedFiles =
        asJson (directivesInOrder (mergeInto (mapDelete node "$ref") fileRoot)) ∧
    (∀ payload, mapDelete node "$ref" = [("$override", payload)] →
      resolveReferences env fuel (.obj node) basePath referencedFiles =
        asJson (override fileRoot payload)) ∧
    resolveReferences exampleEnv 3 (.obj overrideOverRefDoc) "." ["root.json"] =
        .ok (.obj [("a", .obj [("x", .num 5), ("y", .num 2)])]) := by
  rw [depth_obj, depth_obj] at hfuel
  obtain ⟨n, rfl⟩ : ∃ n, fuel = n + 1 := ⟨fuel - 1, by omega⟩
  have hB := directiveFree_clean _ hfree
  rw [clean_obj] at hB
  have hcr := directiveFreeVals_cleanVals _ hrest
  have hself := resolve_clean_id env n fileRoot (env.dir (env.join basePath refPath))
    (referencedFiles ++ [env.join basePath refPath]) hB (by omega)
  have hmem : ∀ e ∈ mergeInto (mapDelete node "$ref") fileRoot,
      clean e.2 = true ∧ depth e.2 ≤ n := by
    intro e he
    rcases mergeInto_mem fileRoot _ e he with h1 | h1
    · exact ⟨(cleanVals_iff _).1 hcr e h1,
        le_trans (depth_le_depthObj node e (mapDelete_mem _ _ _ h1)) (by omega)⟩
    · exact ⟨((cleanObj_iff _).1 hB e h1).2,
        le_trans (depth_le_depthObj fileRoot e h1) (by omega)⟩
  have hmain : resolveReferences env (n + 1) (.obj node) basePath referencedFiles =
      asJson (directivesInOrder (mergeInto (mapDelete node "$ref") fileRoot)) := by
    rw [resolveReferences_succ,
      expandReference_eval env _ node basePath referencedFiles rv refPath fileRoot
        (.obj fileRoot) fileRoot href (asString_str _ _ _ hpath) hnew
        (parseJsonFile_obj env _ _ hfile) (by rw [asString_none _ _ hkey]) hself]
    simp only
    rw [resolveNested_clean_id env n basePath _ _ hmem]
    simp only
    rw [applyDirectives_eq_inOrder _
      ((cleanVals_iff _).2 (fun e he => (hmem e he).1))]
    exact asJson_eq _
  refine ⟨hmain, ?_, rfl⟩
  intro payload hnode
  rw [hmain, hnode]
  have hp : clean payload = true := by
    rw [hnode] at hcr
    exact (cleanVals_iff _).1 hcr ("$override", payload) (List.mem_cons_self _ _)
  have hno : ∀ k ∈ keys fileRoot, k ∉ keys [("$override", payload)] := by
    intro k hk hmem2
    simp only [keys, List.map_cons, List.map_nil, List.mem_singleton] at hmem2
    subst hmem2
    exact not_mem_keys_of_directive fileRoot _ hB (by decide) hk
  rw [mergeInto_append fileRoot _ hkeys hno]
  simp only [List.singleton_append]
  rw [directivesInOrder_override_only fileRoot payload hB hp]

theorem directives_see_inlined_content_witness :
    resolveReferences exampleEnv 5 (.obj overrideOverRefDoc) "." ["root.json"] =
        asJson (directivesInOrder (mergeInto (mapDelete overrideOverRefDoc "$ref")
          [("a", .obj [("x", .num 1), ("y", .num 2)])])) ∧
    (∀ payload, mapDelete overrideOverRefDoc "$ref" = [("$override", payload)] →
      resolveReferences exampleEnv 5 (.obj overrideOverRefDoc) "." ["root.json"] =
        asJson (override [("a", .obj [("x", .num 1), ("y", .num 2)])] payload)) ∧
    resolveReferences exampleEnv 3 (.obj overrideOverRefDoc) "." ["root.json"] =
        .ok (.obj [("a", .obj [("x", .num 5), ("y", .num 2)])]) :=
  directives_see_inlined_content exampleEnv 5 overrideOverRefDoc
    [("path", .str "b.json")] "b.json" [("a", .obj [("x", .num 1), ("y", .num 2)])]
    "." ["root.json"] rfl rfl rfl (by decide) rfl (by decide) (by decide) (by decide)
    (by decide)

/-! ## The rule of `add` -/

mutual
theorem add_total (data : Obj) (es : Obj) : ∃ d, add data (.obj es) = .ok d := by
  rw [add_obj]
  exact addLoop_total data es
theorem addLoop_total (data : Obj) (es : Obj) : ∃ d, addLoop data es = .ok d :=
  match es with
  | [] => ⟨data, addLoop_nil data⟩
  | (key, value) :: rest => by
    unfold addLoop
    split
    · rename_i dataMap nestedMap hg
      obtain ⟨t1, ht1⟩ := add_total dataMap nestedMap
      rw [ht1]
      exact addLoop_total _ rest
    · exact addLoop_total _ rest
    · exact addLoop_total _ rest
end

theorem getPath_nil (v : Json) : getPath v [] = some v := by
  unfold getPath; rfl

theorem getPath_obj_cons (kvs : Obj) (key : String) (rest : List String) :
    getPath (.obj kvs) (key :: rest) =
      match mapGet kvs key with
      | some child => getPath child rest
      | none => none := by
  cases h : mapGet kvs key <;> simp [getPath, h]

theorem keepsLeaves_refl (v : Json) : keepsLeaves v v :=
  fun _ _ h _ => h

theorem keepsLeaves_trans (a b c : Json) (h1 : keepsLeaves a b)
    (h2 : keepsLeaves b c) : keepsLeaves a c :=
  fun path v h hv => h2 path v (h1 path v h hv) hv

theorem keepsLeaves_obj (t t1 : Obj)
    (h : ∀ k tv, mapGet t k = some tv →
      ∃ ov, mapGet t1 k = some ov ∧ keepsLeaves tv ov) :
    keepsLeaves (.obj t) (.obj t1) := by
  intro path v hp hv
  cases path with
  | nil =>
    rw [getPath_nil] at hp
    cases hp
    simp [isObj] at hv
  | cons key rest =>
    rw [getPath_obj_cons] at hp ⊢
    cases hg : mapGet t key with
    | none => rw [hg] at hp; cases hp
    | some tv =>
      rw [hg] at hp
      obtain ⟨ov, ho, hk⟩ := h key tv hg
      rw [ho]
      exact hk rest v hp hv

theorem keepsLeaves_of_not_obj (tv ov : Json) (h : isObj tv = false)
    (hk : keepsLeaves tv ov) : ov = tv := by
  have := hk [] tv (getPath_nil tv) h
  rw [getPath_nil] at this
  cases this
  rfl

mutual
theorem add_keeps (data es d : Obj) (h : add data (.obj es) = .ok d) :
    ∀ k tv, mapGet data k = some tv →
      ∃ ov, mapGet d k = some ov ∧ keepsLeaves tv ov := by
  rw [add_obj] at h
  exact addLoop_keeps data es d h
theorem addLoop_keeps (data es d : Obj) (h : addLoop data es = .ok d) :
    ∀ k tv, mapGet data k = some tv →
      ∃ ov, mapGet d k = some ov ∧ keepsLeaves tv ov :=
  match es with
  | [] => by
    rw [addLoop_nil] at h
    cases h
    exact fun k tv hk => ⟨tv, hk, keepsLeaves_refl tv⟩
  | (key, value) :: rest => by
    intro k tv hk
    unfold addLoop at h
    split at h
    · rename_i dataMap nestedMap hg
      split at h
      · simp at h
      · rename_i t1 ht1
        have hin := add_keeps dataMap nestedMap t1 ht1
        by_cases hkk : k = key
        · subst hkk
          rw [hg] at hk
          cases hk
          obtain ⟨ov, ho, hl⟩ := addLoop_keeps _ rest d h k (.obj t1)
            (mapGet_mapSet_same _ _ _)
          exact ⟨ov, ho, keepsLeaves_trans _ _ _ (keepsLeaves_obj _ _ hin) hl⟩
        · exact addLoop_keeps _ rest d h k tv
            (by rw [mapGet_mapSet_ne _ _ _ _ hkk]; exact hk)
    · exact addLoop_keeps _ rest d h k tv hk
    · rename_i hg
      have hkk : k ≠ key := by
        intro e
        subst e
        rw [hg] at hk
        cases hk
      exact addLoop_keeps _ rest d h k tv
        (by rw [mapGet_mapSet_ne _ _ _ _ hkk]; exact hk)
end

/-- The per-key rule of the loop of `add`, for a payload with distinct
keys. -/
theorem addLoop_rule (es : Obj) : ∀ (data d : Obj),
    (keys es).Nodup → addLoop data es = .ok d →
    ∀ k pv, mapGet es k = some pv →
      (mapGet data k = none → mapGet d k = some pv) ∧
      (∀ t p, mapGet data k = some (.obj t) → pv = .obj p →
          ∃ t1, add t (.obj p) = .ok t1 ∧ mapGet d k = some (.obj t1)) ∧
      (∀ tv, mapGet data k = some tv → (isObj tv && isObj pv) = false →
          mapGet d k = some tv) := by
  induction es with
  | nil => intro data d _ _ k pv hk; simp [mapGet] at hk
  | cons e rest ih =>
    intro data d hnd h k pv hk
    obtain ⟨key, value⟩ := e
    rw [keys_cons, List.nodup_cons] at hnd
    obtain ⟨data1, h1, hc⟩ := addLoop_cons data key value rest d h
    by_cases hkk : key = k
    · subst hkk
      rw [mapGet_cons_same] at hk
      cases hk
      have hfr := addLoop_frame rest data1 d h1 key hnd.1
      rw [hfr]
      rcases hc with ⟨t, p, t1, hg, hv, ho, rfl⟩ | ⟨tv, hg, hno, rfl⟩ | ⟨hg, rfl⟩
      · subst hv
        refine ⟨?_, ?_, ?_⟩
        · intro hg2
          rw [hg] at hg2
          cases hg2
        · intro t2 p2 hg2 hp2
          rw [hg] at hg2
          cases hg2; cases hp2
          exact ⟨t1, ho, mapGet_mapSet_same _ _ _⟩
        · intro tv hg2 hob
          rw [hg] at hg2
          cases hg2
          simp [isObj] at hob
      · refine ⟨?_, ?_, ?_⟩
        · intro hg2
          rw [hg] at hg2
          cases hg2
        · intro t2 p2 hg2 hp2
          rw [hg] at hg2
          cases hg2
          exact (hno t2 p2 rfl hp2).elim
        · intro tv2 hg2 _
          rw [hg] at hg2
          cases hg2
          exact hg
      · refine ⟨?_, ?_, ?_⟩
        · intro _
          exact mapGet_mapSet_same _ _ _
        · intro t2 p2 hg2 _
          rw [hg] at hg2
          cases hg2
        · intro tv2 hg2 _
          rw [hg] at hg2
          cases hg2
    · rw [mapGet_cons_ne _ _ _ _ hkk] at hk
      have hne : k ≠ key := fun e => hkk e.symm
      have hd1 : mapGet data1 k = mapGet data k := by
        rcases hc with ⟨t, p, t1, hg, hv, ho, rfl⟩ | ⟨tv, hg, hno, rfl⟩ | ⟨hg, rfl⟩
        · exact mapGet_mapSet_ne _ _ _ _ hne
        · rfl
        · exact mapGet_mapSet_ne _ _ _ _ hne
      have := ih data1 d hnd.2 h1 k pv hk
      rw [hd1] at this
      exact this

theorem mem_keys_iff_get (m : Obj) (k : String) :
    k ∈ keys m ↔ ∃ v, mapGet m k = some v := by
  constructor
  · intro h
    cases hg : mapGet m k with
    | none => exact ((mapGet_eq_none_iff m k).1 hg h).elim
    | some v => exact ⟨v, rfl⟩
  · intro h
    obtain ⟨v, hv⟩ := h
    by_contra hn
    rw [(mapGet_eq_none_iff m k).2 hn] at hv
    cases hv

theorem isObj_and_cases (tv pv : Json) :
    (∃ t p, tv = .obj t ∧ pv = .obj p) ∨ (isObj tv && isObj pv) = false := by
  cases tv <;> cases pv <;> simp [isObj]

/-- C11: `add(target, patch)` on an object patch returns no error; the keys
of the result are the keys of the target together with the keys of the
patch; a patch key absent from the target gets the value of the patch; a key
where both values are objects gets `add` of the two.  On the example the
missing sub-key `z` is merged in next to `x`. -/
theorem add_deep_merges_missing_keys (target patch : Obj)
    (hpatch : (keys patch).Nodup) :
    (∃ out, add target (.obj patch) = .ok out ∧
      (∀ k, k ∈ keys out ↔ k ∈ keys target ∨ k ∈ keys patch) ∧
      (∀ k pv, mapGet patch k = some pv → mapGet target k = none →
        mapGet out k = some pv) ∧
      (∀ k t p, mapGet patch k = some (.obj p) →
        mapGet target k = some (.obj t) →
        ∃ t1, add t (.obj p) = .ok t1 ∧ mapGet out k = some (.obj t1))) ∧
    add [("a", .obj [("x", .num 1)])] (.obj [("a", .obj [("z", .num 9)])]) =
      .ok [("a", .obj [("x", .num 1), ("z", .num 9)])] := by
  refine ⟨?_, rfl⟩
  obtain ⟨out, hout⟩ := add_total target patch
  refine ⟨out, hout, ?_, ?_, ?_⟩
  · rw [add_obj] at hout
    intro k
    constructor
    · exact addLoop_keys_subset patch target out hout k
    · intro h
      rw [mem_keys_iff_get]
      rcases h with h | h
      · obtain ⟨tv, htv⟩ := (mem_keys_iff_get _ _).1 h
        obtain ⟨ov, ho, _⟩ := addLoop_keeps target patch out hout k tv htv
        exact ⟨ov, ho⟩
      · obtain ⟨pv, hpv⟩ := (mem_keys_iff_get _ _).1 h
        obtain ⟨r1, r2, r3⟩ := addLoop_rule patch target out hpatch hout k pv hpv
        cases hg : mapGet target k with
        | none => exact ⟨pv, r1 hg⟩
        | some tv =>
          rcases isObj_and_cases tv pv with ⟨t, p, rfl, rfl⟩ | hno
          · obtain ⟨t1, _, h1⟩ := r2 t p hg rfl
            exact ⟨_, h1⟩
          · exact ⟨tv, r3 tv hg hno⟩
  · rw [add_obj] at hout
    intro k pv hpv hg
    exact (addLoop_rule patch target out hpatch hout k pv hpv).1 hg
  · rw [add_obj] at hout
    intro k t p hpv hg
    exact (addLoop_rule patch target out hpatch hout k _ hpv).2.1 t p hg rfl

theorem add_deep_merges_missing_keys_witness :
    (∃ out, add [("a", .obj [("x", .num 1)]), ("n", .num 3)]
        (.obj [("a", .obj [("z", .num 9)]), ("n", .num 7), ("q", .null)]) = .ok out ∧
      (∀ k, k ∈ keys out ↔ k ∈ keys [("a", Json.obj [("x", .num 1)]), ("n", .num 3)] ∨
        k ∈ keys [("a", Json.obj [("z", .num 9)]), ("n", .num 7), ("q", .null)]) ∧
      (∀ k pv, mapGet [("a", .obj [("z", .num 9)]), ("n", .num 7), ("q", .null)] k =
          some pv →
        mapGet [("a", .obj [("x", .num 1)]), ("n", .num 3)] k = none →
        mapGet out k = some pv) ∧
      (∀ k t p, mapGet [("a", .obj [("z", .num 9)]), ("n", .num 7), ("q", .null)] k =
          some (.obj p) →
        mapGet [("a", .obj [("x", .num 1)]), ("n", .num 3)] k = some (.obj t) →
        ∃ t1, add t (.obj p) = .ok t1 ∧ mapGet out k = some (.obj t1))) ∧
    add [("a", .obj [("x", .num 1)])] (.obj [("a", .obj [("z", .num 9)])]) =
      .ok [("a", .obj [("x", .num 1), ("z", .num 9)])] :=
  add_deep_merges_missing_keys [("a", .obj [("x", .num 1)]), ("n", .num 3)]
    [("a", .obj [("z", .num 9)]), ("n", .num 7), ("q", .null)] (by decide)

/-- C12: `add` never overwrites an existing value: every key of the target
is still in the result; its value is the same when the value of the target
is not an object, when the value of the patch under that key is not an
object, and when the patch does not name the key; and every path of the
target that ends in a value that is not an object leads to the same value in
the result. -/
theorem add_never_overwrites (target patch : Obj)
    (hpatch : (keys patch).Nodup) :
    ∃ out, add target (.obj patch) = .ok out ∧
      (∀ k tv, mapGet target k = some tv →
        (∃ ov, mapGet out k = some ov) ∧
        (isObj tv = false → mapGet out k = some tv) ∧
        (∀ pv, mapGet patch k = some pv → isObj pv = false →
          mapGet out k = some tv) ∧
        (mapGet patch k = none → mapGet out k = some tv)) ∧
      keepsLeaves (.obj target) (.obj out) := by
  obtain ⟨out, hout⟩ := add_total target patch
  refine ⟨out, hout, ?_, ?_⟩
  · rw [add_obj] at hout
    intro k tv hg
    obtain ⟨ov, ho, hl⟩ := addLoop_keeps target patch out hout k tv hg
    refine ⟨⟨ov, ho⟩, ?_, ?_, ?_⟩
    · intro hno
      rw [ho, keepsLeaves_of_not_obj tv ov hno hl]
    · intro pv hpv hno
      exact (addLoop_rule patch target out hpatch hout k pv hpv).2.2 tv hg
        (by rw [hno]; simp)
    · intro hnone
      rw [addLoop_frame patch target out hout k ((mapGet_eq_none_iff _ _).1 hnone)]
      exact hg
  · exact keepsLeaves_obj target out (add_keeps target patch out hout)

theorem add_never_overwrites_witness :
    ∃ out, add [("a", .obj [("x", .num 1), ("deep", .obj [("v", .null)])]),
          ("n", .num 3), ("o", .obj [])]
        (.obj [("a", .obj [("x", .num 2), ("deep", .obj [("v", .num 0), ("w", .num 1)])]),
          ("n", .obj [("y", .num 7)]), ("o", .str "s")]) = .ok out ∧
      (∀ k tv, mapGet [("a", .obj [("x", .num 1), ("deep", .obj [("v", .null)])]),
          ("n", .num 3), ("o", .obj [])] k = some tv →
        (∃ ov, mapGet out k = some ov) ∧
        (isObj tv = false → mapGet out k = some tv) ∧
        (∀ pv, mapGet [("a", .obj [("x", .num 2),
              ("deep", .obj [("v", .num 0), ("w", .num 1)])]),
            ("n", .obj [("y", .num 7)]), ("o", .str "s")] k = some pv →
          isObj pv = false → mapGet out k = some tv) ∧
        (mapGet [("a", .obj [("x", .num 2),
              ("deep", .obj [("v", .num 0), ("w", .num 1)])]),
            ("n", .obj [("y", .num 7)]), ("o", .str "s")] k = none →
          mapGet out k = some tv)) ∧
      keepsLeaves
        (.obj [("a", .obj [("x", .num 1), ("deep", .obj [("v", .null)])]),
          ("n", .num 3), ("o", .obj [])])
        (.obj out) :=
  add_never_overwrites
    [("a", .obj [("x", .num 1), ("deep", .obj [("v", .null)])]),
      ("n", .num 3), ("o", .obj [])]
    [("a", .obj [("x", .num 2), ("deep", .obj [("v", .num 0), ("w", .num 1)])]),
      ("n", .obj [("y", .num 7)]), ("o", .str "s")] (by decide)

/-! ## The rule of `remove` -/

theorem removeLoop_cons_nested (data : Obj) (key : String) (t p : Obj)
    (rest : Obj) (h : mapGet data key = some (.obj t)) :
    removeLoop data ((key, .obj p) :: rest) =
      match remove t (.obj p) with
      | .error e => .error e
      | .ok d => removeLoop (mapSet data key (.obj d)) rest := by
  conv_lhs => unfold removeLoop
  simp only [h]

theorem removeLoop_cons_arr (data : Obj) (key : String) (t : Obj)
    (ks : List Json) (rest : Obj) (h : mapGet data key = some (.obj t)) :
    removeLoop data ((key, .arr ks) :: rest) =
      match deleteKeys t ks with
      | .error e => .error e
      | .ok d => removeLoop (mapSet data key (.obj d)) rest := by
  conv_lhs => unfold removeLoop
  simp only [h]

/-- Deleting a list of string names removes exactly those keys. -/
theorem deleteKeys_names (names : List String) : ∀ (t : Obj),
    ∃ t1, deleteKeys t (names.map Json.str) = .ok t1 ∧
      ∀ j, mapGet t1 j = if j ∈ names then none else mapGet t j := by
  induction names with
  | nil =>
    intro t
    exact ⟨t, by simp [deleteKeys], by simp⟩
  | cons n rest ih =>
    intro t
    obtain ⟨t1, h1, h2⟩ := ih (mapDelete t n)
    refine ⟨t1, by simpa [deleteKeys] using h1, ?_⟩
    intro j
    rw [h2 j, mapGet_mapDelete]
    by_cases hj : j = n
    · simp [hj]
    · by_cases hr : j ∈ rest
      · simp [hr]
      · simp [hj, hr]

/-- Values that are not objects go through the loop of `remove`
unchanged. -/
theorem removeLoop_leaf (es : Obj) : ∀ (data d : Obj),
    removeLoop data es = .ok d → ∀ k tv, mapGet data k = some tv →
      isObj tv = false → mapGet d k = some tv := by
  induction es with
  | nil => intro data d h k tv hk _; rw [removeLoop_nil] at h; cases h; exact hk
  | cons e rest ih =>
    intro data d h k tv hk hno
    obtain ⟨key, value⟩ := e
    obtain ⟨data1, h1, hc⟩ := removeLoop_cons data key value rest d h
    refine ih data1 d h1 k tv ?_ hno
    rcases hc with ⟨t, p, t1, hg, _, _, rfl⟩ | ⟨t, ks, t1, hg, _, _, rfl⟩ | rfl
    · have hne : k ≠ key := by
        intro e
        subst e
        rw [hg] at hk
        cases hk
        simp [isObj] at hno
      rw [mapGet_mapSet_ne _ _ _ _ hne]
      exact hk
    · have hne : k ≠ key := by
        intro e
        subst e
        rw [hg] at hk
        cases hk
        simp [isObj] at hno
      rw [mapGet_mapSet_ne _ _ _ _ hne]
      exact hk
    · exact hk

/-- C13: when the key `k` of the target holds an object, `remove` with the
patch `{k: [n1, ..., nm]}` (a sequence of strings) returns the target with,
under `k`, the same object without exactly the keys `n1..nm`, every other key
of that object and of the target unchanged; with the patch `{k: P}` for an
object `P` it recurses into `target[k]` with `P`.  On the example `x` is
removed and `y` stays. -/
theorem remove_deletes_named_children (target t : Obj) (k : String)
    (names : List String) (hk : mapGet target k = some (.obj t)) :
    (∃ t1, remove target (.obj [(k, .arr (names.map Json.str))]) =
        .ok (mapSet target k (.obj t1)) ∧
      (∀ j, mapGet t1 j = if j ∈ names then none else mapGet t j) ∧
      mapGet (mapSet target k (.obj t1)) k = some (.obj t1) ∧
      (∀ j, j ≠ k → mapGet (mapSet target k (.obj t1)) j = mapGet target j)) ∧
    (∀ p, remove target (.obj [(k, .obj p)]) =
      match remove t (.obj p) with
      | .error e => .error e
      | .ok t1 => .ok (mapSet target k (.obj t1))) ∧
    remove [("a", .obj [("x", .num 1), ("y", .num 2)])]
        (.obj [("a", .arr [.str "x"])]) =
      .ok [("a", .obj [("y", .num 2)])] := by
  refine ⟨?_, ?_, rfl⟩
  · obtain ⟨t1, h1, h2⟩ := deleteKeys_names names t
    refine ⟨t1, ?_, h2, mapGet_mapSet_same _ _ _,
      fun j hj => mapGet_mapSet_ne _ _ _ _ hj⟩
    rw [remove_obj, removeLoop_cons_arr _ _ _ _ _ hk, h1]
    simp only
    rw [removeLoop_nil]
  · intro p
    rw [remove_obj, removeLoop_cons_nested _ _ _ _ _ hk]
    cases remove t (.obj p) with
    | error e => rfl
    | ok d =>
      simp only
      rw [removeLoop_nil]

theorem remove_deletes_named_children_witness :
    (∃ t1, remove [("keep", .num 0), ("a", .obj [("x", .num 1), ("y", .num 2), ("z", .null)])]
        (.obj [("a", .arr (["x", "z", "absent"].map Json.str))]) =
        .ok (mapSet [("keep", .num 0),
          ("a", .obj [("x", .num 1), ("y", .num 2), ("z", .null)])] "a" (.obj t1)) ∧
      (∀ j, mapGet t1 j = if j ∈ ["x", "z", "absent"] then none else
        mapGet [("x", .num 1), ("y", .num 2), ("z", .null)] j) ∧
      mapGet (mapSet [("keep", .num 0),
          ("a", .obj [("x", .num 1), ("y", .num 2), ("z", .null)])] "a" (.obj t1)) "a" =
        some (.obj t1) ∧
      (∀ j, j ≠ "a" → mapGet (mapSet [("keep", .num 0),
          ("a", .obj [("x", .num 1), ("y", .num 2), ("z", .null)])] "a" (.obj t1)) j =
        mapGet [("keep", .num 0),
          ("a", .obj [("x", .num 1), ("y", .num 2), ("z", .null)])] j)) ∧
    (∀ p, remove [("keep", .num 0),
          ("a", .obj [("x", .num 1), ("y", .num 2), ("z", .null)])]
        (.obj [("a", .obj p)]) =
      match remove [("x", .num 1), ("y", .num 2), ("z", .null)] (.obj p) with
      | .error e => .error e
      | .ok t1 => .ok (mapSet [("keep", .num 0),
          ("a", .obj [("x", .num 1), ("y", .num 2), ("z", .null)])] "a" (.obj t1))) ∧
    remove [("a", .obj [("x", .num 1), ("y", .num 2)])]
        (.obj [("a", .arr [.str "x"])]) =
      .ok [("a", .obj [("y", .num 2)])] :=
  remove_deletes_named_children
    [("keep", .num 0), ("a", .obj [("x", .num 1), ("y", .num 2), ("z", .null)])]
    [("x", .num 1), ("y", .num 2), ("z", .null)] "a" ["x", "z", "absent"] rfl

/-- C14: `remove` cannot delete a key at the level of the directive: when
`remove(target, patch)` completes on an object patch, the result has the keys
of the target, every top-level value that is not an object is unchanged, and
every key the patch does not name has the value it had. -/
theorem remove_keeps_top_level_keys (target patch out : Obj)
    (hrun : remove target (.obj patch) = .ok out) :
    keys out = keys target ∧
    (∀ k tv, mapGet target k = some tv → isObj tv = false →
      mapGet out k = some tv) ∧
    (∀ k, k ∉ keys patch → mapGet out k = mapGet target k) := by
  rw [remove_obj] at hrun
  exact ⟨removeLoop_keys patch target out hrun,
    removeLoop_leaf patch target out hrun,
    removeLoop_frame patch target out hrun⟩

theorem remove_keeps_top_level_keys_witness :
    keys [("a", Json.obj [("y", .num 2)]), ("s", .str "v"), ("o", .obj [("q", .num 1)])] =
      keys [("a", Json.obj [("x", .num 1), ("y", .num 2)]), ("s", .str "v"),
        ("o", .obj [("q", .num 1)])] ∧
    (∀ k tv, mapGet [("a", .obj [("x", .num 1), ("y", .num 2)]), ("s", .str "v"),
        ("o", .obj [("q", .num 1)])] k = some tv → isObj tv = false →
      mapGet [("a", .obj [("y", .num 2)]), ("s", .str "v"),
        ("o", .obj [("q", .num 1)])] k = some tv) ∧
    (∀ k, k ∉ keys [("a", Json.arr [.str "x"]), ("s", .arr [.str "s"])] →
      mapGet [("a", .obj [("y", .num 2)]), ("s", .str "v"),
        ("o", .obj [("q", .num 1)])] k =
      mapGet [("a", .obj [("x", .num 1), ("y", .num 2)]), ("s", .str "v"),
        ("o", .obj [("q", .num 1)])] k) :=
  remove_keeps_top_level_keys
    [("a", .obj [("x", .num 1), ("y", .num 2)]), ("s", .str "v"),
      ("o", .obj [("q", .num 1)])]
    [("a", .arr [.str "x"]), ("s", .arr [.str "s"])]
    [("a", .obj [("y", .num 2)]), ("s", .str "v"), ("o", .obj [("q", .num 1)])] rfl

/-- C16: on the object payload `{"a": [1]}` and a target whose `a` is an
object, `remove` does not complete: the unchecked assertion
`deletableKey.(string)` panics on the number.  The other leaves of the claim
(a string, a number, null, a sequence of strings) are silent: the first
three change nothing. -/
theorem remove_panics_on_non_string_name :
    remove [("a", .obj [("x", .num 1)])] (.obj [("a", .arr [.num 1])]) =
      .error (.assertionPanic (.num 1)) ∧
    remove [("a", .obj [("x", .num 1)])] (.obj [("a", .str "x")]) =
      .ok [("a", .obj [("x", .num 1)])] ∧
    remove [("a", .obj [("x", .num 1)])] (.obj [("a", .num 1)]) =
      .ok [("a", .obj [("x", .num 1)])] ∧
    remove [("a", .obj [("x", .num 1)])] (.obj [("a", .null)]) =
      .ok [("a", .obj [("x", .num 1)])] ∧
    remove [("a", .obj [("x", .num 1)])] (.obj [("a", .arr [.str "x"])]) =
      .ok [("a", .obj [])] :=
  ⟨rfl, rfl, rfl, rfl, rfl⟩

/-! ## Errors of `override` and `add` -/

theorem overrideInPlace_obj (data es : Obj) :
    overrideInPlace data (.obj es) = overrideLoopInPlace data es := by
  unfold overrideInPlace; rfl

theorem addInPlace_obj (data es : Obj) :
    addInPlace data (.obj es) = addLoopInPlace data es := by
  unfold addInPlace; rfl

theorem overrideLoopInPlace_nil (data : Obj) :
    overrideLoopInPlace data [] = (data, none) := by
  unfold overrideLoopInPlace; rfl

theorem addLoopInPlace_nil (data : Obj) :
    addLoopInPlace data [] = (data, none) := by
  unfold addLoopInPlace; rfl

theorem overrideLoopInPlace_cons_none (data : Obj) (key : String) (value : Json)
    (rest : Obj) (h : mapGet data key = none) :
    overrideLoopInPlace data ((key, value) :: rest) =
      overrideLoopInPlace data rest := by
  conv_lhs => unfold overrideLoopInPlace
  simp only [h]

theorem overrideLoopInPlace_cons_nested (data : Obj) (key : String) (t p : Obj)
    (rest : Obj) (h : mapGet data key = some (.obj t)) :
    overrideLoopInPlace data ((key, .obj p) :: rest) =
      match overrideInPlace t (.obj p) with
      | (d, some e) => (mapSet data key (.obj d), some e)
      | (d, none) => overrideLoopInPlace (mapSet data key (.obj d)) rest := by
  conv_lhs => unfold overrideLoopInPlace
  simp only [h]

theorem overrideLoopInPlace_cons_replace (data : Obj) (key : String)
    (tv value : Json) (rest : Obj) (h : mapGet data key = some tv)
    (hno : (isObj tv && isObj value) = false) :
    overrideLoopInPlace data ((key, value) :: rest) =
      overrideLoopInPlace (mapSet data key value) rest := by
  cases tv <;> cases value <;> simp [isObj] at hno <;>
    (conv_lhs => unfold overrideLoopInPlace) <;> simp only [h]

theorem addLoop_cons_none (data : Obj) (key : String) (value : Json)
    (rest : Obj) (h : mapGet data key = none) :
    addLoop data ((key, value) :: rest) = addLoop (mapSet data key value) rest := by
  conv_lhs => unfold addLoop
  simp only [h]

theorem addLoop_cons_nested (data : Obj) (key : String) (t p : Obj)
    (rest : Obj) (h : mapGet data key = some (.obj t)) :
    addLoop data ((key, .obj p) :: rest) =
      match add t (.obj p) with
      | .error e => .error e
      | .ok d => addLoop (mapSet data key (.obj d)) rest := by
  conv_lhs => unfold addLoop
  simp only [h]

theorem addLoop_cons_skip (data : Obj) (key : String) (tv value : Json)
    (rest : Obj) (h : mapGet data key = some tv)
    (hno : (isObj tv && isObj value) = false) :
    addLoop data ((key, value) :: rest) = addLoop data rest := by
  cases tv <;> cases value <;> simp [isObj] at hno <;>
    (conv_lhs => unfold addLoop) <;> simp only [h]

theorem addLoopInPlace_cons_none (data : Obj) (key : String) (value : Json)
    (rest : Obj) (h : mapGet data key = none) :
    addLoopInPlace data ((key, value) :: rest) =
      addLoopInPlace (mapSet data key value) rest := by
  conv_lhs => unfold addLoopInPlace
  simp only [h]

theorem addLoopInPlace_cons_nested (data : Obj) (key : String) (t p : Obj)
    (rest : Obj) (h : mapGet data key = some (.obj t)) :
    addLoopInPlace data ((key, .obj p) :: rest) =
      match addInPlace t (.obj p) with
      | (d, some e) => (mapSet data key (.obj d), some e)
      | (d, none) => addLoopInPlace (mapSet data key (.obj d)) rest := by
  conv_lhs => unfold addLoopInPlace
  simp only [h]

theorem addLoopInPlace_cons_skip (data : Obj) (key : String) (tv value : Json)
    (rest : Obj) (h : mapGet data key = some tv)
    (hno : (isObj tv && isObj value) = false) :
    addLoopInPlace data ((key, value) :: rest) = addLoopInPlace data rest := by
  cases tv <;> cases value <;> simp [isObj] at hno <;>
    (conv_lhs => unfold addLoopInPlace) <;> simp only [h]


mutual
theorem overrideInPlace_total (data es : Obj) :
    ∃ d, override data (.obj es) = .ok d ∧
      overrideInPlace data (.obj es) = (d, none) := by
  rw [override_obj, overrideInPlace_obj]
  exact overrideLoopInPlace_total data es
theorem overrideLoopInPlace_total (data es : Obj) :
    ∃ d, overrideLoop data es = .ok d ∧ overrideLoopInPlace data es = (d, none) :=
  match es with
  | [] => ⟨data, overrideLoop_nil data, overrideLoopInPlace_nil data⟩
  | (key, value) :: rest => by
    cases hg : mapGet data key with
    | none =>
      rw [overrideLoop_cons_none _ _ _ _ hg, overrideLoopInPlace_cons_none _ _ _ _ hg]
      exact overrideLoopInPlace_total data rest
    | some tv =>
      cases hob : (isObj tv && isObj value) with
      | false =>
        rw [overrideLoop_cons_replace _ _ _ _ _ hg hob,
          overrideLoopInPlace_cons_replace _ _ _ _ _ hg hob]
        exact overrideLoopInPlace_total _ rest
      | true =>
        cases tv with
        | obj t =>
          cases value with
          | obj p =>
            obtain ⟨t1, h1, h2⟩ := overrideInPlace_total t p
            rw [overrideLoop_cons_nested _ _ _ _ _ hg,
              overrideLoopInPlace_cons_nested _ _ _ _ _ hg, h1, h2]
            exact overrideLoopInPlace_total _ rest
          | null | bool _ | num _ | str _ | arr _ => simp [isObj] at hob
        | null | bool _ | num _ | str _ | arr _ => simp [isObj] at hob
end

mutual
theorem addInPlace_total (data es : Obj) :
    ∃ d, add data (.obj es) = .ok d ∧ addInPlace data (.obj es) = (d, none) := by
  rw [add_obj, addInPlace_obj]
  exact addLoopInPlace_total data es
theorem addLoopInPlace_total (data es : Obj) :
    ∃ d, addLoop data es = .ok d ∧ addLoopInPlace data es = (d, none) :=
  match es with
  | [] => ⟨data, addLoop_nil data, addLoopInPlace_nil data⟩
  | (key, value) :: rest => by
    cases hg : mapGet data key with
    | none =>
      rw [addLoop_cons_none _ _ _ _ hg, addLoopInPlace_cons_none _ _ _ _ hg]
      exact addLoopInPlace_total _ rest
    | some tv =>
      cases hob : (isObj tv && isObj value) with
      | false =>
        rw [addLoop_cons_skip _ _ _ _ _ hg hob,
          addLoopInPlace_cons_skip _ _ _ _ _ hg hob]
        exact addLoopInPlace_total _ rest
      | true =>
        cases tv with
        | obj t =>
          cases value with
          | obj p =>
            obtain ⟨t1, h1, h2⟩ := addInPlace_total t p
            rw [addLoop_cons_nested _ _ _ _ _ hg,
              addLoopInPlace_cons_nested _ _ _ _ _ hg, h1, h2]
            exact addLoopInPlace_total _ rest
          | null | bool _ | num _ | str _ | arr _ => simp [isObj] at hob
        | null | bool _ | num _ | str _ | arr _ => simp [isObj] at hob
end

theorem override_not_obj (data : Obj) (payload : Json)
    (h : isObj payload = false) :
    override data payload = .error (.invalidOverride payload) ∧
      overrideInPlace data payload = (data, some (.invalidOverride payload)) := by
  cases payload <;> simp [isObj] at h <;> simp [override, overrideInPlace]

theorem add_not_obj (data : Obj) (payload : Json) (h : isObj payload = false) :
    add data payload = .error (.invalidAdd payload) ∧
      addInPlace data payload = (data, some (.invalidAdd payload)) := by
  cases payload <;> simp [isObj] at h <;> simp [add, addInPlace]

/-- C15: `override` and `add` return an error exactly when their top-level
payload is not an object.  On an object payload, whatever its nested values,
they return no error; on any other payload they return the format error and
the target is as it was (the threaded versions return the target itself). -/
theorem override_add_error_iff_not_object (target : Obj) (payload : Json) :
    ((∃ e, override target payload = .error e) ↔ isObj payload = false) ∧
    ((∃ e, add target payload = .error e) ↔ isObj payload = false) ∧
    (isObj payload = true →
      (∃ out, override target payload = .ok out ∧
        overrideInPlace target payload = (out, none)) ∧
      (∃ out, add target payload = .ok out ∧
        addInPlace target payload = (out, none))) ∧
    (isObj payload = false →
      override target payload = .error (.invalidOverride payload) ∧
      overrideInPlace target payload = (target, some (.invalidOverride payload)) ∧
      add target payload = .error (.invalidAdd payload) ∧
      addInPlace target payload = (target, some (.invalidAdd payload))) := by
  have hobj : isObj payload = true →
      (∃ out, override target payload = .ok out ∧
        overrideInPlace target payload = (out, none)) ∧
      (∃ out, add target payload = .ok out ∧
        addInPlace target payload = (out, none)) := by
    intro h
    cases payload with
    | obj es => exact ⟨overrideInPlace_total target es, addInPlace_total target es⟩
    | null | bool _ | num _ | str _ | arr _ => simp [isObj] at h
  have hnot : isObj payload = false →
      override target payload = .error (.invalidOverride payload) ∧
      overrideInPlace target payload = (target, some (.invalidOverride payload)) ∧
      add target payload = .error (.invalidAdd payload) ∧
      addInPlace target payload = (target, some (.invalidAdd payload)) := by
    intro h
    exact ⟨(override_not_obj target payload h).1, (override_not_obj target payload h).2,
      (add_not_obj target payload h).1, (add_not_obj target payload h).2⟩
  refine ⟨⟨?_, fun h => ⟨_, (hnot h).1⟩⟩, ⟨?_, fun h => ⟨_, (hnot h).2.2.1⟩⟩, hobj, hnot⟩
  · rintro ⟨e, he⟩
    cases hp : isObj payload with
    | false => rfl
    | true =>
      obtain ⟨out, ho, _⟩ := (hobj hp).1
      rw [ho] at he
      cases he
  · rintro ⟨e, he⟩
    cases hp : isObj payload with
    | false => rfl
    | true =>
      obtain ⟨out, ho, _⟩ := (hobj hp).2
      rw [ho] at he
      cases he

/-! ## The writer and sibling references -/

/-- C18: `generateUpdatedJson` joins `output_` as a path element of its
own, so the file it writes is `<target directory>/output_/<base name>`, not
`<target directory>/output_<base name>`, and the write fails when that path
cannot be written; and `GenerateDereferencedJson` does not reach the write
for a readable file, because it hands `parseJsonFile` the map itself and
`json.Unmarshal` refuses it. -/
theorem output_file_is_not_prefixed :
    (∀ (env : Env) (writable : String → Bool) (fileName outputPath : String)
        (data : Json),
      generateUpdatedJson env writable fileName outputPath data =
        if writable (env.join (env.join outputPath "output_") fileName) then
          .ok (env.join (env.join outputPath "output_") fileName, data)
        else
          .error (.writeFile (env.join (env.join outputPath "output_") fileName))) ∧
    generateUpdatedJson (slashEnv confFiles) (fun _ => true)
        (slashBase "conf/a.json")
        (outputDirectoryOf (slashEnv confFiles) "conf/a.json" [])
        (.obj [("v", .num 1)]) =
      .ok ("conf/output_/a.json", .obj [("v", .num 1)]) ∧
    generateUpdatedJson (slashEnv confFiles) (fun _ => true)
        (slashBase "conf/a.json")
        (outputDirectoryOf (slashEnv confFiles) "conf/a.json" ["out"])
        (.obj [("v", .num 1)]) =
      .ok ("out/output_/a.json", .obj [("v", .num 1)]) ∧
    generateUpdatedJson (slashEnv confFiles) (fun _ => false)
        (slashBase "conf/a.json")
        (outputDirectoryOf (slashEnv confFiles) "conf/a.json" [])
        (.obj [("v", .num 1)]) =
      .error (.writeFile "conf/output_/a.json") ∧
    "conf/output_/a.json" ≠ "conf/output_a.json" ∧
    (∀ (writable : String → Bool) (fuel : Nat) (options : List String),
      GenerateDereferencedJson (slashEnv confFiles) writable fuel "conf/a.json"
          options =
        .error (.invalidUnmarshal "conf/a.json")) :=
  ⟨fun _ _ _ _ _ => rfl, rfl, rfl, rfl, by decide, fun _ _ _ => rfl⟩


/-- C20: two sibling objects that reference the same directive-free file
both resolve: the node `{"a": {"$ref": F}, "b": {"$ref": F}}` resolves to
`{"a": F's object, "b": F's object}`.  Each sibling is resolved with the
resolution path of the parent, on which the file is not present; had the file
been on that path, the same call would be the cyclic-reference error. -/
theorem sibling_references_are_not_a_cycle (env : Env) (fuel : Nat)
    (refPath : String) (fileRoot : Obj) (basePath : String)
    (referencedFiles : List String)
    (hnew : env.join basePath refPath ∉ referencedFiles)
    (hfile : env.files (env.join basePath refPath) = some (.obj fileRoot))
    (hfree : directiveFree (.obj fileRoot) = true)
    (hkeys : (keys fileRoot).Nodup)
    (hfuel : depth (.obj fileRoot) + 2 ≤ fuel) :
    resolveReferences env fuel (.obj (siblingDoc refPath)) basePath
        referencedFiles =
      .ok (.obj [("a", .obj fileRoot), ("b", .obj fileRoot)]) ∧
    resolveReferences env (fuel - 1) (.obj [("$ref", refTo refPath)]) basePath
        referencedFiles = .ok (.obj fileRoot) ∧
    resolveReferences env (fuel - 1) (.obj [("$ref", refTo refPath)]) basePath
        (referencedFiles ++ [env.join basePath refPath]) =
      .error (.cyclicReference (referencedFiles ++ [env.join basePath refPath])
        (env.join basePath refPath)) := by
  rw [depth_obj] at hfuel
  obtain ⟨m, rfl⟩ : ∃ m, fuel = m + 1 + 1 := ⟨fuel - 2, by omega⟩
  have hF := directiveFree_clean _ hfree
  rw [clean_obj] at hF
  have hmerge : mergeInto [] fileRoot = fileRoot := by
    rw [mergeInto_append fileRoot [] hkeys (fun k _ h => by simp [keys] at h)]
    simp
  have hself := resolve_clean_id env m fileRoot (env.dir (env.join basePath refPath))
    (referencedFiles ++ [env.join basePath refPath]) hF (by omega)
  have hone := resolve_ref_node env m [("$ref", refTo refPath)] basePath
    referencedFiles [("path", .str refPath)] refPath fileRoot (.obj fileRoot)
    fileRoot rfl rfl hnew (parseJsonFile_obj env _ _ hfile) (by rfl) hself hF
    (by omega) (by rw [mapDelete_ref]; rfl) (by rw [depthObj_ref]; omega)
  rw [mapDelete_ref, hmerge] at hone
  have hsub : m + 1 + 1 - 1 = m + 1 := by omega
  refine ⟨?_, by rw [hsub]; exact hone, ?_⟩
  · rw [resolveReferences_succ,
      expandReference_none env _ _ _ _ (by simp [siblingDoc, mapGet])]
    simp only [siblingDoc, resolveNested, hone]
    rw [applyDirectives_none _ (by simp [mapGet]) (by simp [mapGet])
      (by simp [mapGet])]
  · rw [hsub]
    exact resolve_cyclic env m [("$ref", refTo refPath)] basePath
      (referencedFiles ++ [env.join basePath refPath]) [("path", .str refPath)]
      refPath rfl rfl (by simp)

theorem sibling_references_are_not_a_cycle_witness :
    resolveReferences exampleEnv 4 (.obj (siblingDoc "leaf.json")) "."
        ["root.json"] =
      .ok (.obj [("a", .obj [("v", .num 3), ("w", .obj [("z", .null)])]),
        ("b", .obj [("v", .num 3), ("w", .obj [("z", .null)])])]) ∧
    resolveReferences exampleEnv (4 - 1) (.obj [("$ref", refTo "leaf.json")]) "."
        ["root.json"] = .ok (.obj [("v", .num 3), ("w", .obj [("z", .null)])]) ∧
    resolveReferences exampleEnv (4 - 1) (.obj [("$ref", refTo "leaf.json")]) "."
        (["root.json"] ++ [exampleEnv.join "." "leaf.json"]) =
      .error (.cyclicReference (["root.json"] ++ [exampleEnv.join "." "leaf.json"])
        (exampleEnv.join "." "leaf.json")) :=
  sibling_references_are_not_a_cycle exampleEnv 4 "leaf.json"
    [("v", .num 3), ("w", .obj [("z", .null)])] "." ["root.json"]
    (by decide) rfl (by decide) (by decide) (by decide)

/-! ## Termination of the walk -/

theorem ranOut_ok {α : Type} (a : α) : ranOut (Except.ok a : Except Err α) = false := rfl

theorem ranOut_eq_false_iff {α : Type} (x : Except Err α) :
    ranOut x = false ↔ x ≠ .error .outOfFuel := by
  cases x with
  | ok a => simp [ranOut]
  | error e => cases e <;> simp [ranOut]

theorem ranOut_error_cast {α β : Type} (e : Err) :
    ranOut (Except.error e : Except Err α) = ranOut (Except.error e : Except Err β) := by
  cases e <;> rfl

theorem override_ranOut (data : Obj) (payload : Json) :
    ranOut (override data payload) = false := by
  cases hp : isObj payload with
  | false => rw [(override_not_obj data payload hp).1]; rfl
  | true =>
    cases payload with
    | obj es =>
      obtain ⟨d, hd⟩ := override_total data es
      rw [hd]; rfl
    | null | bool _ | num _ | str _ | arr _ => simp [isObj] at hp

theorem add_ranOut (data : Obj) (payload : Json) :
    ranOut (add data payload) = false := by
  cases hp : isObj payload with
  | false => rw [(add_not_obj data payload hp).1]; rfl
  | true =>
    cases payload with
    | obj es =>
      obtain ⟨d, hd⟩ := add_total data es
      rw [hd]; rfl
    | null | bool _ | num _ | str _ | arr _ => simp [isObj] at hp

theorem deleteKeys_ranOut (ks : List Json) : ∀ (t : Obj),
    ranOut (deleteKeys t ks) = false := by
  induction ks with
  | nil => intro t; unfold deleteKeys; rfl
  | cons k rest ih =>
    intro t
    cases k with
    | str s => unfold deleteKeys; exact ih _
    | null | bool _ | num _ | obj _ | arr _ => unfold deleteKeys; rfl

mutual
theorem remove_obj_ranOut (data es : Obj) :
    ranOut (remove data (.obj es)) = false := by
  rw [remove_obj]
  exact removeLoop_ranOut data es
theorem removeLoop_ranOut (data es : Obj) :
    ranOut (removeLoop data es) = false :=
  match es with
  | [] => by rw [removeLoop_nil]; rfl
  | (key, value) :: rest => by
    cases hg : mapGet data key with
    | none =>
      unfold removeLoop
      simp only [hg]
      exact removeLoop_ranOut data rest
    | some tv =>
      cases tv with
      | obj t =>
        cases value with
        | obj p =>
          rw [removeLoop_cons_nested _ _ _ _ _ hg]
          have h1 := remove_obj_ranOut t p
          cases h : remove t (.obj p) with
          | error e => rw [h] at h1; exact h1
          | ok d => exact removeLoop_ranOut _ rest
        | arr ks =>
          rw [removeLoop_cons_arr _ _ _ _ _ hg]
          have h1 := deleteKeys_ranOut ks t
          cases h : deleteKeys t ks with
          | error e => rw [h] at h1; exact h1
          | ok d => exact removeLoop_ranOut _ rest
        | null | bool _ | num _ | str _ =>
          unfold removeLoop
          simp only [hg]
          exact removeLoop_ranOut data rest
      | null | bool _ | num _ | str _ | arr _ =>
        unfold removeLoop
        simp only [hg]
        exact removeLoop_ranOut data rest
end

theorem remove_ranOut (data : Obj) (payload : Json) :
    ranOut (remove data payload) = false := by
  cases payload with
  | obj es => exact remove_obj_ranOut data es
  | null | bool _ | num _ | str _ | arr _ => unfold remove; rfl

theorem overrideStep_ranOut (dm : Obj) : ranOut (overrideStep dm) = false := by
  unfold overrideStep
  cases hg : mapGet dm "$override" with
  | none => rfl
  | some p =>
    have h1 := override_ranOut dm p
    cases h : override dm p with
    | error e => rw [h] at h1; simp only [h]; exact h1
    | ok d => simp only [h]; rfl

theorem addStep_ranOut (dm : Obj) : ranOut (addStep dm) = false := by
  unfold addStep
  cases hg : mapGet dm "$add" with
  | none => rfl
  | some p =>
    have h1 := add_ranOut dm p
    cases h : add dm p with
    | error e => rw [h] at h1; simp only [h]; exact h1
    | ok d => simp only [h]; rfl

theorem deleteStep_ranOut (dm : Obj) : ranOut (deleteStep dm) = false := by
  unfold deleteStep
  cases hg : mapGet dm "$delete" with
  | none => rfl
  | some p =>
    have h1 := remove_ranOut dm p
    cases h : remove dm p with
    | error e => rw [h] at h1; simp only [h]; exact h1
    | ok d => simp only [h]; rfl

theorem applyDirectives_ranOut (dm : Obj) : ranOut (applyDirectives dm) = false := by
  unfold applyDirectives
  have h1 := overrideStep_ranOut dm
  cases h : overrideStep dm with
  | error e => rw [h] at h1; exact h1
  | ok d1 =>
    have h2 := addStep_ranOut d1
    cases h' : addStep d1 with
    | error e => rw [h'] at h2; simp only [h']; exact h2
    | ok d2 => simp only [h']; exact deleteStep_ranOut d2

theorem parseJsonFile_ranOut (env : Env) (f : String) (isPointer : Bool) :
    ranOut (parseJsonFile env f isPointer) = false := by
  unfold parseJsonFile
  cases env.files f with
  | none => rfl
  | some c =>
    cases isPointer with
    | false => rfl
    | true => cases c <;> rfl

theorem parseJsonFile_ok_known (env : Env) (f : String) (fd : Obj)
    (h : parseJsonFile env f true = .ok fd) : env.files f ≠ none := by
  intro hn
  unfold parseJsonFile at h
  rw [hn] at h
  cases h

/-- The expansion of `$ref` either makes no recursive call, or makes exactly
one, on a value and a file that do not depend on what the call returns. -/
theorem expandReference_cases (env : Env) (dm : Obj) (b : String)
    (r : List String) :
    (∃ res : Except Err (Obj × List String), ranOut res = false ∧
      (∀ self, expandReference env self dm b r = res) ∧
      (∀ dm1 r1, res = .ok (dm1, r1) → dm1 = dm ∧ r1 = r)) ∨
    (∃ rv f, f ∉ r ∧ env.files f ≠ none ∧ mapGet dm "$ref" ≠ none ∧
      ∀ self,
        (∀ e, self rv (env.dir f) (r ++ [f]) = .error e →
          expandReference env self dm b r = .error e) ∧
        (∀ rd, self rv (env.dir f) (r ++ [f]) = .ok (.obj rd) →
          expandReference env self dm b r =
            .ok (mergeInto (mapDelete dm "$ref") rd, r ++ [f])) ∧
        (∀ o, self rv (env.dir f) (r ++ [f]) = .ok o → isObj o = false →
          expandReference env self dm b r = .error (.invalidReferencedValue o))) := by
  cases hg : mapGet dm "$ref" with
  | none =>
    exact Or.inl ⟨.ok (dm, r), rfl, fun self => expandReference_none env self dm b r hg,
      fun dm1 r1 h => by cases h; exact ⟨rfl, rfl⟩⟩
  | some refData =>
    cases hob : isObj refData with
    | false =>
      refine Or.inl ⟨.error (.invalidReferenceData refData), rfl, fun self => ?_,
        fun dm1 r1 h => by cases h⟩
      unfold expandReference
      cases refData <;> simp [isObj] at hob <;> simp only [hg]
    | true =>
    cases refData with
    | obj rv =>
      cases hp : asString (mapGet rv "path") with
      | none =>
        refine Or.inl ⟨.error (.missingPath rv), rfl, fun self => ?_,
          fun dm1 r1 h => by cases h⟩
        unfold expandReference
        simp only [hg, hp]
      | some refPath =>
        by_cases hmem : env.join b refPath ∈ r
        · exact Or.inl ⟨.error (.cyclicReference r (env.join b refPath)), rfl,
            fun self => expandReference_cyclic env self dm b r rv refPath hg hp hmem,
            fun dm1 r1 h => by cases h⟩
        · cases hparse : parseJsonFile env (env.join b refPath) true with
          | error e =>
            refine Or.inl ⟨.error e, ?_, fun self => ?_, fun dm1 r1 h => by cases h⟩
            · have := parseJsonFile_ranOut env (env.join b refPath) true
              rw [hparse] at this
              rw [ranOut_error_cast e] at this
              exact this
            · unfold expandReference
              simp only [hg, hp, hmem, if_false, hparse]
          | ok fd =>
            have hkn := parseJsonFile_ok_known env _ fd hparse
            cases hk : asString (mapGet rv "key") with
            | none =>
              refine Or.inr ⟨.obj fd, env.join b refPath, hmem, hkn, by simp, fun self => ⟨?_, ?_, ?_⟩⟩
              · intro e he
                exact expandReference_self_error env self dm b r rv refPath fd _ e hg hp
                  hmem hparse (by rw [hk]) he
              · intro rd hrd
                exact expandReference_eval env self dm b r rv refPath fd _ rd hg hp
                  hmem hparse (by rw [hk]) hrd
              · intro o ho hno
                unfold expandReference
                simp only [hg, hp, hmem, if_false, hparse, hk, ho]
                cases o <;> simp [isObj] at hno <;> rfl
            | some refKey =>
              cases hv : mapGet fd refKey with
              | none =>
                refine Or.inl ⟨.error (.keyNotFound refKey refPath), rfl, fun self => ?_,
                  fun dm1 r1 h => by cases h⟩
                unfold expandReference
                simp only [hg, hp, hmem, if_false, hparse, hk, hv]
              | some v =>
                refine Or.inr ⟨v, env.join b refPath, hmem, hkn, by simp, fun self => ⟨?_, ?_, ?_⟩⟩
                · intro e he
                  exact expandReference_self_error env self dm b r rv refPath fd _ e hg hp
                    hmem hparse (by rw [hk]; exact hv) he
                · intro rd hrd
                  exact expandReference_eval env self dm b r rv refPath fd _ rd hg hp
                    hmem hparse (by rw [hk]; exact hv) hrd
                · intro o ho hno
                  unfold expandReference
                  simp only [hg, hp, hmem, if_false, hparse, hk, hv, ho]
                  cases o <;> simp [isObj] at hno <;> rfl
    | null | bool _ | num _ | str _ | arr _ => simp [isObj] at hob

theorem ranOut_error_of {α β : Type} (e : Err)
    (h : ranOut (Except.error e : Except Err α) = false) :
    ranOut (Except.error e : Except Err β) = false := by
  rw [ranOut_error_cast e]; exact h

/-- The expansion of `$ref` does not change when the recursive call is
replaced by one that agrees with it wherever it does not run out. -/
theorem expandReference_mono (env : Env)
    (self self' : Json → String → List String → Except Err Json)
    (dm : Obj) (b : String) (r : List String)
    (h : ∀ v b r, ranOut (self v b r) = false → self' v b r = self v b r)
    (hrun : ranOut (expandReference env self dm b r) = false) :
    expandReference env self' dm b r = expandReference env self dm b r := by
  rcases expandReference_cases env dm b r with
    ⟨res, _, hall, _⟩ | ⟨rv, f, _, _, _, hself⟩
  · rw [hall self, hall self']
  · cases hs : self rv (env.dir f) (r ++ [f]) with
    | error e =>
      have h1 := (hself self).1 e hs
      rw [h1] at hrun
      have h3 := h rv (env.dir f) (r ++ [f]) (by rw [hs]; exact ranOut_error_of e hrun)
      rw [hs] at h3
      rw [h1, (hself self').1 e h3]
    | ok o =>
      have h3 := h rv (env.dir f) (r ++ [f]) (by rw [hs]; rfl)
      rw [hs] at h3
      cases hob : isObj o with
      | false => rw [(hself self).2.2 o hs hob, (hself self').2.2 o h3 hob]
      | true =>
        cases o with
        | obj rd => rw [(hself self).2.1 rd hs, (hself self').2.1 rd h3]
        | null | bool _ | num _ | str _ | arr _ => simp [isObj] at hob

theorem resolveNested_cons_obj (self : Json → Except Err Json) (key : String)
    (nm : Obj) (rest : Obj) :
    (∀ e, self (.obj nm) = .error e →
      resolveNested self ((key, .obj nm) :: rest) = .error e) ∧
    (∀ v, self (.obj nm) = .ok v →
      (∀ e, resolveNested self rest = .error e →
        resolveNested self ((key, .obj nm) :: rest) = .error e) ∧
      (∀ out, resolveNested self rest = .ok out →
        resolveNested self ((key, .obj nm) :: rest) = .ok ((key, v) :: out))) := by
  refine ⟨fun e he => ?_, fun v hv => ⟨fun e he => ?_, fun out ho => ?_⟩⟩
  · simp only [resolveNested, he]
  · simp only [resolveNested, hv, he]
  · simp only [resolveNested, hv, ho]

theorem resolveNested_cons_leaf (self : Json → Except Err Json) (key : String)
    (value : Json) (rest : Obj) (hno : isObj value = false) :
    (∀ e, resolveNested self rest = .error e →
      resolveNested self ((key, value) :: rest) = .error e) ∧
    (∀ out, resolveNested self rest = .ok out →
      resolveNested self ((key, value) :: rest) = .ok ((key, value) :: out)) := by
  refine ⟨fun e he => ?_, fun out ho => ?_⟩
  · cases value <;> simp [isObj] at hno <;> simp only [resolveNested, he]
  · cases value <;> simp [isObj] at hno <;> simp only [resolveNested, ho]

/-- The walk over the values of a node does not change when the recursive
call is replaced by one that agrees with it wherever it does not run out. -/
theorem resolveNested_mono (self self' : Json → Except Err Json) (es : Obj)
    (h : ∀ v, ranOut (self v) = false → self' v = self v) :
    ranOut (resolveNested self es) = false →
      resolveNested self' es = resolveNested self es := by
  induction es with
  | nil => intro _; simp only [resolveNested]
  | cons e rest ih =>
    obtain ⟨key, value⟩ := e
    intro hrun
    cases hob : isObj value with
    | false =>
      cases hr : resolveNested self rest with
      | error e =>
        rw [(resolveNested_cons_leaf self key value rest hob).1 e hr] at hrun ⊢
        have h1 := ih (by rw [hr]; exact hrun)
        rw [hr] at h1
        rw [(resolveNested_cons_leaf self' key value rest hob).1 e h1]
      | ok out =>
        have h1 := ih (by rw [hr]; rfl)
        rw [hr] at h1
        rw [(resolveNested_cons_leaf self key value rest hob).2 out hr,
          (resolveNested_cons_leaf self' key value rest hob).2 out h1]
    | true =>
      cases value with
      | obj nm =>
        cases hs : self (.obj nm) with
        | error e =>
          rw [(resolveNested_cons_obj self key nm rest).1 e hs] at hrun ⊢
          have h1 := h (.obj nm) (by rw [hs]; exact ranOut_error_of e hrun)
          rw [hs] at h1
          rw [(resolveNested_cons_obj self' key nm rest).1 e h1]
        | ok v =>
          have h1 := h (.obj nm) (by rw [hs]; rfl)
          rw [hs] at h1
          cases hr : resolveNested self rest with
          | error e =>
            rw [((resolveNested_cons_obj self key nm rest).2 v hs).1 e hr] at hrun ⊢
            have h2 := ih (by rw [hr]; exact hrun)
            rw [hr] at h2
            rw [((resolveNested_cons_obj self' key nm rest).2 v h1).1 e h2]
          | ok out =>
            have h2 := ih (by rw [hr]; rfl)
            rw [hr] at h2
            rw [((resolveNested_cons_obj self key nm rest).2 v hs).2 out hr,
              ((resolveNested_cons_obj self' key nm rest).2 v h1).2 out h2]
      | null | bool _ | num _ | str _ | arr _ => simp [isObj] at hob

/-- The three stages of one call of `resolveReferences`, read off its
result. -/
theorem resolveReferences_stages (env : Env) (n : Nat) (dm : Obj) (b : String)
    (r : List String) :
    (∀ e, expandReference env (fun v b r => resolveReferences env n v b r) dm b r =
        .error e → resolveReferences env (n + 1) (.obj dm) b r = .error e) ∧
    (∀ dm1 r1, expandReference env (fun v b r => resolveReferences env n v b r)
        dm b r = .ok (dm1, r1) →
      (∀ e, resolveNested (fun v => resolveReferences env n v b r1) dm1 = .error e →
        resolveReferences env (n + 1) (.obj dm) b r = .error e) ∧
      (∀ dm2, resolveNested (fun v => resolveReferences env n v b r1) dm1 = .ok dm2 →
        resolveReferences env (n + 1) (.obj dm) b r = asJson (applyDirectives dm2))) := by
  refine ⟨fun e he => ?_, fun dm1 r1 h1 => ⟨fun e he => ?_, fun dm2 h2 => ?_⟩⟩
  · rw [resolveReferences_succ, he]
  · rw [resolveReferences_succ, h1]
    simp only [he]
  · rw [resolveReferences_succ, h1]
    simp only [h2]
    cases applyDirectives dm2 <;> rfl

theorem asJson_ranOut (x : Except Err Obj) : ranOut (asJson x) = ranOut x := by
  cases x with
  | ok d => rfl
  | error e => cases e <;> rfl

theorem resolveReferences_not_obj (env : Env) (n : Nat) (data : Json) (b : String)
    (r : List String) (hno : isObj data = false) :
    resolveReferences env (n + 1) data b r = .error (.invalidJsonData data) := by
  cases data <;> simp [isObj] at hno <;> rfl

/-- One more unit of fuel does not change a result that did not run out. -/
theorem resolve_mono_succ (env : Env) : ∀ (n : Nat) (data : Json) (b : String)
    (r : List String), ranOut (resolveReferences env n data b r) = false →
    resolveReferences env (n + 1) data b r = resolveReferences env n data b r := by
  intro n
  induction n with
  | zero => intro data b r h; rw [resolveReferences_zero] at h; simp [ranOut] at h
  | succ n ih =>
    intro data b r hrun
    cases hob : isObj data with
    | false =>
      rw [resolveReferences_not_obj env (n + 1) data b r hob,
        resolveReferences_not_obj env n data b r hob]
    | true =>
      cases data with
      | obj dm =>
        have hs := resolveReferences_stages env n dm b r
        have hs' := resolveReferences_stages env (n + 1) dm b r
        cases hE : expandReference env (fun v b r => resolveReferences env n v b r)
            dm b r with
        | error e =>
          rw [hs.1 e hE] at hrun ⊢
          have hE' := expandReference_mono env
            (fun v b r => resolveReferences env n v b r)
            (fun v b r => resolveReferences env (n + 1) v b r) dm b r
            (fun v b r h => ih v b r h) (by rw [hE]; exact ranOut_error_of e hrun)
          rw [hE] at hE'
          exact hs'.1 e hE'
        | ok p =>
          obtain ⟨dm1, r1⟩ := p
          have hE' := expandReference_mono env
            (fun v b r => resolveReferences env n v b r)
            (fun v b r => resolveReferences env (n + 1) v b r) dm b r
            (fun v b r h => ih v b r h) (by rw [hE]; rfl)
          rw [hE] at hE'
          cases hN : resolveNested (fun v => resolveReferences env n v b r1) dm1 with
          | error e =>
            rw [((hs.2 dm1 r1 hE).1 e hN)] at hrun ⊢
            have hN' := resolveNested_mono
              (fun v => resolveReferences env n v b r1)
              (fun v => resolveReferences env (n + 1) v b r1) dm1
              (fun v h => ih v b r1 h) (by rw [hN]; exact ranOut_error_of e hrun)
            rw [hN] at hN'
            exact (hs'.2 dm1 r1 hE').1 e hN'
          | ok dm2 =>
            have hN' := resolveNested_mono
              (fun v => resolveReferences env n v b r1)
              (fun v => resolveReferences env (n + 1) v b r1) dm1
              (fun v h => ih v b r1 h) (by rw [hN]; rfl)
            rw [hN] at hN'
            rw [(hs.2 dm1 r1 hE).2 dm2 hN, (hs'.2 dm1 r1 hE').2 dm2 hN']
      | null | bool _ | num _ | str _ | arr _ => simp [isObj] at hob

/-- More fuel does not change a result that did not run out. -/
theorem resolve_mono (env : Env) (n : Nat) (data : Json) (b : String)
    (r : List String) (hrun : ranOut (resolveReferences env n data b r) = false) :
    ∀ m, n ≤ m → resolveReferences env m data b r = resolveReferences env n data b r := by
  intro m hm
  induction m with
  | zero =>
    have : n = 0 := by omega
    subst this
    rfl
  | succ m ih =>
    by_cases h : n = m + 1
    · subst h; rfl
    · have h1 := ih (by omega)
      rw [← h1] at hrun
      rw [resolve_mono_succ env m data b r hrun, h1]

/-- Two runs that do not run out return the same. -/
theorem resolve_deterministic (env : Env) (n m : Nat) (data : Json) (b : String)
    (r : List String) (hn : ranOut (resolveReferences env n data b r) = false)
    (hm : ranOut (resolveReferences env m data b r) = false) :
    resolveReferences env n data b r = resolveReferences env m data b r := by
  rcases Nat.le_total n m with h | h
  · exact (resolve_mono env n data b r hn m h).symm
  · exact resolve_mono env m data b r hm n h

/-! ## The measure of the walk -/

theorem jsize_obj (kvs : Obj) : jsize (.obj kvs) = jsizeObj kvs + 1 := by
  unfold jsize; rfl

theorem jsizeObj_cons (k : String) (v : Json) (rest : Obj) :
    jsizeObj ((k, v) :: rest) = jsize v + jsizeObj rest := by
  conv_lhs => unfold jsizeObj

theorem jsize_pos (v : Json) : 0 < jsize v := by
  cases v <;> unfold jsize <;> omega

/-- A value of a node is smaller than the node. -/
theorem jsize_mem (dm : Obj) (k : String) (v : Json) (h : (k, v) ∈ dm) :
    jsize v < jsize (.obj dm) := by
  rw [jsize_obj]
  induction dm with
  | nil => cases h
  | cons e rest ih =>
    obtain ⟨k0, v0⟩ := e
    rw [jsizeObj_cons]
    rcases List.mem_cons.1 h with h1 | h1
    · cases h1
      omega
    · have := ih h1
      omega

theorem unvisited_append_le (known r : List String) (f : String) :
    unvisited known (r ++ [f]) ≤ unvisited known r := by
  unfold unvisited
  induction known with
  | nil => simp
  | cons a rest ih =>
    simp only [List.filter_cons]
    by_cases h1 : a ∈ r
    · have h2 : a ∈ r ++ [f] := List.mem_append_left _ h1
      simpa [h1, h2] using ih
    · by_cases h2 : a ∈ r ++ [f]
      · simp only [h1, h2, not_true_eq_false, not_false_eq_true, decide_True,
          decide_False, if_true, List.length_cons]
        simp only [Bool.false_eq_true, if_false]
        omega
      · simp only [h1, h2, not_false_eq_true, decide_True, if_true, List.length_cons]
        omega

/-- Putting a known file on the resolution path leaves fewer known files off
it. -/
theorem unvisited_append_lt (known r : List String) (f : String)
    (hk : f ∈ known) (hf : f ∉ r) :
    unvisited known (r ++ [f]) < unvisited known r := by
  induction known with
  | nil => cases hk
  | cons a rest ih =>
    have hle := unvisited_append_le rest r f
    unfold unvisited at hle ih ⊢
    simp only [List.filter_cons]
    rcases List.mem_cons.1 hk with h0 | h0
    · subst h0
      have h2 : f ∈ r ++ [f] := by simp
      simp only [hf, h2, not_true_eq_false, not_false_eq_true, decide_True,
        decide_False, if_true, List.length_cons]
      simp only [Bool.false_eq_true, if_false]
      omega
    · have := ih h0
      by_cases h1 : a ∈ r
      · have h2 : a ∈ r ++ [f] := List.mem_append_left _ h1
        simpa [h1, h2] using this
      · by_cases h2 : a ∈ r ++ [f]
        · simp only [h1, h2, not_true_eq_false, not_false_eq_true, decide_True,
            decide_False, if_true, List.length_cons]
          simp only [Bool.false_eq_true, if_false]
          omega
        · simp only [h1, h2, not_false_eq_true, decide_True, if_true, List.length_cons]
          omega

/-! ## Every call settles -/

theorem resolveNested_fuel_mono (env : Env) (b : String) (r : List String)
    (es : Obj) (n m : Nat) (hnm : n ≤ m)
    (h : ranOut (resolveNested (fun v => resolveReferences env n v b r) es) = false) :
    resolveNested (fun v => resolveReferences env m v b r) es =
      resolveNested (fun v => resolveReferences env n v b r) es :=
  resolveNested_mono (fun v => resolveReferences env n v b r)
    (fun v => resolveReferences env m v b r) es
    (fun v hv => resolve_mono env n v b r hv m hnm) h

theorem expandReference_fuel_mono (env : Env) (dm : Obj) (b : String)
    (r : List String) (n m : Nat) (hnm : n ≤ m)
    (h : ranOut (expandReference env (fun v b r => resolveReferences env n v b r)
      dm b r) = false) :
    expandReference env (fun v b r => resolveReferences env m v b r) dm b r =
      expandReference env (fun v b r => resolveReferences env n v b r) dm b r :=
  expandReference_mono env (fun v b r => resolveReferences env n v b r)
    (fun v b r => resolveReferences env m v b r) dm b r
    (fun v b r hv => resolve_mono env n v b r hv m hnm) h

/-- When every object value of a map settles, the walk over the map
settles. -/
theorem resolveNested_settles (env : Env) (b : String) (r : List String)
    (es : Obj)
    (h : ∀ k nm, (k, Json.obj nm) ∈ es →
      ∃ N, ranOut (resolveReferences env N (.obj nm) b r) = false) :
    ∃ N, ranOut (resolveNested (fun v => resolveReferences env N v b r) es) = false := by
  induction es with
  | nil => exact ⟨0, by simp only [resolveNested]; rfl⟩
  | cons e rest ih =>
    obtain ⟨key, value⟩ := e
    obtain ⟨N1, h1⟩ := ih (fun k nm hk => h k nm (List.mem_cons_of_mem _ hk))
    cases hob : isObj value with
    | false =>
      refine ⟨N1, ?_⟩
      cases hr : resolveNested (fun v => resolveReferences env N1 v b r) rest with
      | error e =>
        rw [(resolveNested_cons_leaf _ key value rest hob).1 e hr]
        rw [hr] at h1
        exact h1
      | ok out =>
        rw [(resolveNested_cons_leaf _ key value rest hob).2 out hr]
        rfl
    | true =>
      cases value with
      | obj nm =>
        obtain ⟨N0, h0⟩ := h key nm (List.mem_cons_self _ _)
        refine ⟨max N0 N1, ?_⟩
        have e0 := resolve_mono env N0 (.obj nm) b r h0 (max N0 N1) (le_max_left _ _)
        have e1 := resolveNested_fuel_mono env b r rest N1 (max N0 N1)
          (le_max_right _ _) h1
        cases hs : resolveReferences env N0 (.obj nm) b r with
        | error e =>
          rw [hs] at e0 h0
          rw [(resolveNested_cons_obj _ key nm rest).1 e e0]
          exact ranOut_error_of e h0
        | ok v =>
          rw [hs] at e0
          cases hr : resolveNested (fun v => resolveReferences env N1 v b r) rest with
          | error e =>
            rw [hr] at e1 h1
            rw [((resolveNested_cons_obj _ key nm rest).2 v e0).1 e e1]
            exact h1
          | ok out =>
            rw [hr] at e1
            rw [((resolveNested_cons_obj _ key nm rest).2 v e0).2 out e1]
            rfl
      | null | bool _ | num _ | str _ | arr _ => simp [isObj] at hob

/-- A call whose expansion and whose walk over the values do not run out does
not run out. -/
theorem resolve_of_stages (env : Env) (n : Nat) (dm : Obj) (b : String)
    (r : List String) (dm1 : Obj) (r1 : List String)
    (hE : expandReference env (fun v b r => resolveReferences env n v b r) dm b r =
      .ok (dm1, r1))
    (hN : ranOut (resolveNested (fun v => resolveReferences env n v b r1) dm1) = false) :
    ranOut (resolveReferences env (n + 1) (.obj dm) b r) = false := by
  have hs := (resolveReferences_stages env n dm b r).2 dm1 r1 hE
  cases hr : resolveNested (fun v => resolveReferences env n v b r1) dm1 with
  | error e =>
    rw [hs.1 e hr]
    rw [hr] at hN
    exact ranOut_error_of e hN
  | ok dm2 =>
    rw [hs.2 dm2 hr, asJson_ranOut]
    exact applyDirectives_ranOut dm2

theorem resolve_settles_step (env : Env) (known : List String)
    (hknown : ∀ p, env.files p ≠ none → p ∈ known) (u : Nat)
    (hprev : ∀ (data : Json) (b : String) (r : List String),
      unvisited known r < u →
        ∃ N, ranOut (resolveReferences env N data b r) = false) :
    ∀ (s : Nat) (data : Json) (b : String) (r : List String),
      unvisited known r ≤ u → jsize data ≤ s →
        ∃ N, ranOut (resolveReferences env N data b r) = false := by
  intro s
  induction s with
  | zero =>
    intro data b r _ hs
    have := jsize_pos data
    omega
  | succ s ih =>
    intro data b r hu hs
    cases hob : isObj data with
    | false =>
      exact ⟨1, by rw [resolveReferences_not_obj env 0 data b r hob]; rfl⟩
    | true =>
      cases data with
      | obj dm =>
        rcases expandReference_cases env dm b r with
          ⟨res, hres, hall, hsame⟩ | ⟨rv, f, hf, hfile, _, hself⟩
        · cases res with
          | error e =>
            refine ⟨1, ?_⟩
            rw [(resolveReferences_stages env 0 dm b r).1 e (hall _)]
            exact ranOut_error_of e hres
          | ok p =>
            obtain ⟨dm1, r1⟩ := p
            obtain ⟨hd, hr⟩ := hsame dm1 r1 rfl
            subst hd
            subst hr
            obtain ⟨N2, h2⟩ := resolveNested_settles env b r1 dm1 (fun k nm hk => by
              have := jsize_mem dm1 k (.obj nm) hk
              exact ih (.obj nm) b r1 hu (by omega))
            exact ⟨N2 + 1, resolve_of_stages env N2 dm1 b r1 dm1 r1 (hall _) h2⟩
        · have hlt := unvisited_append_lt known r f (hknown f hfile) hf
          obtain ⟨N1, h1⟩ := hprev rv (env.dir f) (r ++ [f]) (by omega)
          cases hs1 : resolveReferences env N1 rv (env.dir f) (r ++ [f]) with
          | error e =>
            refine ⟨N1 + 1, ?_⟩
            rw [(resolveReferences_stages env N1 dm b r).1 e
              ((hself (fun v b r => resolveReferences env N1 v b r)).1 e hs1)]
            rw [hs1] at h1
            exact ranOut_error_of e h1
          | ok o =>
            cases hoo : isObj o with
            | false =>
              refine ⟨N1 + 1, ?_⟩
              rw [(resolveReferences_stages env N1 dm b r).1 _
                ((hself (fun v b r => resolveReferences env N1 v b r)).2.2 o hs1 hoo)]
              rfl
            | true =>
              cases o with
              | obj rd =>
                obtain ⟨N2, h2⟩ := resolveNested_settles env b (r ++ [f])
                  (mergeInto (mapDelete dm "$ref") rd)
                  (fun k nm _ => hprev (.obj nm) b (r ++ [f]) (by omega))
                have e1 := resolve_mono env N1 rv (env.dir f) (r ++ [f]) h1
                  (max N1 N2) (le_max_left _ _)
                rw [hs1] at e1
                have e2 := resolveNested_fuel_mono env b (r ++ [f])
                  (mergeInto (mapDelete dm "$ref") rd) N2 (max N1 N2)
                  (le_max_right _ _) h2
                refine ⟨max N1 N2 + 1, resolve_of_stages env (max N1 N2) dm b r _ _
                  ((hself (fun v b r => resolveReferences env (max N1 N2) v b r)).2.1
                    rd e1) ?_⟩
                rw [e2]
                exact h2
              | null | bool _ | num _ | str _ | arr _ => simp [isObj] at hoo
      | null | bool _ | num _ | str _ | arr _ => simp [isObj] at hob

/-- With finitely many loadable files every call of `resolveReferences`
settles: some amount of fuel is enough for it to return. -/
theorem resolve_settles (env : Env) (known : List String)
    (hknown : ∀ p, env.files p ≠ none → p ∈ known) :
    ∀ (u : Nat) (data : Json) (b : String) (r : List String),
      unvisited known r ≤ u →
        ∃ N, ranOut (resolveReferences env N data b r) = false := by
  intro u
  induction u using Nat.strong_induction_on with
  | _ u ih =>
    intro data b r hu
    exact resolve_settles_step env known hknown u
      (fun data b r hlt => ih (unvisited known r) hlt data b r (le_refl _))
      (jsize data) data b r hu (le_refl _)

theorem exampleKnown_complete :
    ∀ p, exampleEnv.files p ≠ none → p ∈ exampleKnown := by
  intro p h
  simp only [exampleEnv, flatEnv, exampleFiles] at h
  simp only [exampleKnown, List.mem_cons]
  split_ifs at h with h1 h2 h3 h4 h5 h6 h7
  · exact Or.inl h1
  · exact Or.inr (Or.inl h2)
  · exact Or.inr (Or.inr (Or.inl h3))
  · exact Or.inr (Or.inr (Or.inr (Or.inl h4)))
  · exact Or.inr (Or.inr (Or.inr (Or.inr (Or.inl h5))))
  · exact Or.inr (Or.inr (Or.inr (Or.inr (Or.inr (Or.inl h6)))))
  · exact Or.inr (Or.inr (Or.inr (Or.inr (Or.inr (Or.inr (Or.inl h7))))))
  · exact absurd rfl h

/-- The walk of `resolveReferences` is finite.  When every loadable file is in
the finite list `known`, there is an amount of fuel from which on the result
of a call is one and the same and is not the out-of-fuel mark, whatever the
files reference; the result can still be the run-time panic of line 256.  The
measure decreases at both recursive calls: the expansion of `$ref` either
makes no call, or makes its one call (line 131) with a resolution path that
leaves fewer known files unvisited; and every object value the walk of lines
148 to 155 recurses into comes with fewer unvisited files or, with as many, is
smaller than the node. -/
theorem resolve_walk_is_finite (env : Env) (known : List String)
    (hknown : ∀ p, env.files p ≠ none → p ∈ known)
    (data : Json) (basePath : String) (referencedFiles : List String) :
    (∃ N, ranOut (resolveReferences env N data basePath referencedFiles) = false ∧
      ∀ fuel, N ≤ fuel →
        resolveReferences env fuel data basePath referencedFiles =
          resolveReferences env N data basePath referencedFiles) ∧
    (∀ dm, data = .obj dm →
      ((∃ res, ∀ self, expandReference env self dm basePath referencedFiles = res) ∨
       (∃ rv f,
          unvisited known (referencedFiles ++ [f]) < unvisited known referencedFiles ∧
          ∀ self,
            (∀ e, self rv (env.dir f) (referencedFiles ++ [f]) = .error e →
              expandReference env self dm basePath referencedFiles = .error e) ∧
            (∀ rd, self rv (env.dir f) (referencedFiles ++ [f]) = .ok (.obj rd) →
              expandReference env self dm basePath referencedFiles =
                .ok (mergeInto (mapDelete dm "$ref") rd, referencedFiles ++ [f])) ∧
            (∀ o, self rv (env.dir f) (referencedFiles ++ [f]) = .ok o →
              isObj o = false →
              expandReference env self dm basePath referencedFiles =
                .error (.invalidReferencedValue o)))) ∧
      (∀ self dm1 r1,
        expandReference env self dm basePath referencedFiles = .ok (dm1, r1) →
        ∀ k nm, (k, Json.obj nm) ∈ dm1 →
          unvisited known r1 < unvisited known referencedFiles ∨
          (unvisited known r1 = unvisited known referencedFiles ∧
            jsize (.obj nm) < jsize data))) := by
  refine ⟨?_, ?_⟩
  · obtain ⟨N, hN⟩ := resolve_settles env known hknown
      (unvisited known referencedFiles) data basePath referencedFiles (le_refl _)
    exact ⟨N, hN, resolve_mono env N data basePath referencedFiles hN⟩
  · intro dm hdm
    subst hdm
    rcases expandReference_cases env dm basePath referencedFiles with
      ⟨res, _, hall, hsame⟩ | ⟨rv, f, hf, hfile, _, hself⟩
    · refine ⟨Or.inl ⟨res, hall⟩, ?_⟩
      intro self dm1 r1 hE k nm hk
      rw [hall self] at hE
      obtain ⟨hd, hr⟩ := hsame dm1 r1 hE
      subst hd
      subst hr
      exact Or.inr ⟨rfl, jsize_mem dm1 k (.obj nm) hk⟩
    · have hlt := unvisited_append_lt known referencedFiles f (hknown f hfile) hf
      refine ⟨Or.inr ⟨rv, f, hlt, hself⟩, ?_⟩
      intro self dm1 r1 hE k nm hk
      left
      cases hs : self rv (env.dir f) (referencedFiles ++ [f]) with
      | error e =>
        rw [(hself self).1 e hs] at hE
        cases hE
      | ok o =>
        cases hoo : isObj o with
        | false =>
          rw [(hself self).2.2 o hs hoo] at hE
          cases hE
        | true =>
          cases o with
          | obj rd =>
            rw [(hself self).2.1 rd hs] at hE
            cases hE
            exact hlt
          | null | bool _ | num _ | str _ | arr _ => simp [isObj] at hoo

/-- A result that is not the out-of-fuel mark is a tree, a returned error or
the panic. -/
theorem settled_cases (x : Except Err Json) (h : ranOut x = false) :
    (∃ t, x = .ok t) ∨ returnsError x = true ∨ isPanic x = true := by
  cases x with
  | ok t => exact Or.inl ⟨t, rfl⟩
  | error e => cases e <;> simp [ranOut, returnsError, isPanic] at h ⊢

/-- C19: the call does not always return.  On the node
`{"a": {"x": 1}, "$delete": {"a": [1]}}` the walk ends, with any amount of
fuel from 2 on, in the run-time panic of `deletableKey.(string)` (line 256):
neither a resolved tree nor a returned error.  The walk itself is finite:
with finitely many loadable files every call settles, from some amount of fuel
on, on one result, which is a tree, a returned error or that panic, and the
measure (known files off the resolution path, size of the node) decreases at
both recursive calls. -/
theorem resolution_is_cut_short_by_panic :
    (∀ fuel, 2 ≤ fuel →
      resolveReferences exampleEnv fuel (.obj panicDoc) "." ["root.json"] =
        .error (.assertionPanic (.num 1))) ∧
    isPanic (resolveReferences exampleEnv 2 (.obj panicDoc) "." ["root.json"]) =
      true ∧
    returnsError (resolveReferences exampleEnv 2 (.obj panicDoc) "."
      ["root.json"]) = false ∧
    resolveReferences exampleEnv 4 (.obj [("$ref", refTo "cycA.json")]) "."
        ["root.json"] =
      .error (.cyclicReference ["root.json", "cycA.json", "cycB.json"] "cycA.json") ∧
    (∀ (env : Env) (known : List String),
      (∀ p, env.files p ≠ none → p ∈ known) →
      ∀ (data : Json) (basePath : String) (referencedFiles : List String),
        (∃ N, ∀ fuel, N ≤ fuel →
          resolveReferences env fuel data basePath referencedFiles =
            resolveReferences env N data basePath referencedFiles ∧
          ((∃ t, resolveReferences env N data basePath referencedFiles = .ok t) ∨
            returnsError (resolveReferences env N data basePath referencedFiles) =
              true ∨
            isPanic (resolveReferences env N data basePath referencedFiles) =
              true)) ∧
        (∀ dm, data = .obj dm →
          ((∃ res, ∀ self,
              expandReference env self dm basePath referencedFiles = res) ∨
           (∃ rv f,
              unvisited known (referencedFiles ++ [f]) <
                unvisited known referencedFiles ∧
              ∀ self,
                (∀ e, self rv (env.dir f) (referencedFiles ++ [f]) = .error e →
                  expandReference env self dm basePath referencedFiles = .error e) ∧
                (∀ rd, self rv (env.dir f) (referencedFiles ++ [f]) =
                    .ok (.obj rd) →
                  expandReference env self dm basePath referencedFiles =
                    .ok (mergeInto (mapDelete dm "$ref") rd,
                      referencedFiles ++ [f])) ∧
                (∀ o, self rv (env.dir f) (referencedFiles ++ [f]) = .ok o →
                  isObj o = false →
                  expandReference env self dm basePath referencedFiles =
                    .error (.invalidReferencedValue o)))) ∧
          (∀ self dm1 r1,
            expandReference env self dm basePath referencedFiles = .ok (dm1, r1) →
            ∀ k nm, (k, Json.obj nm) ∈ dm1 →
              unvisited known r1 < unvisited known referencedFiles ∨
              (unvisited known r1 = unvisited known referencedFiles ∧
                jsize (.obj nm) < jsize data)))) := by
  refine ⟨fun fuel hf => ?_, rfl, rfl, rfl, ?_⟩
  · exact resolve_mono exampleEnv 2 (.obj panicDoc) "." ["root.json"] rfl fuel hf
  · intro env known hknown data basePath referencedFiles
    have hfin := resolve_walk_is_finite env known hknown data basePath
      referencedFiles
    obtain ⟨N, hN, hstable⟩ := hfin.1
    exact ⟨⟨N, fun fuel hf => ⟨hstable fuel hf, settled_cases _ hN⟩⟩, hfin.2⟩

/-! ## Faults of references -/

/-- A successful call went through its three stages. -/
theorem resolve_ok_stages (env : Env) (n : Nat) (dm : Obj) (b : String)
    (r : List String) (out : Json)
    (h : resolveReferences env (n + 1) (.obj dm) b r = .ok out) :
    ∃ dm1 r1 dm2,
      expandReference env (fun v b r => resolveReferences env n v b r) dm b r =
        .ok (dm1, r1) ∧
      resolveNested (fun v => resolveReferences env n v b r1) dm1 = .ok dm2 := by
  have hs := resolveReferences_stages env n dm b r
  cases hE : expandReference env (fun v b r => resolveReferences env n v b r)
      dm b r with
  | error e =>
    rw [hs.1 e hE] at h
    cases h
  | ok p =>
    obtain ⟨dm1, r1⟩ := p
    cases hN : resolveNested (fun v => resolveReferences env n v b r1) dm1 with
    | error e =>
      rw [(hs.2 dm1 r1 hE).1 e hN] at h
      cases h
    | ok dm2 => exact ⟨dm1, r1, dm2, rfl, hN⟩

/-- A successful walk over the values of a node has resolved every object
value. -/
theorem resolveNested_ok_mem (self : Json → Except Err Json) (es : Obj) :
    ∀ out, resolveNested self es = .ok out →
      ∀ k nm, (k, Json.obj nm) ∈ es → ∃ v, self (.obj nm) = .ok v := by
  induction es with
  | nil => intro out _ k nm hk; cases hk
  | cons e rest ih =>
    obtain ⟨key, value⟩ := e
    intro out h k nm hk
    have hrest : ∃ out1, resolveNested self rest = .ok out1 := by
      cases hr : resolveNested self rest with
      | ok out1 => exact ⟨out1, rfl⟩
      | error e =>
        exfalso
        cases hob : isObj value with
        | false =>
          rw [(resolveNested_cons_leaf self key value rest hob).1 e hr] at h
          cases h
        | true =>
          cases value with
          | obj nm0 =>
            cases hs : self (.obj nm0) with
            | error e0 =>
              rw [(resolveNested_cons_obj self key nm0 rest).1 e0 hs] at h
              cases h
            | ok v =>
              rw [((resolveNested_cons_obj self key nm0 rest).2 v hs).1 e hr] at h
              cases h
          | null | bool _ | num _ | str _ | arr _ => simp [isObj] at hob
    obtain ⟨out1, hout1⟩ := hrest
    rcases List.mem_cons.1 hk with h0 | h0
    · cases h0
      cases hs : self (.obj nm) with
      | ok v => exact ⟨v, rfl⟩
      | error e0 =>
        rw [(resolveNested_cons_obj self key nm rest).1 e0 hs] at h
        cases h
    · exact ih out1 hout1 k nm h0

/-- Two expansions that succeed, with whatever fuel for the recursive call,
return the same. -/
theorem expandReference_deterministic (env : Env) (dm : Obj) (b : String)
    (r : List String) (n m : Nat) (p q : Obj × List String)
    (hn : expandReference env (fun v b r => resolveReferences env n v b r) dm b r =
      .ok p)
    (hm : expandReference env (fun v b r => resolveReferences env m v b r) dm b r =
      .ok q) : p = q := by
  have e1 := expandReference_fuel_mono env dm b r n (max n m) (le_max_left _ _)
    (by rw [hn]; rfl)
  have e2 := expandReference_fuel_mono env dm b r m (max n m) (le_max_right _ _)
    (by rw [hm]; rfl)
  rw [e1, hn, hm] at e2
  cases e2
  rfl

theorem resolve_not_obj_not_ok (env : Env) (n : Nat) (v : Json) (b : String)
    (r : List String) (hno : isObj v = false) (out : Json) :
    resolveReferences env n v b r ≠ .ok out := by
  cases n with
  | zero => rw [resolveReferences_zero]; intro h; cases h
  | succ n => rw [resolveReferences_not_obj env n v b r hno]; intro h; cases h

/-- A fault the walk meets makes every run fail. -/
theorem faulty_never_ok (env : Env) (data : Json) (b : String) (r : List String)
    (h : Faulty env data b r) :
    ∀ fuel out, resolveReferences env fuel data b r ≠ .ok out := by
  induction h with
  | refNotObject dm b r refData hg hno =>
    intro fuel out hok
    cases fuel with
    | zero => rw [resolveReferences_zero] at hok; cases hok
    | succ n =>
      obtain ⟨dm1, r1, dm2, hE, _⟩ := resolve_ok_stages env n dm b r out hok
      rcases expandReference_ok env _ dm b r dm1 r1 hE with
        ⟨h0, _, _⟩ | ⟨rv, _, _, _, _, h0, _⟩
      · rw [hg] at h0; cases h0
      · rw [hg] at h0
        cases h0
        simp [isObj] at hno
  | noPath dm b r rv hg hp =>
    intro fuel out hok
    cases fuel with
    | zero => rw [resolveReferences_zero] at hok; cases hok
    | succ n =>
      obtain ⟨dm1, r1, dm2, hE, _⟩ := resolve_ok_stages env n dm b r out hok
      rcases expandReference_ok env _ dm b r dm1 r1 hE with
        ⟨h0, _, _⟩ | ⟨rv1, refPath1, _, _, _, h0, h1, _⟩
      · rw [hg] at h0; cases h0
      · rw [hg] at h0
        cases h0
        rw [hp] at h1
        cases h1
  | cannotLoad dm b r rv refPath e hg hp hparse =>
    intro fuel out hok
    cases fuel with
    | zero => rw [resolveReferences_zero] at hok; cases hok
    | succ n =>
      obtain ⟨dm1, r1, dm2, hE, _⟩ := resolve_ok_stages env n dm b r out hok
      rcases expandReference_ok env _ dm b r dm1 r1 hE with
        ⟨h0, _, _⟩ | ⟨rv1, refPath1, fd1, _, _, h0, h1, _, _, h2, _⟩
      · rw [hg] at h0; cases h0
      · rw [hg] at h0
        cases h0
        rw [hp] at h1
        cases h1
        rw [hparse] at h2
        cases h2
  | keyAbsent dm b r rv refPath fd refKey hg hp hparse hk hv =>
    intro fuel out hok
    cases fuel with
    | zero => rw [resolveReferences_zero] at hok; cases hok
    | succ n =>
      obtain ⟨dm1, r1, dm2, hE, _⟩ := resolve_ok_stages env n dm b r out hok
      rcases expandReference_ok env _ dm b r dm1 r1 hE with
        ⟨h0, _, _⟩ | ⟨rv1, refPath1, fd1, v1, _, h0, h1, _, _, h2, h3, _⟩
      · rw [hg] at h0; cases h0
      · rw [hg] at h0
        cases h0
        rw [hp] at h1
        cases h1
        rw [hparse] at h2
        cases h2
        rw [hk] at h3
        simp only at h3
        rw [hv] at h3
        cases h3
  | referencedNotObject dm b r rv refPath fd refKey v hg hp hparse hk hv hno =>
    intro fuel out hok
    cases fuel with
    | zero => rw [resolveReferences_zero] at hok; cases hok
    | succ n =>
      obtain ⟨dm1, r1, dm2, hE, _⟩ := resolve_ok_stages env n dm b r out hok
      rcases expandReference_ok env _ dm b r dm1 r1 hE with
        ⟨h0, _, _⟩ | ⟨rv1, refPath1, fd1, v1, _, h0, h1, _, hr1, h2, h3, h4, _⟩
      · rw [hg] at h0; cases h0
      · rw [hg] at h0
        cases h0
        rw [hp] at h1
        cases h1
        rw [hparse] at h2
        cases h2
        rw [hk] at h3
        simp only at h3
        rw [hv] at h3
        cases h3
        exact resolve_not_obj_not_ok env n v _ _ hno _ h4
  | inReferencedRoot dm b r rv refPath fd hg hp hparse hk _ ih =>
    intro fuel out hok
    cases fuel with
    | zero => rw [resolveReferences_zero] at hok; cases hok
    | succ n =>
      obtain ⟨dm1, r1, dm2, hE, _⟩ := resolve_ok_stages env n dm b r out hok
      rcases expandReference_ok env _ dm b r dm1 r1 hE with
        ⟨h0, _, _⟩ | ⟨rv1, refPath1, fd1, v1, _, h0, h1, _, hr1, h2, h3, h4, _⟩
      · rw [hg] at h0; cases h0
      · rw [hg] at h0
        cases h0
        rw [hp] at h1
        cases h1
        rw [hparse] at h2
        cases h2
        rw [hk] at h3
        simp only at h3
        subst h3
        subst hr1
        exact ih n _ h4
  | inReferencedKey dm b r rv refPath fd refKey v hg hp hparse hk hv _ ih =>
    intro fuel out hok
    cases fuel with
    | zero => rw [resolveReferences_zero] at hok; cases hok
    | succ n =>
      obtain ⟨dm1, r1, dm2, hE, _⟩ := resolve_ok_stages env n dm b r out hok
      rcases expandReference_ok env _ dm b r dm1 r1 hE with
        ⟨h0, _, _⟩ | ⟨rv1, refPath1, fd1, v1, _, h0, h1, _, hr1, h2, h3, h4, _⟩
      · rw [hg] at h0; cases h0
      · rw [hg] at h0
        cases h0
        rw [hp] at h1
        cases h1
        rw [hparse] at h2
        cases h2
        rw [hk] at h3
        simp only at h3
        rw [hv] at h3
        cases h3
        subst hr1
        exact ih n _ h4
  | inNested dm b r fuel0 dm1 r1 k nm hE0 hmem _ ih =>
    intro fuel out hok
    cases fuel with
    | zero => rw [resolveReferences_zero] at hok; cases hok
    | succ n =>
      obtain ⟨dm1', r1', dm2, hE, hN⟩ := resolve_ok_stages env n dm b r out hok
      have := expandReference_deterministic env dm b r n fuel0 _ _ hE hE0
      cases this
      obtain ⟨v, hv⟩ := resolveNested_ok_mem _ dm1 dm2 hN k nm hmem
      exact ih n v hv

/-- C17 (as stated, refuted): the object under `a` of the root is reachable
through object nesting and has a `$ref` whose value is the number 5, yet
resolution succeeds: the reference of the root is expanded first and the key
`a` of `b.json` replaces that object before the values are walked. -/
theorem shadowed_fault_is_not_fatal :
    getPath (.obj shadowedFaultDoc) ["a", "$ref"] = some (.num 5) ∧
    isObj (.num 5) = false ∧
    resolveReferences exampleEnv 3 (.obj shadowedFaultDoc) "." ["root.json"] =
      .ok (.obj [("a", .obj [("x", .num 1), ("y", .num 2)])]) ∧
    resolveReferences exampleEnv 10 (.obj shadowedFaultDoc) "." ["root.json"] =
      .ok (.obj [("a", .obj [("x", .num 1), ("y", .num 2)])]) :=
  ⟨rfl, rfl, rfl, rfl⟩

/-- C17 (amended): a fault of a reference that the walk meets is fatal.  When
the root, or the value the reference of a visited object selects, or an object
value of a visited object as it stands after that object's own reference was
expanded, has a `$ref` that is not an object, or lacks a string `path`, or
names a file that cannot be loaded, or a `key` absent from the file's root
object, or selects a value that is not an object, then no run of
`resolveReferences` on the root returns a tree; and with finitely many
loadable files the run settles, from some amount of fuel on, on one result,
which is a returned error whenever it is not the run-time panic of line
256. -/
theorem fault_met_by_the_walk_is_fatal (env : Env) (data : Json)
    (basePath : String) (referencedFiles : List String)
    (hfault : Faulty env data basePath referencedFiles) :
    (∀ fuel out,
      resolveReferences env fuel data basePath referencedFiles ≠ .ok out) ∧
    (∀ known : List String, (∀ p, env.files p ≠ none → p ∈ known) →
      ∃ N, ∀ fuel, N ≤ fuel →
        resolveReferences env fuel data basePath referencedFiles =
          resolveReferences env N data basePath referencedFiles ∧
        (isPanic (resolveReferences env N data basePath referencedFiles) = false →
          returnsError (resolveReferences env N data basePath referencedFiles) =
            true)) := by
  have hnever := faulty_never_ok env data basePath referencedFiles hfault
  refine ⟨hnever, fun known hknown => ?_⟩
  obtain ⟨N, hN⟩ := resolve_settles env known hknown
    (unvisited known referencedFiles) data basePath referencedFiles (le_refl _)
  have hmono := resolve_mono env N data basePath referencedFiles hN
  refine ⟨N, fun fuel hf => ⟨hmono fuel hf, fun hp => ?_⟩⟩
  rcases settled_cases _ hN with ⟨t, ht⟩ | hret | hpanic
  · exact absurd ht (hnever N t)
  · exact hret
  · rw [hpanic] at hp
    cases hp

theorem fault_met_by_the_walk_is_fatal_witness :
    Faulty exampleEnv (.obj besideRefFaultDoc) "." ["root.json"] ∧
    ((∀ fuel out,
        resolveReferences exampleEnv fuel (.obj besideRefFaultDoc) "."
          ["root.json"] ≠ .ok out) ∧
      (∀ known : List String, (∀ p, exampleEnv.files p ≠ none → p ∈ known) →
        ∃ N, ∀ fuel, N ≤ fuel →
          resolveReferences exampleEnv fuel (.obj besideRefFaultDoc) "."
              ["root.json"] =
            resolveReferences exampleEnv N (.obj besideRefFaultDoc) "."
              ["root.json"] ∧
          (isPanic (resolveReferences exampleEnv N (.obj besideRefFaultDoc) "."
              ["root.json"]) = false →
            returnsError (resolveReferences exampleEnv N (.obj besideRefFaultDoc)
              "." ["root.json"]) = true))) ∧
    resolveReferences exampleEnv 3 (.obj besideRefFaultDoc) "." ["root.json"] =
      .error (.invalidReferenceData (.num 5)) ∧
    returnsError (resolveReferences exampleEnv 3 (.obj besideRefFaultDoc) "."
      ["root.json"]) = true ∧
    resolveReferences exampleEnv 3 (.obj panicBesideFaultDoc) "." ["root.json"] =
      .error (.assertionPanic (.num 1)) :=
  have hF : Faulty exampleEnv (.obj besideRefFaultDoc) "." ["root.json"] :=
    Faulty.inNested besideRefFaultDoc "." ["root.json"] 2
      [("c", .obj [("$ref", .num 5)]), ("a", .obj [("x", .num 1), ("y", .num 2)])]
      ["root.json", "b.json"] "c" [("$ref", .num 5)] rfl
      (List.mem_cons_self _ _)
      (Faulty.refNotObject [("$ref", .num 5)] "." ["root.json", "b.json"] (.num 5)
        rfl rfl)
  ⟨hF, fault_met_by_the_walk_is_fatal exampleEnv (.obj besideRefFaultDoc) "."
    ["root.json"] hF, rfl, rfl, rfl⟩

end JsonRefUtil
